import Mathlib

/-!
Verification of the labyrinth-game maze-search core.

This file shallowly embeds the Python sources of the maze-search engine
(`node.py`, `model.py`, `search/search_algorithms.py` and its four concrete
strategy subclasses, `maze/maze_generator.py`, `controller.py`) as Lean
definitions and proves, or refutes, the specification's claims about them.

Conventions of the embedding:
* the mutable object graph of `Node` instances is modelled as an append-only
  arena of immutable records plus a parallel table of mutable `children`
  maps (Python `OrderedDict`s become insertion-ordered association lists);
* Python `dict`s (`visited`, `cost_so_far`) become insertion-ordered
  association lists with replace-in-place update, which is exactly the
  observable behaviour of a Python dict;
* the `while` loops are run on explicit fuel; the chosen fuel is proved
  (or, for the generator, checked on the concrete inputs used) to exceed
  the number of iterations the loop can perform, so the embedded loop
  computes the same result as the unbounded Python loop;
* `random.shuffle` is modelled by a stream `Nat → Nat` of permutation
  indices and `random.random() < branch_factor` by a stream `Nat → Bool`
  of branch decisions; quantifying over all streams covers every possible
  behaviour of the random number generator for every `branch_factor`;
* Python `IndexError` on out-of-range list assignment is modelled by a
  checked write returning `Except`.
-/

namespace Labyrinth

/-! ## Association lists with Python-dict semantics -/

/-- Lookup in an association list (first matching key). -/
def alookup {κ α : Type} [DecidableEq κ] (l : List (κ × α)) (k : κ) : Option α :=
  match l with
  | [] => none
  | (k', v) :: t => if k' = k then some v else alookup t k

/-- Python-dict assignment: replace in place if the key is present
(keeping its position, as `dict` and `OrderedDict` do), else append. -/
def aupd {κ α : Type} [DecidableEq κ] (l : List (κ × α)) (k : κ) (v : α) : List (κ × α) :=
  match l with
  | [] => [(k, v)]
  | (k', v') :: t => if k' = k then (k, v) :: t else (k', v') :: aupd t k v

/-! ## Grids

A maze grid is a rectangular list of rows of characters, the embedding of a
Python `list` of `list`s of single characters (or, once frozen, of strings).
`'#'` is a wall; anything else is a passage. -/

/-- A grid: list of rows, each a list of characters. -/
abbrev Grid := List (List Char)

/-- A cell coordinate, `(row, col)`. -/
abbrev Cell := Nat × Nat

/-- Number of rows, `len(grid)`. -/
def gridRows (g : Grid) : Nat := g.length

/-- Number of columns, `len(grid[0])`. -/
def gridCols (g : Grid) : Nat := (g.headD []).length

/-- Read a cell.  All reads performed by the embedded code are guarded by
the same bounds checks the Python code performs, so the default `'#'` for
an out-of-range read is never observable. -/
def getCell (g : Grid) (r c : Nat) : Char := ((g.getD r []).getD c '#')

/-- Checked cell write: Python list assignment `grid[r][c] = ch`, which
raises `IndexError` when an index is out of range. -/
def setCellE (g : Grid) (r c : Nat) (ch : Char) : Except String Grid :=
  match h : g.get? r with
  | none => .error "IndexError: row"
  | some row =>
      if c < row.length then
        .ok (g.set r (row.set c ch))
      else .error "IndexError: col"

/-- A cell is a passage cell of the grid: in bounds and not a wall. -/
def isPassage (g : Grid) (p : Cell) : Prop :=
  p.1 < gridRows g ∧ p.2 < gridCols g ∧ getCell g p.1 p.2 ≠ '#'

instance (g : Grid) (p : Cell) : Decidable (isPassage g p) :=
  inferInstanceAs (Decidable (p.1 < gridRows g ∧ p.2 < gridCols g ∧ getCell g p.1 p.2 ≠ '#'))

/-! ## Search nodes and the object arena (`node.py`)

A Python `Node` is a mutable object.  In the search engine the fields
`row`, `col`, `id` are fixed at creation; `parent`, `cumulative_cost` and
`step_cost` are assigned exactly once per object by `extend` (or, for the
root, once by `search` before the loop); only the `children` ordered
dictionary is mutated repeatedly.  We therefore model objects as an
append-only arena of immutable `Obj` records (arena index = object
identity) together with a parallel table of `children` maps. -/

/-- `Node.id`: `(row << 16) | col`. -/
def nodeId (r c : Nat) : Nat := (r <<< 16) ||| c

/-- `nodeId` of a cell pair. -/
def cellId (p : Cell) : Nat := nodeId p.1 p.2

/-- One `Node` object, immutable part.  `parent` is an arena index. -/
structure Obj where
  row : Nat
  col : Nat
  parent : Option Nat
  cum : Nat
  step : Nat
  oid : Nat
  deriving DecidableEq, Repr

/-- The cell of an object. -/
def Obj.cell (o : Obj) : Cell := (o.row, o.col)

/-! ## The maze model (`model.py`) -/

/-- `MazeModel.get_neighbors`: the 4-directional neighbours of a cell that
are inside the grid and not walls, in the order up, down, left, right.
(The Python code builds a fresh `Node` per neighbour; only neighbours that
get relaxed are ever stored, so the embedding allocates objects at
relaxation time instead.) -/
def getNeighbors (g : Grid) (row col : Nat) : List Cell :=
  [((-1 : Int), (0 : Int)), (1, 0), (0, -1), (0, 1)].filterMap
    (fun d =>
      let nr : Int := (row : Int) + d.1
      let nc : Int := (col : Int) + d.2
      if 0 ≤ nr ∧ nr < (gridRows g : Int) ∧ 0 ≤ nc ∧ nc < (gridCols g : Int) ∧
          getCell g nr.toNat nc.toNat ≠ '#' then
        some (nr.toNat, nc.toNat)
      else none)

/-! ## The fringe search engine (`search_algorithms.py` and subclasses) -/

/-- The four concrete strategies (the closed set of `FringeSearch`
subclasses). -/
inductive Strategy where
  | bfs | dfs | ucs | astar
  deriving DecidableEq, Repr

/-- A fringe entry `(priority, counter, node)`.  For `bfs`/`dfs` the fringe
is a plain deque/list of nodes and the first two components are unused. -/
abbrev Entry := Nat × Nat × Nat

/-- Lexicographic order on `(priority, counter)` — how `heapq` compares the
tuples it stores (the counter is unique, so the node is never compared). -/
def entryLe (a b : Entry) : Prop := a.1 < b.1 ∨ (a.1 = b.1 ∧ a.2.1 ≤ b.2.1)

instance (a b : Entry) : Decidable (entryLe a b) :=
  inferInstanceAs (Decidable (a.1 < b.1 ∨ (a.1 = b.1 ∧ a.2.1 ≤ b.2.1)))

/-- Select the minimal entry of a non-empty list under `entryLe`
(`heapq.heappop`; the minimum is unique because counters are unique). -/
def minEntry (e : Entry) (l : List Entry) : Entry :=
  match l with
  | [] => e
  | e' :: t => if entryLe e e' then minEntry e t else minEntry e' t

/-- Remove the first occurrence of an entry. -/
def removeEntry (l : List Entry) (e : Entry) : List Entry :=
  match l with
  | [] => []
  | e' :: t => if e' = e then t else e' :: removeEntry t e

/-- `pop_fringe`: `popleft` for `bfs` (FIFO deque), `pop` (last element) for
`dfs` (stack), `heappop` (minimal `(priority, counter)`) for `ucs`/`astar`. -/
def popFringe (s : Strategy) (l : List Entry) : Option (Entry × List Entry) :=
  match l with
  | [] => none
  | e :: t =>
      match s with
      | .bfs => some (e, t)
      | .dfs => some ((e :: t).getLast (by simp), (e :: t).dropLast)
      | .ucs | .astar =>
          let m := minEntry e t
          some (m, removeEntry (e :: t) m)

/-- Manhattan distance between two cells (`AStarSearch.heuristic`). -/
def manhattan (a b : Cell) : Nat :=
  (max a.1 b.1 - min a.1 b.1) + (max a.2 b.2 - min a.2 b.2)

/-- `push_fringe`: append for `bfs`/`dfs`; for `ucs` push with the given
priority; for `astar` push with `priority + heuristic(node)`. -/
def pushFringe (s : Strategy) (goal : Cell) (l : List Entry)
    (node : Nat) (prio : Nat) (cnt : Nat) (cell : Cell) : List Entry :=
  match s with
  | .bfs | .dfs => l ++ [(prio, cnt, node)]
  | .ucs => l ++ [(prio, cnt, node)]
  | .astar => l ++ [(prio + manhattan cell goal, cnt, node)]

/-- `cost_function current neighbor`: constant `1` for `bfs`/`dfs`;
`neighbor.step_cost` for `ucs`/`astar`.  The neighbour `Node` objects built
by `get_neighbors` always carry the default `step_cost = 1` — the maze's
cost map is never consulted — so the argument passed here is the
neighbour's step cost as stored on the fresh object. -/
def costFunction (s : Strategy) (neighborStep : Nat) : Nat :=
  match s with
  | .bfs | .dfs => 1
  | .ucs | .astar => neighborStep

/-- The mutable state of one run of `FringeSearch.search`. -/
structure SState where
  arena : List Obj
  children : List (List (Nat × Nat))
  visited : List (Nat × Nat)
  csf : List (Nat × Nat)
  fringe : List Entry
  counter : Nat
  deriving Repr

/-- One exploration snapshot: the current node, the tree root (the start
node, arena index 0) and the visited nodes in dict order. -/
structure Snap where
  current : Nat
  tree : Nat
  visited : List Nat
  deriving DecidableEq, Repr

/-- Object lookup with an inert default (never observable on the states the
search constructs, where every stored index is in range). -/
def objAt (st : SState) (i : Nat) : Obj :=
  st.arena.getD i ⟨0, 0, none, 0, 0, 0⟩

/-- Relax one neighbour cell (the body of the `for` loop of
`FringeSearch.extend`): compute
`new_cost = cost_so_far[current.id] + cost_function(current, neighbor)` and,
if the neighbour was never relaxed or the new cost is strictly smaller,
record cost and parent, attach the (fresh) neighbour object as a child of
the current node, mark it visited and push it with priority `new_cost`. -/
def relaxOne (s : Strategy) (goal : Cell) (curIdx : Nat) (st : SState)
    (cell : Cell) : SState :=
  let cur := objAt st curIdx
  let nid := cellId cell
  let curCost := (alookup st.csf cur.oid).getD 0
  let nStep := 1
  let newCost := curCost + costFunction s nStep
  let doIt :=
    match alookup st.csf nid with
    | none => true
    | some old => decide (newCost < old)
  if doIt then
    let newIdx := st.arena.length
    { arena := st.arena ++ [⟨cell.1, cell.2, some curIdx, newCost, nStep, nid⟩]
      children := (st.children.set curIdx
          (aupd (st.children.getD curIdx []) nid newIdx)) ++ [[]]
      visited := aupd st.visited nid newIdx
      csf := aupd st.csf nid newCost
      fringe := pushFringe s goal st.fringe newIdx newCost st.counter cell
      counter := st.counter + 1 }
  else st

/-- `FringeSearch.extend`: relax every non-wall 4-neighbour of the current
node in order. -/
def extend (s : Strategy) (g : Grid) (goal : Cell) (curIdx : Nat)
    (st : SState) : SState :=
  (getNeighbors g (objAt st curIdx).row (objAt st curIdx).col).foldl
    (relaxOne s goal curIdx) st

/-- One iteration of the `while fringe:` loop: pop the next node, build the
snapshot to yield, and report whether the popped node equals the goal
(`Node.__eq__` compares ids).  `none` when the fringe is empty. -/
def searchStep (s : Strategy) (g : Grid) (goal : Cell) (st : SState) :
    Option (Snap × SState × Bool) :=
  match popFringe s st.fringe with
  | none => none
  | some (e, rest) =>
      let st1 : SState := { st with fringe := rest }
      let curIdx := e.2.2
      let snap : Snap := ⟨curIdx, 0, st1.visited.map (·.2)⟩
      if (objAt st1 curIdx).oid = cellId goal then
        some (snap, st1, true)
      else
        some (snap, extend s g goal curIdx st1, false)

/-- The initial search state: the root object is the start node with
`cumulative_cost` set to `0`, `visited = {start.id: start}`,
`cost_so_far = {start.id: 0}`, and the fringe initialized with the start
node (for `ucs`/`astar` as the heap entry `(0, 0, start)` with the
tie-break counter then at 1; for `bfs`/`dfs` the two extra fields are
unused padding of the deque/list cell). -/
def initState (start : Cell) : SState :=
  { arena := [⟨start.1, start.2, none, 0, 1, cellId start⟩]
    children := [[]]
    visited := [(cellId start, 0)]
    csf := [(cellId start, 0)]
    fringe := [(0, 0, 0)]
    counter := 1 }

/-- The result of a full run: the yielded snapshots, the final state, and
whether the loop exited on its own (goal popped or fringe empty) rather
than by fuel exhaustion. -/
structure RunResult where
  snaps : List Snap
  state : SState
  lastCur : Option Nat
  finished : Bool
  deriving Repr

/-- The `while fringe:` loop of `FringeSearch.search` (and of the verbatim
copy of it in `AStarSearch.search`), on fuel. -/
def searchLoop (s : Strategy) (g : Grid) (goal : Cell) :
    Nat → SState → Option Nat → RunResult
  | 0, st, last => ⟨[], st, last, false⟩
  | fuel + 1, st, last =>
      match searchStep s g goal st with
      | none => ⟨[], st, last, true⟩
      | some (snap, st', isGoal) =>
          if isGoal then ⟨[snap], st', some snap.current, true⟩
          else
            let r := searchLoop s g goal fuel st' (some snap.current)
            ⟨snap :: r.snaps, r.state, r.lastCur, r.finished⟩

/-- Fuel that provably exceeds the number of loop iterations (see the
termination development below): the loop measure starts below
`rows·cols·rows·cols + 2`. -/
def searchFuel (g : Grid) : Nat :=
  gridRows g * gridCols g * (gridRows g * gridCols g) + 2

/-- A full run of `search(model, start, goal)`: run the loop, then append
the one extra snapshot yielded after the loop (repeating the last popped
node).  If the loop never ran (impossible: the fringe starts non-empty)
there is no last node and no final snapshot is produced. -/
def searchRun (s : Strategy) (g : Grid) (start goal : Cell) : RunResult :=
  let r := searchLoop s g goal (searchFuel g) (initState start) none
  match r.lastCur with
  | none => r
  | some c =>
      { r with snaps := r.snaps ++ [⟨c, 0, r.state.visited.map (·.2)⟩] }

/-- `SearchAlgorithm.reconstruct_path`: walk parent pointers from a node up
to the root, then reverse.  On every state the search engine builds, a
parent's arena index is strictly smaller than its child's, so fuel `i + 1`
always reaches the parentless root. -/
def pathUpAux (arena : List Obj) : Nat → Nat → List Nat
  | 0, i => [i]
  | f + 1, i =>
      match (arena.getD i ⟨0, 0, none, 0, 0, 0⟩).parent with
      | none => [i]
      | some p => i :: pathUpAux arena f p

def pathUp (arena : List Obj) (i : Nat) : List Nat := pathUpAux arena i i

/-- `reconstruct_path` as a list of arena indices, start first. -/
def reconstructPath (arena : List Obj) (i : Nat) : List Nat :=
  (pathUp arena i).reverse

/-! ## The maze generator (`maze/maze_generator.py`)

Randomness model: each call to `random.shuffle` consumes one value of a
stream `Nat → Nat` and applies the permutation it indexes (every
permutation of a 4-element list is reachable, so quantifying over streams
covers every run of the Python code); each evaluation of
`random.random() < branch_factor` consumes one value of a stream
`Nat → Bool` (which covers every run for every `branch_factor`). -/

/-- Advance a stream past its consumed head. -/
def advRng {α : Type} (f : Nat → α) : Nat → α := fun n => f (n + 1)

/-- The permutation of `l` selected by index `k` (factorial indexing):
repeatedly extract the element at position `k % length`.  The image of
`permuteBy · l` over all `k` is every permutation of `l`.  The auxiliary
fuel is the list length, which the recursion consumes in lockstep. -/
def permuteByAux {α : Type} : Nat → Nat → List α → List α
  | 0, _, _ => []
  | _, _, [] => []
  | f + 1, k, x :: t =>
      let n := t.length + 1
      let i := k % n
      let y := (x :: t).getD i x
      let rest := (x :: t).eraseIdx i
      y :: permuteByAux f (k / n) rest

def permuteBy {α : Type} (k : Nat) (l : List α) : List α :=
  permuteByAux l.length k l

/-- Unchecked cell write (`grid[r][c] = ch`): used only inside the carve
and branch loops, where the Python indices are within the bounds the
surrounding checks establish; out of range it is a no-op. -/
def setCell (g : Grid) (r c : Nat) (ch : Char) : Grid :=
  g.set r ((g.getD r []).set c ch)

/-- The two-step carve directions of `_carve_passages_from`. -/
def carveDirs : List (Int × Int) := [(2, 0), (-2, 0), (0, 2), (0, -2)]

/-- The `for dx, dy in directions:` loop of `_carve_passages_from`
(`carveList fuel ds g rng cx cy w h`): if the two-step neighbour is
strictly inside the grid and still a wall, knock down the intervening wall
cell and the neighbour cell and recurse from the neighbour (shuffling a
fresh direction list), then continue with the remaining directions.  The
fuel bounds the recursion depth; each recursive descent happens only after
a wall cell was just turned into a passage, so depth `width·height + 1` is
never exhausted on the inputs the generator reaches. -/
def carveList : Nat → List (Int × Int) → Grid → (Nat → Nat) → Nat → Nat →
    Nat → Nat → Except String (Grid × (Nat → Nat))
  | 0, _, _, _, _, _, _, _ => .error "carve recursion depth exceeded"
  | _ + 1, [], g, rng, _, _, _, _ => .ok (g, rng)
  | fuel + 1, (dx, dy) :: ds, g, rng, cx, cy, w, h =>
      let nx : Int := (cx : Int) + dx
      let ny : Int := (cy : Int) + dy
      if 0 < nx ∧ nx < (w : Int) ∧ 0 < ny ∧ ny < (h : Int) ∧
          getCell g ny.toNat nx.toNat = '#' then
        let g1 := setCell g ((cy : Int) + dy / 2).toNat ((cx : Int) + dx / 2).toNat ' '
        let g2 := setCell g1 ny.toNat nx.toNat ' '
        match carveList fuel (permuteBy (rng 0) carveDirs) g2 (advRng rng)
            nx.toNat ny.toNat w h with
        | .error e => .error e
        | .ok (g3, rng') => carveList fuel ds g3 rng' cx cy w h
      else carveList fuel ds g rng cx cy w h

/-- `_carve_passages_from(cx, cy)` proper: shuffle the four two-step
directions and process them. -/
def carveFrom (fuel : Nat) (g : Grid) (rng : Nat → Nat) (cx cy w h : Nat) :
    Except String (Grid × (Nat → Nat)) :=
  carveList fuel (permuteBy (rng 0) carveDirs) g (advRng rng) cx cy w h

/-- The body of `_add_branches` for one interior cell `(r, c)`: if it is a
wall with at least one passage (`' '`) 4-neighbour, consume one branch
decision and carve it when the decision fires. -/
def branchCell (g : Grid) (br : Nat → Bool) (r c : Nat) :
    Grid × (Nat → Bool) :=
  if getCell g r c = '#' then
    if getCell g (r - 1) c = ' ' ∨ getCell g (r + 1) c = ' ' ∨
        getCell g r (c - 1) = ' ' ∨ getCell g r (c + 1) = ' ' then
      if br 0 then (setCell g r c ' ', advRng br) else (g, advRng br)
    else (g, br)
  else (g, br)

/-- `_add_branches`: scan the interior cells row-major
(`r in range(1, height-1)`, `c in range(1, width-1)`). -/
def addBranches (g : Grid) (br : Nat → Bool) (w h : Nat) :
    Grid × (Nat → Bool) :=
  ((List.range (h - 2)).map (· + 1)).foldl
    (fun acc r =>
      ((List.range (w - 2)).map (· + 1)).foldl
        (fun acc' c => branchCell acc'.1 acc'.2 r c) acc)
    (g, br)

/-- The state of the `_find_farthest_cell` BFS.  Cells are `(x, y)` pairs
as in the Python code.  `pops` is a ghost trace of the dequeued cells with
their distances, recorded for the theorems; it does not influence the
result. -/
structure FarState where
  queue : List (Nat × Nat)
  visited : List (Nat × Nat)
  dists : List ((Nat × Nat) × Nat)
  farthest : Nat × Nat
  maxd : Nat
  pops : List ((Nat × Nat) × Nat)
  deriving Repr

/-- The neighbour directions of `_find_farthest_cell`. -/
def farDirs : List (Int × Int) := [(1, 0), (-1, 0), (0, 1), (0, -1)]

/-- One iteration of the `while queue:` loop of `_find_farthest_cell`:
dequeue `(cx, cy)`, update the farthest record if its distance exceeds the
maximum, then enqueue every in-bounds unvisited passage neighbour with
distance `d + 1`. -/
def farStep (g : Grid) (w h : Nat) (st : FarState) : Option FarState :=
  match st.queue with
  | [] => none
  | (cx, cy) :: rest =>
      let d := (alookup st.dists (cx, cy)).getD 0
      let far' := if st.maxd < d then (cx, cy) else st.farthest
      let maxd' := if st.maxd < d then d else st.maxd
      let st0 : FarState :=
        { st with
          queue := rest
          farthest := far'
          maxd := maxd'
          pops := st.pops ++ [((cx, cy), d)] }
      let st1 := farDirs.foldl
        (fun acc dir =>
          let nx : Int := (cx : Int) + dir.1
          let ny : Int := (cy : Int) + dir.2
          if 0 ≤ nx ∧ nx < (w : Int) ∧ 0 ≤ ny ∧ ny < (h : Int) ∧
              (nx.toNat, ny.toNat) ∉ acc.visited ∧
              getCell g ny.toNat nx.toNat ≠ '#' then
            { acc with
              visited := acc.visited ++ [(nx.toNat, ny.toNat)]
              dists := aupd acc.dists (nx.toNat, ny.toNat) (d + 1)
              queue := acc.queue ++ [(nx.toNat, ny.toNat)] }
          else acc)
        st0
      some st1

/-- The neighbour-processing body of one BFS iteration (the `for dx, dy`
loop of `_find_farthest_cell`), as a named function for the theorems: it is
definitionally the fold body of `farStep`. -/
def farVisit (g : Grid) (w h cx cy d : Nat) (acc : FarState)
    (dir : Int × Int) : FarState :=
  let nx : Int := (cx : Int) + dir.1
  let ny : Int := (cy : Int) + dir.2
  if 0 ≤ nx ∧ nx < (w : Int) ∧ 0 ≤ ny ∧ ny < (h : Int) ∧
      (nx.toNat, ny.toNat) ∉ acc.visited ∧
      getCell g ny.toNat nx.toNat ≠ '#' then
    { acc with
      visited := acc.visited ++ [(nx.toNat, ny.toNat)]
      dists := aupd acc.dists (nx.toNat, ny.toNat) (d + 1)
      queue := acc.queue ++ [(nx.toNat, ny.toNat)] }
  else acc

/-- The `while queue:` loop of `_find_farthest_cell`, on fuel. -/
def farLoop (g : Grid) (w h : Nat) : Nat → FarState → Except String FarState
  | 0, st => if st.queue.isEmpty then .ok st else .error "farthest loop fuel"
  | fuel + 1, st =>
      match farStep g w h st with
      | none => .ok st
      | some st' => farLoop g w h fuel st'

/-- Initial state of `_find_farthest_cell(start_x, start_y)`. -/
def farInit (sx sy : Nat) : FarState :=
  ⟨[(sx, sy)], [(sx, sy)], [((sx, sy), 0)], (sx, sy), 0, []⟩

/-- The full `_find_farthest_cell` run; returns the final BFS state, whose
`farthest` field is the Python return value `(x, y)`. -/
def farRun (g : Grid) (w h sx sy : Nat) : Except String FarState :=
  farLoop g w h (w * h + 1) (farInit sx sy)

/-- The `Maze` dataclass.  `grid` keeps the characters of the row strings;
`start`/`goal` are `(row, col)` pairs, i.e. the Python `(y, x)` tuples. -/
structure Maze where
  grid : Grid
  start : Cell
  goal : Cell
  costs : List (Cell × Nat)
  deriving Repr, DecidableEq

/-- The cost-assignment loop at the end of `generate`: every passage cell
gets cost 1. -/
def assignCosts (g : Grid) (w h : Nat) : List (Cell × Nat) :=
  (List.range h).foldr
    (fun r acc =>
      ((List.range w).filterMap
        (fun c => if getCell g r c ≠ '#' then some ((r, c), 1) else none)) ++ acc)
    []

/-- `MazeGenerator.__init__(width, height, ...)`: normalize even dimensions
to odd by adding 1 and allocate the all-wall grid.  Note: there is no
validation of any kind — every `width`/`height` is accepted. -/
structure GenData where
  width : Nat
  height : Nat
  grid : Grid
  deriving Repr

def mazeGenInit (width height : Nat) : GenData :=
  let width := if width % 2 = 0 then width + 1 else width
  let height := if height % 2 = 0 then height + 1 else height
  ⟨width, height, List.replicate height (List.replicate width '#')⟩

/-- `MazeGenerator.generate()` run on the state produced by `__init__`:
mark `(1,1)` as passage (an out-of-range grid raises `IndexError` here),
carve, add branches, pick the farthest cell as goal, mark `S` and `G`,
and assemble the `Maze` with unit costs on passage cells. -/
def generateFrom (d : GenData) (rng : Nat → Nat) (br : Nat → Bool) :
    Except String Maze :=
  match setCellE d.grid 1 1 ' ' with
  | .error e => .error e
  | .ok g1 =>
      match carveFrom (5 * (d.width * d.height + 2)) g1 rng 1 1 d.width d.height with
      | .error e => .error e
      | .ok (g2, _) =>
          let g3 := (addBranches g2 br d.width d.height).1
          match farRun g3 d.width d.height 1 1 with
          | .error e => .error e
          | .ok fs =>
              let gx := fs.farthest.1
              let gy := fs.farthest.2
              match setCellE g3 1 1 'S' with
              | .error e => .error e
              | .ok g4 =>
                  match setCellE g4 gy gx 'G' with
                  | .error e => .error e
                  | .ok g5 =>
                      .ok ⟨g5, (1, 1), (gy, gx),
                        assignCosts g5 d.width d.height⟩

/-- `MazeGenerator(width, height).generate()`. -/
def generate (width height : Nat) (rng : Nat → Nat) (br : Nat → Bool) :
    Except String Maze :=
  generateFrom (mazeGenInit width height) rng br

/-- The grid state of `generate` right after `_add_branches`, i.e. the
grid `_find_farthest_cell` runs on (the prefix of the `generate` pipeline,
re-traced for the theorems). -/
def genGrid (width height : Nat) (rng : Nat → Nat) (br : Nat → Bool) :
    Except String Grid :=
  let d := mazeGenInit width height
  match setCellE d.grid 1 1 ' ' with
  | .error e => .error e
  | .ok g1 =>
      match carveFrom (5 * (d.width * d.height + 2)) g1 rng 1 1
          d.width d.height with
      | .error e => .error e
      | .ok (g2, _) => .ok (addBranches g2 br d.width d.height).1

/-! ## The controller (`controller.py`, search-relevant part)

The generator object `self.search_generator` is modelled by the run's
snapshot list plus a cursor; `next()` past the end is `StopIteration`.
The player-motion update in the `MOVING` state is out of scope (§1 of the
spec) and is the identity here. -/

/-- `GameState` (`game_state.py`): the complete, closed set of states. -/
inductive GState where
  | paused | searching | moving | quit
  deriving DecidableEq, Repr

/-- Controller state (the fields `update` interacts with). -/
structure Ctrl where
  state : GState
  generator : Option (RunResult × Nat)
  searchSt : Option Snap
  playerPath : List Nat
  playerIndex : Nat
  deriving Repr

/-- `set_algorithm`: bind the strategy's search run and enter SEARCHING. -/
def setAlgorithm (c : Ctrl) (r : RunResult) : Ctrl :=
  { c with state := .searching, generator := some (r, 0) }

/-- `GameController.update` (one tick).  In SEARCHING, advance the
generator by one snapshot; on `StopIteration` reconstruct the path from
`search_state["current"]` — whatever node that is — install it on the
player, and enter MOVING. -/
def ctrlUpdate (c : Ctrl) : Ctrl :=
  match c.state with
  | .searching =>
      match c.generator with
      | none => c
      | some (r, i) =>
          if h : i < r.snaps.length then
            { c with searchSt := some (r.snaps.get ⟨i, h⟩),
                     generator := some (r, i + 1) }
          else
            { c with
              playerPath := reconstructPath r.state.arena
                ((c.searchSt.map (·.current)).getD 0)
              playerIndex := 0
              state := .moving
              generator := none }
  | _ => c

/-- The initial controller state (`__init__`: PAUSED, nothing bound). -/
def ctrlInit : Ctrl := ⟨.paused, none, none, [], 0⟩

/-! ## Spec-side definitions: the graph of a maze

These definitions are the mathematical reading of the spec's notions
("4-directional movement through passage cells", shortest-hop distance):
they are compared against the embedded code, not derived from it. -/

/-- Two coordinates are 4-adjacent. -/
def adjCoord (a b : Cell) : Prop :=
  (a.1 = b.1 ∧ (a.2 + 1 = b.2 ∨ b.2 + 1 = a.2)) ∨
  (a.2 = b.2 ∧ (a.1 + 1 = b.1 ∨ b.1 + 1 = a.1))

instance (a b : Cell) : Decidable (adjCoord a b) :=
  inferInstanceAs (Decidable ((a.1 = b.1 ∧ (a.2 + 1 = b.2 ∨ b.2 + 1 = a.2)) ∨
    (a.2 = b.2 ∧ (a.1 + 1 = b.1 ∨ b.1 + 1 = a.1))))

/-- Adjacency of the maze graph: both cells are passages and 4-adjacent. -/
def mazeAdj (g : Grid) (a b : Cell) : Prop :=
  isPassage g a ∧ isPassage g b ∧ adjCoord a b

instance (g : Grid) (a b : Cell) : Decidable (mazeAdj g a b) :=
  inferInstanceAs (Decidable (isPassage g a ∧ isPassage g b ∧ adjCoord a b))

/-- The maze as a simple graph on cell coordinates. -/
def mazeGraph (g : Grid) : SimpleGraph Cell where
  Adj := mazeAdj g
  symm := by
    intro a b h
    obtain ⟨ha, hb, hadj⟩ := h
    refine ⟨hb, ha, ?_⟩
    unfold adjCoord at hadj ⊢
    rcases hadj with ⟨h1, h2⟩ | ⟨h1, h2⟩
    · exact Or.inl ⟨h1.symm, h2.symm⟩
    · exact Or.inr ⟨h1.symm, h2.symm⟩
  loopless := by
    intro a h
    obtain ⟨-, -, hadj⟩ := h
    unfold adjCoord at hadj
    omega

/-- Node membership in the search tree: reachable from the root (index 0)
by following `children` links. -/
inductive InTree (ch : List (List (Nat × Nat))) : Nat → Prop where
  | root : InTree ch 0
  | step {p i : Nat} (id : Nat) :
      InTree ch p → alookup (ch.getD p []) id = some i → InTree ch i

/-- The default object used for (never observable) out-of-range arena
reads. -/
def oDefault : Obj := ⟨0, 0, none, 0, 0, 0⟩

/-- The cell of the arena object at an index of a finished run. -/
def cellOfIdx (r : RunResult) (i : Nat) : Cell := (r.state.arena.getD i oDefault).cell

/-- The reconstructed path of a finished run, as cells:
`reconstruct_path(search_state["current"])` — exactly what the controller
computes when the generator is exhausted. -/
def runPathCells (r : RunResult) : List Cell :=
  (reconstructPath r.state.arena (r.lastCur.getD 0)).map (cellOfIdx r)

/-- Total cost of a path under a maze's cost map, "the sum over its edges
of the neighbor's assigned step cost from the maze's cost map": each edge
contributes the cost of the cell it enters. -/
def costMapTotal (costs : List (Cell × Nat)) (p : List Cell) : Nat :=
  ((p.drop 1).map (fun c => (alookup costs c).getD 0)).sum

/-- One observable step of the search driver: apply `searchStep` if the
loop is still running; stop running on goal or fringe exhaustion.  Iterated
from the initial state, this enumerates exactly the states the Python
`while` loop passes through. -/
def stepState (s : Strategy) (g : Grid) (goal : Cell) :
    SState × Bool → SState × Bool
  | (st, running) =>
      if running then
        match searchStep s g goal st with
        | none => (st, false)
        | some (_, st', isGoal) => (st', !isGoal)
      else (st, running)

/-- The search state after `n` driver steps. -/
def runState (s : Strategy) (g : Grid) (start goal : Cell) (n : Nat) :
    SState × Bool :=
  (stepState s g goal)^[n] (initState start, true)

/-- "The last cell dequeued whose distance exceeds the previous maximum"
(spec §4.1, step 4) as a fold over the dequeue trace — written from the
spec's words, to be compared with the generator's record updates. -/
def lastRecordHolder (start : Nat × Nat) (pops : List ((Nat × Nat) × Nat)) :
    Nat × Nat :=
  (pops.foldl (fun acc pd => if acc.2 < pd.2 then pd else acc) (start, 0)).1

/-- Executable check that consecutive cells of a list are maze-adjacent
(the list is a walk through passage cells). -/
def chainAdjB (g : Grid) : List Cell → Bool
  | [] => true
  | [_] => true
  | a :: b :: t => decide (mazeAdj g a b) && chainAdjB g (b :: t)

/-! ## Concrete fixtures -/

/-- A trivial shuffle stream (identity permutations). -/
def rngZero : Nat → Nat := fun _ => 0

/-- A branch stream that never fires. -/
def brNever : Nat → Bool := fun _ => false

/-- Count occurrences of a character in a grid. -/
def countChar (g : Grid) (ch : Char) : Nat := (g.map (fun row => row.count ch)).sum

/-- A 5×5 ring maze: two hop-4 paths from `S`(1,1) to `G`(3,3). -/
def mazeRing : Grid := [
  ['#','#','#','#','#'],
  ['#','S',' ',' ','#'],
  ['#',' ','#',' ','#'],
  ['#',' ',' ','G','#'],
  ['#','#','#','#','#']]

/-- A cost map for `mazeRing` making the lower-left branch expensive and
the upper-right branch cheap. -/
def costsRing : List (Cell × Nat) :=
  [((1,1), 1), ((1,2), 1), ((1,3), 1), ((2,3), 1), ((3,3), 1),
   ((2,1), 9), ((3,1), 9), ((3,2), 9)]

/-- A ring maze with an unreachable goal (`G` is walled off): the search
exhausts its fringe, and DFS re-relaxes ring cells via cheaper paths. -/
def mazeRingE : Grid := [
  ['#','#','#','#','#','#','#'],
  ['#','S',' ',' ','#','G','#'],
  ['#',' ','#',' ','#','#','#'],
  ['#',' ',' ',' ','#','#','#'],
  ['#','#','#','#','#','#','#']]

/-- A disconnected two-chamber maze: `S` and `G` separated by a wall. -/
def mazeSplit : Grid := [
  ['#','#','#','#','#'],
  ['#','S','#','G','#'],
  ['#','#','#','#','#']]

/-- The breadth-first run on the disconnected maze. -/
def runSplit : RunResult := searchRun .bfs mazeSplit (1, 1) (1, 3)

/-- The controller after `n` ticks, having bound the `runSplit` search. -/
def ctrlAfter (n : Nat) : Ctrl := (ctrlUpdate)^[n] (setAlgorithm ctrlInit runSplit)

/-- A 4×3 corridor with adjacent `S`(1,1) and `G`(1,2). -/
def mazeDuo : Grid := [
  ['#','#','#','#'],
  ['#','S','G','#'],
  ['#','#','#','#']]

/-- The maze produced by `generate 5 5` under the zero shuffle stream and
the never-firing branch stream. -/
def mazeGen5 : Maze :=
  ⟨[['#', '#', '#', '#', '#'],
    ['#', 'S', ' ', ' ', '#'],
    ['#', '#', '#', ' ', '#'],
    ['#', 'G', ' ', ' ', '#'],
    ['#', '#', '#', '#', '#']],
   (1, 1), (3, 1),
   [((1, 1), 1), ((1, 2), 1), ((1, 3), 1), ((2, 3), 1), ((3, 1), 1),
    ((3, 2), 1), ((3, 3), 1)]⟩

/-! ## Search-state invariants (spec-side) -/

/-- Basic well-formedness of a search state: the children table parallels
the arena, every stored index points into the arena, and parent indices
strictly decrease (a parent object is older than its children). -/
def WFS (st : SState) : Prop :=
  st.children.length = st.arena.length ∧
  (∀ e ∈ st.fringe, e.2.2 < st.arena.length) ∧
  (∀ id oi, alookup st.visited id = some oi → oi < st.arena.length) ∧
  (∀ i p, i < st.arena.length → (st.arena.getD i oDefault).parent = some p → p < i)

/-- The tree invariant of the amended C2: every non-root cell recorded in
the visited set appears, with its current node object, in the children
collection of its current parent. -/
def TreeInv (startId : Nat) (st : SState) : Prop :=
  ∀ id oi, alookup st.visited id = some oi → id ≠ startId →
    ∃ p, (st.arena.getD oi oDefault).parent = some p ∧
      alookup (st.children.getD p []) id = some oi

/-- The cumulative cost stored on every visited node object agrees with
its `cost_so_far` entry. -/
def VisCum (st : SState) : Prop :=
  ∀ id oi, alookup st.visited id = some oi →
    alookup st.csf id = some (st.arena.getD oi oDefault).cum

/-- The cells of a grid, as a finite set. -/
def gridCells (g : Grid) : Finset Cell :=
  Finset.range (gridRows g) ×ˢ Finset.range (gridCols g)

/-- The termination measure contribution of `cost_so_far`: unrecorded
cells count as the (unattainable) default `rows·cols`. -/
def csfMeasure (g : Grid) (csf : List (Nat × Nat)) : Nat :=
  Finset.sum (gridCells g)
    (fun c => (alookup csf (cellId c)).getD (gridRows g * gridCols g))

/-- The loop termination measure: fringe size plus recorded-cost total. -/
def stMeasure (g : Grid) (st : SState) : Nat :=
  st.fringe.length + csfMeasure g st.csf

/-- A duplicate-free in-grid path from the start to `c` of length `v + 1`
whose cells are all recorded in `cost_so_far` at values bounded by their
position.  Such a path witnesses that the recorded value `v` is at most
the number of grid cells minus one. -/
def WitnessPath (g : Grid) (start : Cell) (csf : List (Nat × Nat))
    (c : Cell) (v : Nat) : Prop :=
  ∃ p : List Cell, p.Nodup ∧ p.head? = some start ∧ p.getLast? = some c ∧
    p.length = v + 1 ∧
    (∀ x ∈ p, x.1 < gridRows g ∧ x.2 < gridCols g) ∧
    (∀ i, i < p.length → ∃ w, alookup csf (cellId (p.getD i start)) = some w ∧ w ≤ i)

/-- Every `cost_so_far` entry is witnessed. -/
def CsfWitness (g : Grid) (start : Cell) (csf : List (Nat × Nat)) : Prop :=
  ∀ id v, alookup csf id = some v → ∃ c, cellId c = id ∧ WitnessPath g start csf c v

/-- Every arena object's cell id has a `cost_so_far` entry. -/
def ArenaCsf (st : SState) : Prop :=
  ∀ i, i < st.arena.length →
    ∃ w, alookup st.csf ((st.arena.getD i oDefault).oid) = some w

/-- The combined invariant of the termination development. -/
def MInv (g : Grid) (start : Cell) (st : SState) : Prop :=
  WFS st ∧ ArenaCsf st ∧ CsfWitness g start st.csf

/-- Default snapshot for positional access. -/
def defaultSnap : Snap := ⟨0, 0, []⟩

/-- All characters of a generator grid are walls or blank passages. -/
def CharsOk (g : Grid) : Prop :=
  ∀ r c, getCell g r c = '#' ∨ getCell g r c = ' '

/-- Rectangular grid: every row has the common length. -/
def Rect (g : Grid) : Prop :=
  ∀ r, r < gridRows g → (g.getD r []).length = gridCols g

/-- Passages only grow and dimensions are fixed. -/
def PassGrow (g g' : Grid) : Prop :=
  gridRows g' = gridRows g ∧ gridCols g' = gridCols g ∧
  ∀ p, isPassage g p → isPassage g' p

/-- Every passage cell is reachable from a root cell. -/
def Conn (g : Grid) (s : Cell) : Prop :=
  ∀ p, isPassage g p → (mazeGraph g).Reachable s p

/-- The generator grid invariant maintained through carving and
branching. -/
def GInv (w h : Nat) (g : Grid) : Prop :=
  gridRows g = h ∧ gridCols g = w ∧ Rect g ∧ CharsOk g ∧ Conn g (1, 1)

/-- Convert the generator BFS's `(x, y)` pairs to `(row, col)` cells. -/
def xyCell (q : Nat × Nat) : Cell := (q.2, q.1)

/-- The loop invariant of `_find_farthest_cell`'s BFS, over the graph
distance `(mazeGraph g).dist` from the start cell. -/
structure FarInv (g : Grid) (s0 : Nat × Nat) (st : FarState) : Prop where
  nodup : st.visited.Nodup
  start_mem : s0 ∈ st.visited
  vis_pass : ∀ q ∈ st.visited, isPassage g (xyCell q)
  vis_reach : ∀ q ∈ st.visited, (mazeGraph g).Reachable (xyCell s0) (xyCell q)
  dom : ∀ q, (alookup st.dists q).isSome ↔ q ∈ st.visited
  dists_exact : ∀ q d, alookup st.dists q = some d →
    (mazeGraph g).dist (xyCell s0) (xyCell q) = d
  queue_sub : ∀ q ∈ st.queue, q ∈ st.visited
  sorted : List.Pairwise (· ≤ ·)
    (st.queue.map (fun q => (mazeGraph g).dist (xyCell s0) (xyCell q)))
  band : ∀ a ∈ st.queue, ∀ b ∈ st.queue,
    (mazeGraph g).dist (xyCell s0) (xyCell a) ≤
      (mazeGraph g).dist (xyCell s0) (xyCell b) + 1
  front : ∀ q ∈ st.visited, q ∈ st.queue ∨
    ∀ n, isPassage g (xyCell n) → adjCoord (xyCell q) (xyCell n) → n ∈ st.visited
  record : (st.farthest, st.maxd) =
    st.pops.foldl (fun acc pd => if acc.2 < pd.2 then pd else acc) (s0, 0)
  pops_exact : ∀ pd ∈ st.pops,
    (mazeGraph g).dist (xyCell s0) (xyCell pd.1) = pd.2 ∧ pd.1 ∈ st.visited
  popped_or_queued : ∀ q ∈ st.visited, q ∈ st.pops.map Prod.fst ∨ q ∈ st.queue

/-- The termination measure of the generator BFS. -/
def farMeasure (w h : Nat) (st : FarState) : Nat :=
  st.queue.length + (w * h - st.visited.length)

/-- The cell of the arena object at an index of a search state. -/
def idxCell (st : SState) (i : Nat) : Cell := (objAt st i).cell

/-- The core invariant of the breadth-first `FringeSearch.search` loop
(strategy `bfs`), over the graph distance from the start cell: arena
objects carry exact distances and parent edges, `cost_so_far` records
exact distances, and the FIFO fringe is sorted with bandwidth one. -/
structure BfsInv (g : Grid) (start : Cell) (st : SState) : Prop where
  root : objAt st 0 = ⟨start.1, start.2, none, 0, 1, cellId start⟩
  alen : 1 ≤ st.arena.length
  obj : ∀ i, i < st.arena.length →
    isPassage g (idxCell st i) ∧
    (objAt st i).oid = cellId (idxCell st i) ∧
    (mazeGraph g).Reachable start (idxCell st i) ∧
    (objAt st i).cum = (mazeGraph g).dist start (idxCell st i) ∧
    (∀ p, (objAt st i).parent = some p → p < i ∧
      (mazeGraph g).Adj (idxCell st p) (idxCell st i) ∧
      (objAt st i).cum = (objAt st p).cum + 1) ∧
    ((objAt st i).parent = none → i = 0)
  fr_idx : ∀ e ∈ st.fringe, e.2.2 < st.arena.length
  csf_dom : ∀ id, (alookup st.csf id).isSome = true →
    ∃ p : Cell, isPassage g p ∧ id = cellId p
  csf_exact : ∀ p : Cell, ∀ d, isPassage g p →
    alookup st.csf (cellId p) = some d →
    (mazeGraph g).Reachable start p ∧ (mazeGraph g).dist start p = d
  start_rec : alookup st.csf (cellId start) = some 0
  sorted : List.Pairwise (· ≤ ·) (st.fringe.map
    (fun e => (mazeGraph g).dist start (idxCell st e.2.2)))
  band : ∀ a ∈ st.fringe, ∀ b ∈ st.fringe,
    (mazeGraph g).dist start (idxCell st a.2.2) ≤
      (mazeGraph g).dist start (idxCell st b.2.2) + 1
  fr_rec : ∀ e ∈ st.fringe,
    alookup st.csf (cellId (idxCell st e.2.2)) =
      some ((mazeGraph g).dist start (idxCell st e.2.2))

/-- The BFS frontier property: every recorded cell either still has a
fringe entry or has all of its passage neighbours recorded. -/
def BfsFront (g : Grid) (st : SState) : Prop :=
  ∀ p : Cell, isPassage g p → (alookup st.csf (cellId p)).isSome = true →
    (∃ e ∈ st.fringe, idxCell st e.2.2 = p) ∨
    (∀ n, isPassage g n → adjCoord p n →
      (alookup st.csf (cellId n)).isSome = true)

/-- The goal-pending property: once the goal is recorded it still has a
fringe entry (so the loop can only stop by popping it). -/
def GoalPending (g : Grid) (goal : Cell) (st : SState) : Prop :=
  (alookup st.csf (cellId goal)).isSome = true →
    ∃ e ∈ st.fringe, idxCell st e.2.2 = goal

/-- Mid-fold invariant of one `extend` call of the breadth-first search:
partway through relaxing the neighbours of the popped node `cur` (at
recorded distance `dcur`), over the state `st1` right after the pop. -/
def BfsFold (g : Grid) (start goal : Cell) (cur dcur : Nat)
    (rest : List Entry) (st1 : SState) (acc : SState) : Prop :=
  BfsInv g start acc ∧
  (∃ tail, acc.fringe = rest ++ tail ∧ ∀ e ∈ tail,
    (mazeGraph g).dist start (idxCell acc e.2.2) = dcur + 1) ∧
  (∀ id v, alookup st1.csf id = some v → alookup acc.csf id = some v) ∧
  st1.arena.length ≤ acc.arena.length ∧
  (∀ i, i < st1.arena.length → objAt acc i = objAt st1 i) ∧
  (∀ p : Cell, isPassage g p → (alookup acc.csf (cellId p)).isSome = true →
    idxCell st1 cur ≠ p →
    (∃ e ∈ acc.fringe, idxCell acc e.2.2 = p) ∨
    (∀ n, isPassage g n → adjCoord p n →
      (alookup acc.csf (cellId n)).isSome = true)) ∧
  ((alookup acc.csf (cellId goal)).isSome = true →
    ∃ e ∈ acc.fringe, idxCell acc e.2.2 = goal)

/-- Mid-fold invariant of one BFS iteration: partway through the neighbour
loop for the popped cell `(cx, cy)` (recorded distance `d`), `news` lists
the neighbours enqueued so far. -/
def FarFold (g : Grid) (st : FarState) (rest : List (Nat × Nat))
    (cx cy d : Nat) (news : List (Nat × Nat)) (acc : FarState) : Prop :=
  acc.queue = rest ++ news ∧
  acc.visited = st.visited ++ news ∧
  acc.pops = st.pops ++ [((cx, cy), d)] ∧
  acc.farthest = (if st.maxd < d then (cx, cy) else st.farthest) ∧
  acc.maxd = (if st.maxd < d then d else st.maxd) ∧
  acc.visited.Nodup ∧
  (∀ q, alookup acc.dists q =
    if q ∈ news then some (d + 1) else alookup st.dists q) ∧
  (∀ n ∈ news, isPassage g (xyCell n) ∧ adjCoord (cy, cx) (xyCell n) ∧
    n ∉ st.visited)

/-! # Theorems -/

theorem alookup_aupd_self {κ α : Type} [DecidableEq κ] (l : List (κ × α)) (k : κ) (v : α) :
    alookup (aupd l k v) k = some v := by
  induction l with
  | nil => simp [aupd, alookup]
  | cons h t ih =>
      obtain ⟨k', v'⟩ := h
      by_cases hk : k' = k
      · simp [aupd, alookup, hk]
      · simp [aupd, alookup, hk, ih]

theorem alookup_aupd_ne {κ α : Type} [DecidableEq κ] (l : List (κ × α)) (k k' : κ) (v : α)
    (h : k' ≠ k) : alookup (aupd l k v) k' = alookup l k' := by
  have h2 : k ≠ k' := fun hh => h hh.symm
  induction l with
  | nil => simp [aupd, alookup, h2]
  | cons hd t ih =>
      obtain ⟨k0, v0⟩ := hd
      by_cases hk : k0 = k
      · subst hk
        have h3 : k0 ≠ k' := fun hh => h hh.symm
        simp [aupd, alookup, h3]
      · by_cases hk' : k0 = k'
        · subst hk'
          simp [aupd, alookup, hk]
        · simp [aupd, alookup, hk, hk', ih]

theorem alookup_aupd {κ α : Type} [DecidableEq κ] (l : List (κ × α)) (k k' : κ) (v : α) :
    alookup (aupd l k v) k' = if k' = k then some v else alookup l k' := by
  by_cases h : k' = k
  · subst h; simp [alookup_aupd_self]
  · simp [h, alookup_aupd_ne _ _ _ _ h]


/-- C1: the claim asserts that the uniform-cost (and A*) reconstructed path
is optimal for the edge-cost function, which per the spec is the
neighbour's assigned step cost from the maze's cost map.  The code never
consults the cost map: `get_neighbors` builds fresh `Node`s with the
default `step_cost = 1`, and `cost_function` returns that default, so
uniform-cost search minimises hop count instead.  On `mazeRing` with cost
map `costsRing` it returns the hop-minimal lower path of cost-map total
28, while the upper path is a valid start-to-goal path of cost-map total
4 — so the reconstructed path's total is not the exhaustive minimum. -/
theorem claim_C1_ucs_not_costmap_optimal :
    runPathCells (searchRun .ucs mazeRing (1, 1) (3, 3)) =
      [(1,1), (2,1), (3,1), (3,2), (3,3)]
    ∧ (searchRun .ucs mazeRing (1, 1) (3, 3)).finished = true
    ∧ costMapTotal costsRing [(1,1), (2,1), (3,1), (3,2), (3,3)] = 28
    ∧ chainAdjB mazeRing [(1,1), (1,2), (1,3), (2,3), (3,3)] = true
    ∧ costMapTotal costsRing [(1,1), (1,2), (1,3), (2,3), (3,3)] = 4 := by
  decide

/-- C3 (counterexample): at 3×3 — admitted by the claim's precondition —
the only interior cell is (1,1); the farthest cell from the start is the
start itself, so `'G'` overwrites `'S'`: the generated grid contains no
`'S'` at all and start = goal. -/
theorem claim_C3_counterexample :
    (generate 3 3 rngZero brNever).toOption.map
      (fun m => (countChar m.grid 'S', countChar m.grid 'G',
                 decide (m.start = m.goal))) = some (0, 1, true) := by
  decide

/-- C4: when the fringe empties without the goal having been popped (the
disconnected `mazeSplit`), the controller does not surface a failure
outcome: on `StopIteration` it reconstructs a path from the last current
node (the start), installs it, and enters MOVING — the truncated path ends
at a non-goal cell.  (`GameState` has no failure state at all.) -/
theorem claim_C4_no_search_failed_outcome :
    runSplit.finished = true
    ∧ runSplit.state.fringe = []
    ∧ runSplit.snaps.all (fun s => decide (cellOfIdx runSplit s.current ≠ (1, 3))) = true
    ∧ (ctrlAfter 3).state = GState.moving
    ∧ (ctrlAfter 3).playerPath.map (cellOfIdx runSplit) = [(1, 1)]
    ∧ ((1, 1) : Cell) ≠ (1, 3) := by
  decide

/-- C9: degenerate grid dimensions are not rejected up front:
`MazeGenerator.__init__(1, 1)` succeeds (it performs no validation and
builds the 1×1 all-wall grid), and the failure only surfaces inside
`generate`, which raises `IndexError` at its first write `grid[1][1]`. -/
theorem claim_C9_not_rejected_before_generation :
    mazeGenInit 1 1 = ⟨1, 1, [['#']]⟩
    ∧ generateFrom (mazeGenInit 1 1) rngZero brNever = .error "IndexError: row" := by
  exact ⟨rfl, rfl⟩

/-- C2 (counterexample): on `mazeRingE`, depth-first search later reaches
cell (3,1) via a strictly cheaper path.  The code then creates a *fresh*
node object (arena index 8) replacing the old one (index 7) in `visited`,
and never removes the old entry from the former parent's children: in the
final search tree the non-root visited cell (3,1) appears in the children
collections of two distinct tree nodes (indices 1 and 6), not exactly
one. -/
theorem claim_C2_counterexample :
    (searchRun .dfs mazeRingE (1, 1) (1, 5)).finished = true
    ∧ alookup (searchRun .dfs mazeRingE (1, 1) (1, 5)).state.visited
        (cellId (3, 1)) = some 8
    ∧ cellId (3, 1) ≠ cellId (1, 1)
    ∧ InTree (searchRun .dfs mazeRingE (1, 1) (1, 5)).state.children 1
    ∧ InTree (searchRun .dfs mazeRingE (1, 1) (1, 5)).state.children 6
    ∧ (1 : Nat) ≠ 6
    ∧ (alookup ((searchRun .dfs mazeRingE (1, 1) (1, 5)).state.children.getD 1 [])
        (cellId (3, 1))).isSome = true
    ∧ (alookup ((searchRun .dfs mazeRingE (1, 1) (1, 5)).state.children.getD 6 [])
        (cellId (3, 1))).isSome = true := by
  have hch : (searchRun .dfs mazeRingE (1, 1) (1, 5)).state.children =
      [[(131073, 1), (65538, 2)], [(196609, 8)], [(65539, 3)], [(131075, 4)],
       [(196611, 5)], [(196610, 6)], [(196609, 7)], [], [(196610, 9)], []] := by
    decide
  refine ⟨by decide, by decide, by decide, ?_, ?_, by decide, by decide, by decide⟩
  · rw [hch]
    exact @InTree.step _ 0 1 131073 InTree.root (by decide)
  · rw [hch]
    exact @InTree.step _ 5 6 196610
      (@InTree.step _ 4 5 196611
        (@InTree.step _ 3 4 131075
          (@InTree.step _ 2 3 65539
            (@InTree.step _ 0 2 65538 InTree.root (by decide)) (by decide))
          (by decide))
        (by decide))
      (by decide)

/-! ### Fringe pop/push lemmas -/

theorem minEntry_mem (e : Entry) (l : List Entry) :
    minEntry e l = e ∨ minEntry e l ∈ l := by
  induction l generalizing e with
  | nil => simp [minEntry]
  | cons e' t ih =>
      simp only [minEntry]
      by_cases h : entryLe e e'
      · simp only [if_pos h]
        rcases ih e with h1 | h1
        · exact Or.inl h1
        · exact Or.inr (List.mem_cons_of_mem _ h1)
      · simp only [if_neg h]
        rcases ih e' with h1 | h1
        · rw [h1]; exact Or.inr (List.mem_cons_self _ _)
        · exact Or.inr (List.mem_cons_of_mem _ h1)

theorem removeEntry_sub {l : List Entry} {e x : Entry}
    (hx : x ∈ removeEntry l e) : x ∈ l := by
  induction l with
  | nil => simpa [removeEntry] using hx
  | cons e' t ih =>
      simp only [removeEntry] at hx
      by_cases h : e' = e
      · simp only [if_pos h] at hx
        exact List.mem_cons_of_mem _ hx
      · simp only [if_neg h] at hx
        rcases List.mem_cons.mp hx with h1 | h1
        · rw [h1]; exact List.mem_cons_self _ _
        · exact List.mem_cons_of_mem _ (ih h1)

theorem removeEntry_len {l : List Entry} {e : Entry} (h : e ∈ l) :
    (removeEntry l e).length + 1 = l.length := by
  induction l with
  | nil => simp at h
  | cons e' t ih =>
      simp only [removeEntry]
      by_cases he : e' = e
      · simp [he]
      · have ht : e ∈ t := by
          rcases List.mem_cons.mp h with h1 | h1
          · exact absurd h1.symm he
          · exact h1
        simp only [if_neg he, List.length_cons, ih ht]

theorem popFringe_none_iff (s : Strategy) (l : List Entry) :
    popFringe s l = none ↔ l = [] := by
  cases l with
  | nil => simp [popFringe]
  | cons e t => cases s <;> simp [popFringe]

theorem popFringe_mem {s : Strategy} {l : List Entry} {e : Entry}
    {r : List Entry} (h : popFringe s l = some (e, r)) : e ∈ l := by
  cases l with
  | nil => simp [popFringe] at h
  | cons e' t =>
      cases s <;>
        simp only [popFringe, Option.some.injEq, Prod.mk.injEq] at h <;>
        obtain ⟨h1, h2⟩ := h
      · rw [← h1]; exact List.mem_cons_self _ _
      · rw [← h1]; exact List.getLast_mem _
      · rw [← h1]
        rcases minEntry_mem e' t with h3 | h3
        · rw [h3]; exact List.mem_cons_self _ _
        · exact List.mem_cons_of_mem _ h3
      · rw [← h1]
        rcases minEntry_mem e' t with h3 | h3
        · rw [h3]; exact List.mem_cons_self _ _
        · exact List.mem_cons_of_mem _ h3

theorem popFringe_rest_sub {s : Strategy} {l : List Entry} {e : Entry}
    {r : List Entry} (h : popFringe s l = some (e, r)) :
    ∀ x ∈ r, x ∈ l := by
  cases l with
  | nil => simp [popFringe] at h
  | cons e' t =>
      cases s <;>
        simp only [popFringe, Option.some.injEq, Prod.mk.injEq] at h <;>
        obtain ⟨h1, h2⟩ := h <;> intro x hx <;> rw [← h2] at hx
      · exact List.mem_cons_of_mem _ hx
      · exact (List.dropLast_sublist _).mem hx
      · exact removeEntry_sub hx
      · exact removeEntry_sub hx

theorem popFringe_rest_len {s : Strategy} {l : List Entry} {e : Entry}
    {r : List Entry} (h : popFringe s l = some (e, r)) :
    r.length + 1 = l.length := by
  cases l with
  | nil => simp [popFringe] at h
  | cons e' t =>
      cases s <;>
        simp only [popFringe, Option.some.injEq, Prod.mk.injEq] at h <;>
        obtain ⟨h1, h2⟩ := h <;> rw [← h2]
      · simp
      · simp
      · refine removeEntry_len ?_
        rcases minEntry_mem e' t with h3 | h3
        · rw [h3]; exact List.mem_cons_self _ _
        · exact List.mem_cons_of_mem _ h3
      · refine removeEntry_len ?_
        rcases minEntry_mem e' t with h3 | h3
        · rw [h3]; exact List.mem_cons_self _ _
        · exact List.mem_cons_of_mem _ h3

theorem pushFringe_eq (s : Strategy) (goal : Cell) (l : List Entry)
    (node prio cnt : Nat) (cell : Cell) :
    ∃ pr, pushFringe s goal l node prio cnt cell = l ++ [(pr, cnt, node)] := by
  cases s <;> simp [pushFringe]

/-! ### List access helpers -/

theorem getD_append_lt {α : Type} (l : List α) (x d : α) (i : Nat)
    (h : i < l.length) : (l ++ [x]).getD i d = l.getD i d :=
  List.getD_append _ _ _ _ h

theorem getD_append_self {α : Type} (l : List α) (x d : α) :
    (l ++ [x]).getD l.length d = x := by
  simp [List.getD_append_right]

theorem getD_set_ne {α : Type} (l : List α) (i j : Nat) (x d : α)
    (h : i ≠ j) : (l.set i x).getD j d = l.getD j d := by
  simp [List.getD_eq_getElem?_getD, List.getElem?_set_ne h]

theorem getD_set_self {α : Type} (l : List α) (i : Nat) (x d : α)
    (h : i < l.length) : (l.set i x).getD i d = x := by
  simp [List.getD_eq_getElem?_getD, List.getElem?_set_self h]

/-! ### The shape of a relaxation step -/

/-- `relaxOne` either leaves the state unchanged (no relaxation) or
produces exactly the state that records the new cost (strictly below any
previously recorded cost for the cell), allocates the fresh neighbour
object as a child of the current node, marks it visited and pushes it. -/
theorem relaxOne_eq (s : Strategy) (goal : Cell) (curIdx : Nat)
    (st : SState) (cell : Cell) :
    relaxOne s goal curIdx st cell = st ∨
    ∃ nc, nc = (alookup st.csf (objAt st curIdx).oid).getD 0 + costFunction s 1 ∧
      (∀ old, alookup st.csf (cellId cell) = some old → nc < old) ∧
      relaxOne s goal curIdx st cell =
        { arena := st.arena ++ [⟨cell.1, cell.2, some curIdx, nc, 1, cellId cell⟩]
          children := (st.children.set curIdx
            (aupd (st.children.getD curIdx []) (cellId cell) st.arena.length)) ++ [[]]
          visited := aupd st.visited (cellId cell) st.arena.length
          csf := aupd st.csf (cellId cell) nc
          fringe := pushFringe s goal st.fringe st.arena.length nc st.counter cell
          counter := st.counter + 1 } := by
  cases hcs : alookup st.csf (cellId cell) with
  | none =>
      right
      refine ⟨(alookup st.csf (objAt st curIdx).oid).getD 0 + costFunction s 1, rfl, ?_, ?_⟩
      · intro old hold
        exact Option.noConfusion hold
      · simp [relaxOne, hcs]
  | some old =>
      by_cases hlt :
          (alookup st.csf (objAt st curIdx).oid).getD 0 + costFunction s 1 < old
      · right
        refine ⟨(alookup st.csf (objAt st curIdx).oid).getD 0 + costFunction s 1, rfl, ?_, ?_⟩
        · intro o ho
          cases Option.some.inj ho
          exact hlt
        · simp [relaxOne, hcs, hlt]
      · left
        simp [relaxOne, hcs, hlt]

/-! ### Invariant preservation -/

theorem foldl_preserve {α σ : Type} (P : σ → Prop) (f : σ → α → σ)
    (hf : ∀ st a, P st → P (f st a)) :
    ∀ (l : List α) (st : σ), P st → P (l.foldl f st) := by
  intro l
  induction l with
  | nil => intro st h; simpa using h
  | cons a t ih => intro st h; simpa using ih _ (hf st a h)

theorem relaxOne_arena_le (s : Strategy) (goal : Cell) (curIdx : Nat)
    (st : SState) (cell : Cell) :
    st.arena.length ≤ (relaxOne s goal curIdx st cell).arena.length := by
  rcases relaxOne_eq s goal curIdx st cell with h | ⟨nc, -, -, h⟩ <;> rw [h] <;> simp

theorem relaxOne_wfs {s : Strategy} {goal : Cell} {curIdx : Nat}
    {st : SState} (cell : Cell) (hw : WFS st)
    (hcur : curIdx < st.arena.length) :
    WFS (relaxOne s goal curIdx st cell) := by
  obtain ⟨hch, hfr, hvis, hpar⟩ := hw
  rcases relaxOne_eq s goal curIdx st cell with h | ⟨nc, -, hlt, h⟩
  · rw [h]; exact ⟨hch, hfr, hvis, hpar⟩
  rw [h]
  obtain ⟨pr, hpush⟩ :=
    pushFringe_eq s goal st.fringe st.arena.length nc st.counter cell
  refine ⟨?_, ?_, ?_, ?_⟩
  · simp [hch]
  · intro e he
    simp only [hpush] at he
    rcases List.mem_append.mp he with he | he
    · have h1 := hfr e he
      simp only [List.length_append, List.length_cons, List.length_nil]
      omega
    · simp only [List.mem_singleton] at he
      subst he
      simp
  · intro id oi hlook
    simp only [alookup_aupd] at hlook
    simp only [List.length_append, List.length_cons, List.length_nil]
    by_cases hid : id = cellId cell
    · rw [if_pos hid] at hlook
      cases Option.some.inj hlook
      omega
    · rw [if_neg hid] at hlook
      have := hvis id oi hlook
      omega
  · intro i p hi hp
    simp only [List.length_append, List.length_cons, List.length_nil] at hi
    by_cases hilt : i < st.arena.length
    · rw [getD_append_lt _ _ _ _ hilt] at hp
      exact hpar i p hilt hp
    · have hieq : i = st.arena.length := by omega
      subst hieq
      rw [getD_append_self] at hp
      cases Option.some.inj hp
      exact hcur

theorem extend_wfs {s : Strategy} {g : Grid} {goal : Cell} {curIdx : Nat}
    {st : SState} (hw : WFS st) (hcur : curIdx < st.arena.length) :
    WFS (extend s g goal curIdx st) := by
  have h := foldl_preserve
    (fun st' => WFS st' ∧ curIdx < st'.arena.length)
    (relaxOne s goal curIdx)
    (fun st' cell hp =>
      ⟨relaxOne_wfs cell hp.1 hp.2,
       Nat.lt_of_lt_of_le hp.2 (relaxOne_arena_le s goal curIdx st' cell)⟩)
    (getNeighbors g (objAt st curIdx).row (objAt st curIdx).col) st ⟨hw, hcur⟩
  exact h.1

theorem searchStep_wfs {s : Strategy} {g : Grid} {goal : Cell}
    {st st' : SState} {snap : Snap} {b : Bool} (hw : WFS st)
    (h : searchStep s g goal st = some (snap, st', b)) : WFS st' := by
  obtain ⟨hch, hfr, hvis, hpar⟩ := hw
  unfold searchStep at h
  cases hpop : popFringe s st.fringe with
  | none => rw [hpop] at h; exact Option.noConfusion h
  | some er =>
      obtain ⟨e, rest⟩ := er
      rw [hpop] at h
      simp only [] at h
      have hw1 : WFS { st with fringe := rest } :=
        ⟨hch, fun x hx => hfr x (popFringe_rest_sub hpop x hx), hvis, hpar⟩
      have hcur : e.2.2 < st.arena.length := hfr e (popFringe_mem hpop)
      by_cases hg : (objAt { st with fringe := rest } e.2.2).oid = cellId goal
      · rw [if_pos hg] at h
        cases Option.some.inj h
        exact hw1
      · rw [if_neg hg] at h
        cases Option.some.inj h
        exact extend_wfs hw1 hcur

theorem initState_wfs (start : Cell) : WFS (initState start) := by
  refine ⟨rfl, ?_, ?_, ?_⟩
  · intro e he
    simp only [initState, List.mem_singleton] at he
    subst he
    simp [initState]
  · intro id oi hlook
    simp only [initState, alookup] at hlook
    by_cases hid : cellId start = id
    · rw [if_pos hid] at hlook
      cases Option.some.inj hlook
      simp [initState]
    · rw [if_neg hid] at hlook
      exact Option.noConfusion hlook
  · intro i p hi hp
    simp only [initState, List.length_cons, List.length_nil] at hi
    have : i = 0 := by omega
    subst this
    simp only [initState, List.getD, oDefault] at hp
    exact Option.noConfusion hp

theorem stepState_wfs {s : Strategy} {g : Grid} {goal : Cell}
    {p : SState × Bool} (hw : WFS p.1) :
    WFS (stepState s g goal p).1 := by
  obtain ⟨st, running⟩ := p
  unfold stepState
  by_cases hr : running
  · simp only [if_pos hr]
    cases hstep : searchStep s g goal st with
    | none => exact hw
    | some v =>
        obtain ⟨snap, st', b⟩ := v
        exact searchStep_wfs hw hstep
  · simp only [if_neg hr]
    exact hw

theorem runState_wfs (s : Strategy) (g : Grid) (start goal : Cell) :
    ∀ n, WFS (runState s g start goal n).1 := by
  intro n
  induction n with
  | zero => exact initState_wfs start
  | succ n ih =>
      unfold runState at ih ⊢
      rw [Function.iterate_succ_apply']
      exact stepState_wfs ih

theorem relaxOne_tree {s : Strategy} {goal : Cell} {curIdx : Nat}
    {st : SState} {startId : Nat} (cell : Cell) (hw : WFS st)
    (hcur : curIdx < st.arena.length) (ht : TreeInv startId st) :
    TreeInv startId (relaxOne s goal curIdx st cell) := by
  obtain ⟨hch, hfr, hvis, hpar⟩ := hw
  rcases relaxOne_eq s goal curIdx st cell with h | ⟨nc, -, hlt, h⟩
  · rw [h]; exact ht
  rw [h]
  intro id oi hlook hid
  simp only [alookup_aupd] at hlook
  by_cases hidc : id = cellId cell
  · rw [if_pos hidc] at hlook
    cases Option.some.inj hlook
    refine ⟨curIdx, ?_, ?_⟩
    · simp only [getD_append_self]
    · have hcl : curIdx < st.children.length := by rw [hch]; exact hcur
      have hcl2 : curIdx < (st.children.set curIdx
          (aupd (st.children.getD curIdx []) (cellId cell) st.arena.length)).length := by
        simpa [List.length_set] using hcl
      rw [getD_append_lt _ _ _ _ hcl2, getD_set_self _ _ _ _ hcl, hidc,
        alookup_aupd_self]
  · rw [if_neg hidc] at hlook
    obtain ⟨p, hpa, hchild⟩ := ht id oi hlook hid
    have hoi : oi < st.arena.length := hvis id oi hlook
    have hploi : p < oi := hpar oi p hoi hpa
    refine ⟨p, ?_, ?_⟩
    · rw [getD_append_lt _ _ _ _ hoi]; exact hpa
    · have hplt : p < st.children.length := by rw [hch]; omega
      have hplt2 : p < (st.children.set curIdx
          (aupd (st.children.getD curIdx []) (cellId cell) st.arena.length)).length := by
        simpa [List.length_set] using hplt
      rw [getD_append_lt _ _ _ _ hplt2]
      by_cases hpc : curIdx = p
      · subst hpc
        rw [getD_set_self _ _ _ _ hplt, alookup_aupd_ne _ _ _ _ hidc]
        exact hchild
      · rw [getD_set_ne _ _ _ _ _ hpc]
        exact hchild

theorem extend_tree {s : Strategy} {g : Grid} {goal : Cell} {curIdx : Nat}
    {st : SState} {startId : Nat} (hw : WFS st)
    (hcur : curIdx < st.arena.length) (ht : TreeInv startId st) :
    TreeInv startId (extend s g goal curIdx st) := by
  have h := foldl_preserve
    (fun st' => (WFS st' ∧ curIdx < st'.arena.length) ∧ TreeInv startId st')
    (relaxOne s goal curIdx)
    (fun st' cell hp =>
      ⟨⟨relaxOne_wfs cell hp.1.1 hp.1.2,
        Nat.lt_of_lt_of_le hp.1.2 (relaxOne_arena_le s goal curIdx st' cell)⟩,
       relaxOne_tree cell hp.1.1 hp.1.2 hp.2⟩)
    (getNeighbors g (objAt st curIdx).row (objAt st curIdx).col) st ⟨⟨hw, hcur⟩, ht⟩
  exact h.2

theorem searchStep_tree {s : Strategy} {g : Grid} {goal : Cell}
    {st st' : SState} {snap : Snap} {b : Bool} {startId : Nat} (hw : WFS st)
    (ht : TreeInv startId st)
    (h : searchStep s g goal st = some (snap, st', b)) :
    TreeInv startId st' := by
  obtain ⟨hch, hfr, hvis, hpar⟩ := hw
  unfold searchStep at h
  cases hpop : popFringe s st.fringe with
  | none => rw [hpop] at h; exact Option.noConfusion h
  | some er =>
      obtain ⟨e, rest⟩ := er
      rw [hpop] at h
      simp only [] at h
      have hw1 : WFS { st with fringe := rest } :=
        ⟨hch, fun x hx => hfr x (popFringe_rest_sub hpop x hx), hvis, hpar⟩
      have ht1 : TreeInv startId { st with fringe := rest } := ht
      have hcur : e.2.2 < st.arena.length := hfr e (popFringe_mem hpop)
      by_cases hg : (objAt { st with fringe := rest } e.2.2).oid = cellId goal
      · rw [if_pos hg] at h
        cases Option.some.inj h
        exact ht1
      · rw [if_neg hg] at h
        cases Option.some.inj h
        exact extend_tree hw1 hcur ht1

theorem initState_tree (start : Cell) :
    TreeInv (cellId start) (initState start) := by
  intro id oi hlook hid
  simp only [initState, alookup] at hlook
  by_cases h : cellId start = id
  · exact absurd h.symm hid
  · rw [if_neg h] at hlook
    exact Option.noConfusion hlook

theorem runState_tree (s : Strategy) (g : Grid) (start goal : Cell) :
    ∀ n, TreeInv (cellId start) (runState s g start goal n).1 := by
  intro n
  induction n with
  | zero => exact initState_tree start
  | succ n ih =>
      have hw := runState_wfs s g start goal n
      unfold runState at ih hw ⊢
      rw [Function.iterate_succ_apply']
      set p := (stepState s g goal)^[n] (initState start, true) with hp
      obtain ⟨st, running⟩ := p
      unfold stepState
      by_cases hr : running
      · simp only [if_pos hr]
        cases hstep : searchStep s g goal st with
        | none => exact ih
        | some v =>
            obtain ⟨snap, st', b⟩ := v
            exact searchStep_tree hw ih hstep
      · simp only [if_neg hr]
        exact ih

/-- C2 (amended): after every step of any fringe search, every non-root
cell recorded in the visited set appears, with its currently recorded node
object, in the children collection of its current parent.  (The original
claim's "exactly one node in the tree" is refuted by
`claim_C2_counterexample`: stale entries can persist in former parents'
children collections.) -/
theorem claim_C2_visited_child_of_parent (s : Strategy) (g : Grid)
    (start goal : Cell) (n : Nat) (id oi : Nat)
    (hv : alookup (runState s g start goal n).1.visited id = some oi)
    (hid : id ≠ cellId start) :
    ∃ p, ((runState s g start goal n).1.arena.getD oi oDefault).parent = some p ∧
      alookup ((runState s g start goal n).1.children.getD p []) id = some oi :=
  runState_tree s g start goal n id oi hv hid

/-- Witness for the amended C2 on a concrete run: after one breadth-first
step on `mazeDuo`, the goal cell's node (arena index 1) is a child of its
parent (the root). -/
theorem claim_C2_visited_child_of_parent_witness :
    ∃ p, ((runState .bfs mazeDuo (1, 1) (1, 2) 1).1.arena.getD 1 oDefault).parent
        = some p ∧
      alookup ((runState .bfs mazeDuo (1, 1) (1, 2) 1).1.children.getD p [])
        (cellId (1, 2)) = some 1 :=
  claim_C2_visited_child_of_parent .bfs mazeDuo (1, 1) (1, 2) 1 (cellId (1, 2)) 1
    (by decide) (by decide)

/-! ### Cost monotonicity (C8) -/

theorem relaxOne_csf_le {s : Strategy} {goal : Cell} {curIdx : Nat}
    {st : SState} (cell : Cell) {id v : Nat}
    (hv : alookup st.csf id = some v) :
    ∃ v', alookup (relaxOne s goal curIdx st cell).csf id = some v' ∧ v' ≤ v := by
  rcases relaxOne_eq s goal curIdx st cell with h | ⟨nc, -, hlt, h⟩
  · rw [h]; exact ⟨v, hv, le_refl v⟩
  rw [h]
  simp only [alookup_aupd]
  by_cases hid : id = cellId cell
  · subst hid
    exact ⟨nc, by rw [if_pos rfl], le_of_lt (hlt v hv)⟩
  · rw [if_neg hid]
    exact ⟨v, hv, le_refl v⟩

theorem extend_csf_le {s : Strategy} {g : Grid} {goal : Cell} {curIdx : Nat}
    {st : SState} {id v : Nat} (hv : alookup st.csf id = some v) :
    ∃ v', alookup (extend s g goal curIdx st).csf id = some v' ∧ v' ≤ v := by
  exact foldl_preserve
    (fun st' => ∃ v', alookup st'.csf id = some v' ∧ v' ≤ v)
    (relaxOne s goal curIdx)
    (fun st' cell hp => by
      obtain ⟨v', hv', hle⟩ := hp
      obtain ⟨v'', hv'', hle'⟩ := relaxOne_csf_le cell hv'
      exact ⟨v'', hv'', le_trans hle' hle⟩)
    (getNeighbors g (objAt st curIdx).row (objAt st curIdx).col) st
    ⟨v, hv, le_refl v⟩

theorem stepState_csf_le {s : Strategy} {g : Grid} {goal : Cell}
    {p : SState × Bool} {id v : Nat} (hv : alookup p.1.csf id = some v) :
    ∃ v', alookup (stepState s g goal p).1.csf id = some v' ∧ v' ≤ v := by
  obtain ⟨st, running⟩ := p
  unfold stepState
  by_cases hr : running
  · simp only [if_pos hr]
    cases hstep : searchStep s g goal st with
    | none => exact ⟨v, hv, le_refl v⟩
    | some vv =>
        obtain ⟨snap, st', b⟩ := vv
        unfold searchStep at hstep
        cases hpop : popFringe s st.fringe with
        | none => rw [hpop] at hstep; exact Option.noConfusion hstep
        | some er =>
            obtain ⟨e, rest⟩ := er
            rw [hpop] at hstep
            simp only [] at hstep
            by_cases hg : (objAt { st with fringe := rest } e.2.2).oid = cellId goal
            · rw [if_pos hg] at hstep
              cases Option.some.inj hstep
              exact ⟨v, hv, le_refl v⟩
            · rw [if_neg hg] at hstep
              cases Option.some.inj hstep
              exact extend_csf_le hv
  · simp only [if_neg hr]
    exact ⟨v, hv, le_refl v⟩

/-! ### Visited-node costs agree with `cost_so_far` -/

theorem relaxOne_viscum {s : Strategy} {goal : Cell} {curIdx : Nat}
    {st : SState} (cell : Cell) (hw : WFS st) (hv : VisCum st) :
    VisCum (relaxOne s goal curIdx st cell) := by
  obtain ⟨hch, hfr, hvis, hpar⟩ := hw
  rcases relaxOne_eq s goal curIdx st cell with h | ⟨nc, -, hlt, h⟩
  · rw [h]; exact hv
  rw [h]
  intro id oi hlook
  simp only [alookup_aupd] at hlook ⊢
  by_cases hid : id = cellId cell
  · rw [if_pos hid] at hlook
    cases Option.some.inj hlook
    rw [if_pos hid, getD_append_self]
  · rw [if_neg hid] at hlook
    rw [if_neg hid, getD_append_lt _ _ _ _ (hvis id oi hlook)]
    exact hv id oi hlook

theorem extend_viscum {s : Strategy} {g : Grid} {goal : Cell} {curIdx : Nat}
    {st : SState} (hw : WFS st) (hcur : curIdx < st.arena.length)
    (hv : VisCum st) : VisCum (extend s g goal curIdx st) := by
  have h := foldl_preserve
    (fun st' => (WFS st' ∧ curIdx < st'.arena.length) ∧ VisCum st')
    (relaxOne s goal curIdx)
    (fun st' cell hp =>
      ⟨⟨relaxOne_wfs cell hp.1.1 hp.1.2,
        Nat.lt_of_lt_of_le hp.1.2 (relaxOne_arena_le s goal curIdx st' cell)⟩,
       relaxOne_viscum cell hp.1.1 hp.2⟩)
    (getNeighbors g (objAt st curIdx).row (objAt st curIdx).col) st ⟨⟨hw, hcur⟩, hv⟩
  exact h.2

theorem initState_viscum (start : Cell) : VisCum (initState start) := by
  intro id oi hlook
  simp only [initState, alookup] at hlook ⊢
  by_cases h : cellId start = id
  · rw [if_pos h] at hlook ⊢
    cases Option.some.inj hlook
    rfl
  · rw [if_neg h] at hlook
    exact Option.noConfusion hlook

theorem runState_viscum (s : Strategy) (g : Grid) (start goal : Cell) :
    ∀ n, VisCum (runState s g start goal n).1 := by
  intro n
  induction n with
  | zero => exact initState_viscum start
  | succ n ih =>
      have hw := runState_wfs s g start goal n
      unfold runState at ih hw ⊢
      rw [Function.iterate_succ_apply']
      set p := (stepState s g goal)^[n] (initState start, true) with hp
      obtain ⟨st, running⟩ := p
      unfold stepState
      by_cases hr : running
      · simp only [if_pos hr]
        cases hstep : searchStep s g goal st with
        | none => exact ih
        | some v =>
            obtain ⟨snap, st', b⟩ := v
            obtain ⟨hch, hfr, hvis, hpar⟩ := hw
            unfold searchStep at hstep
            cases hpop : popFringe s st.fringe with
            | none => rw [hpop] at hstep; exact Option.noConfusion hstep
            | some er =>
                obtain ⟨e, rest⟩ := er
                rw [hpop] at hstep
                simp only [] at hstep
                have hw1 : WFS { st with fringe := rest } :=
                  ⟨hch, fun x hx => hfr x (popFringe_rest_sub hpop x hx), hvis, hpar⟩
                have hcur : e.2.2 < st.arena.length := hfr e (popFringe_mem hpop)
                by_cases hg :
                    (objAt { st with fringe := rest } e.2.2).oid = cellId goal
                · rw [if_pos hg] at hstep
                  cases Option.some.inj hstep
                  exact ih
                · rw [if_neg hg] at hstep
                  cases Option.some.inj hstep
                  exact extend_viscum hw1 hcur ih
      · simp only [if_neg hr]
        exact ih

/-- C8: during any run of any fringe search the recorded cost of a cell
never increases — between consecutive driver steps every `cost_so_far`
entry persists with a value less than or equal to its previous one (a
relaxation update strictly decreases it, all other steps leave it
unchanged) — and at every step the `cumulative_cost` of the node recorded
in the visited set equals the cell's `cost_so_far` entry.  (Edge costs in
the code are the natural number 1, hence non-negative as the claim
assumes.) -/
theorem claim_C8_costs_only_tighten (s : Strategy) (g : Grid)
    (start goal : Cell) (n : Nat) (id v : Nat)
    (hv : alookup (runState s g start goal n).1.csf id = some v) :
    (∃ v', alookup (runState s g start goal (n + 1)).1.csf id = some v' ∧ v' ≤ v)
    ∧ (∀ oi, alookup (runState s g start goal n).1.visited id = some oi →
        ((runState s g start goal n).1.arena.getD oi oDefault).cum = v) := by
  constructor
  · have h : runState s g start goal (n + 1) =
        stepState s g goal (runState s g start goal n) := by
      unfold runState
      rw [Function.iterate_succ_apply']
    rw [h]
    exact stepState_csf_le hv
  · intro oi hoi
    have h := runState_viscum s g start goal n id oi hoi
    rw [hv] at h
    exact (Option.some.inj h).symm

/-- Witness for C8: on the concrete two-cell corridor, the start cell's
recorded cost 0 persists (still 0) after the first step, and the start
node's cumulative cost is 0. -/
theorem claim_C8_costs_only_tighten_witness :
    (∃ v', alookup (runState .bfs mazeDuo (1, 1) (1, 2) 1).1.csf
        (cellId (1, 1)) = some v' ∧ v' ≤ 0)
    ∧ (∀ oi, alookup (runState .bfs mazeDuo (1, 1) (1, 2) 0).1.visited
        (cellId (1, 1)) = some oi →
        ((runState .bfs mazeDuo (1, 1) (1, 2) 0).1.arena.getD oi oDefault).cum = 0) :=
  claim_C8_costs_only_tighten .bfs mazeDuo (1, 1) (1, 2) 0 (cellId (1, 1)) 0
    (by decide)

/-! ### Termination of the search loop (C10) -/

theorem costFunction_one (s : Strategy) : costFunction s 1 = 1 := by
  cases s <;> rfl

theorem getNeighbors_mem {g : Grid} {r c : Nat} {n : Cell}
    (h : n ∈ getNeighbors g r c) :
    n.1 < gridRows g ∧ n.2 < gridCols g ∧ getCell g n.1 n.2 ≠ '#' := by
  unfold getNeighbors at h
  rw [List.mem_filterMap] at h
  obtain ⟨d, -, hd⟩ := h
  by_cases hc : 0 ≤ (r : Int) + d.1 ∧ (r : Int) + d.1 < (gridRows g : Int) ∧
      0 ≤ (c : Int) + d.2 ∧ (c : Int) + d.2 < (gridCols g : Int) ∧
      getCell g ((r : Int) + d.1).toNat ((c : Int) + d.2).toNat ≠ '#'
  · rw [if_pos hc] at hd
    cases Option.some.inj hd
    obtain ⟨h1, h2, h3, h4, h5⟩ := hc
    refine ⟨?_, ?_, h5⟩
    · omega
    · omega
  · rw [if_neg hc] at hd
    exact Option.noConfusion hd

theorem mem_gridCells {g : Grid} {c : Cell} :
    c ∈ gridCells g ↔ c.1 < gridRows g ∧ c.2 < gridCols g := by
  unfold gridCells
  rw [Finset.mem_product, Finset.mem_range, Finset.mem_range]

theorem gridCells_card (g : Grid) :
    (gridCells g).card = gridRows g * gridCols g := by
  unfold gridCells
  rw [Finset.card_product, Finset.card_range, Finset.card_range]

/-- A witnessed value is below the cell count. -/
theorem witness_bound {g : Grid} {start : Cell} {csf : List (Nat × Nat)}
    {c : Cell} {v : Nat} (h : WitnessPath g start csf c v) :
    v + 1 ≤ gridRows g * gridCols g := by
  obtain ⟨p, hnd, -, -, hlen, hmem, -⟩ := h
  have hsub : p.toFinset ⊆ gridCells g := by
    intro x hx
    rw [List.mem_toFinset] at hx
    exact mem_gridCells.mpr (hmem x hx)
  have hcard := Finset.card_le_card hsub
  rw [List.toFinset_card_of_nodup hnd, gridCells_card] at hcard
  omega

theorem getD_eq_getElem {α : Type} (l : List α) (d : α) (i : Nat)
    (h : i < l.length) : l.getD i d = l[i] := by
  simp [List.getD_eq_getElem?_getD, List.getElem?_eq_getElem h]

/-- Updating a key of `cost_so_far` to a value strictly below its previous
one (or fresh) keeps every witness path valid. -/
theorem witnessPath_update {g : Grid} {start : Cell} {csf : List (Nat × Nat)}
    {c : Cell} {v nid nc : Nat}
    (hp : WitnessPath g start csf c v)
    (hlt : ∀ old, alookup csf nid = some old → nc < old) :
    WitnessPath g start (aupd csf nid nc) c v := by
  obtain ⟨p, hnd, hh, hl, hlen, hmem, hidx⟩ := hp
  refine ⟨p, hnd, hh, hl, hlen, hmem, ?_⟩
  intro i hi
  obtain ⟨w, hw, hwi⟩ := hidx i hi
  by_cases hk : cellId (p.getD i start) = nid
  · rw [hk] at hw
    have hncw := hlt w hw
    exact ⟨nc, by rw [hk, alookup_aupd_self], by omega⟩
  · exact ⟨w, by rw [alookup_aupd_ne _ _ _ _ hk]; exact hw, hwi⟩

/-- The key step: relaxing preserves the combined invariant and does not
increase the measure. -/
theorem relaxOne_minv {s : Strategy} {goal : Cell} {curIdx : Nat}
    {st : SState} {g : Grid} {start : Cell} (cell : Cell)
    (hm : MInv g start st) (hcur : curIdx < st.arena.length)
    (hcell : cell.1 < gridRows g ∧ cell.2 < gridCols g) :
    MInv g start (relaxOne s goal curIdx st cell) ∧
    stMeasure g (relaxOne s goal curIdx st cell) ≤ stMeasure g st := by
  obtain ⟨hw, hac, hcw⟩ := hm
  rcases relaxOne_eq s goal curIdx st cell with h | ⟨nc, hnc, hlt, h⟩
  · rw [h]; exact ⟨⟨hw, hac, hcw⟩, le_refl _⟩
  -- the relaxation fired: name the current node's recorded cost
  obtain ⟨w0, hw0⟩ := hac curIdx hcur
  have hnc' : nc = w0 + 1 := by
    have hobj : objAt st curIdx = st.arena.getD curIdx oDefault := rfl
    rw [hnc, costFunction_one, hobj, hw0]
    rfl
  -- its witness path
  obtain ⟨c0, hc0, hwp0⟩ := hcw _ _ hw0
  obtain ⟨p, hnd, hh, hl, hlen, hmem, hidx⟩ := hwp0
  -- the relaxed cell is not on that path
  have hcellp : cell ∉ p := by
    intro hcp
    obtain ⟨i, hi, hpi⟩ := List.mem_iff_getElem.mp hcp
    obtain ⟨w', hw', hwi⟩ := hidx i hi
    rw [getD_eq_getElem _ _ _ hi, hpi] at hw'
    have := hlt w' hw'
    omega
  -- the new witness path for the relaxed cell
  have hqpath : WitnessPath g start (aupd st.csf (cellId cell) nc) cell nc := by
    refine ⟨p ++ [cell], ?_, ?_, ?_, ?_, ?_, ?_⟩
    · rw [List.nodup_append]
      exact ⟨hnd, List.nodup_singleton _,
        fun a ha hb => hcellp (by rwa [List.mem_singleton.mp hb] at ha)⟩
    · rw [List.head?_append, hh]
      rfl
    · exact List.getLast?_concat _
    · simp [hlen, hnc']
    · intro x hx
      rcases List.mem_append.mp hx with hx | hx
      · exact hmem x hx
      · rw [List.mem_singleton.mp hx]
        exact ⟨hcell.1, hcell.2⟩
    · intro i hi
      simp only [List.length_append, List.length_cons, List.length_nil] at hi
      by_cases hip : i < p.length
      · rw [getD_append_lt _ _ _ _ hip]
        obtain ⟨w', hw', hwi⟩ := hidx i hip
        by_cases hk : cellId (p.getD i start) = cellId cell
        · rw [hk] at hw'
          have := hlt w' hw'
          exact ⟨nc, by rw [hk, alookup_aupd_self], by omega⟩
        · exact ⟨w', by rw [alookup_aupd_ne _ _ _ _ hk]; exact hw', hwi⟩
      · have hieq : i = p.length := by omega
        subst hieq
        rw [getD_append_self]
        exact ⟨nc, alookup_aupd_self _ _ _, by omega⟩
  have hbound : nc + 1 ≤ gridRows g * gridCols g := witness_bound hqpath
  -- the updated cost table is fully witnessed
  have hcw' : CsfWitness g start (aupd st.csf (cellId cell) nc) := by
    intro id v hv
    rw [alookup_aupd] at hv
    by_cases hid : id = cellId cell
    · rw [if_pos hid] at hv
      cases Option.some.inj hv
      exact ⟨cell, hid.symm, hqpath⟩
    · rw [if_neg hid] at hv
      obtain ⟨c', hc', hp'⟩ := hcw id v hv
      exact ⟨c', hc', witnessPath_update hp' hlt⟩
  constructor
  · rw [h]
    refine ⟨?_, ?_, ?_⟩
    · have := @relaxOne_wfs s goal _ _ cell ⟨hw.1, hw.2.1, hw.2.2.1, hw.2.2.2⟩ hcur
      rw [h] at this
      exact this
    · intro i hi
      simp only [List.length_append, List.length_cons, List.length_nil] at hi
      by_cases hilt : i < st.arena.length
      · rw [getD_append_lt _ _ _ _ hilt]
        obtain ⟨w', hw'⟩ := hac i hilt
        by_cases hk : (st.arena.getD i oDefault).oid = cellId cell
        · exact ⟨nc, by rw [hk, alookup_aupd_self]⟩
        · exact ⟨w', by rw [alookup_aupd_ne _ _ _ _ hk]; exact hw'⟩
      · have hieq : i = st.arena.length := by omega
        subst hieq
        rw [getD_append_self]
        exact ⟨nc, alookup_aupd_self _ _ _⟩
    · exact hcw'
  · rw [h]
    obtain ⟨pr, hpush⟩ :=
      pushFringe_eq s goal st.fringe st.arena.length nc st.counter cell
    simp only [stMeasure, hpush, List.length_append, List.length_cons,
      List.length_nil]
    have hsum : csfMeasure g (aupd st.csf (cellId cell) nc) + 1 ≤
        csfMeasure g st.csf := by
      unfold csfMeasure
      have hle : ∀ c ∈ gridCells g,
          (alookup (aupd st.csf (cellId cell) nc) (cellId c)).getD
            (gridRows g * gridCols g) ≤
          (alookup st.csf (cellId c)).getD (gridRows g * gridCols g) := by
        intro c hc
        rw [alookup_aupd]
        by_cases hk : cellId c = cellId cell
        · rw [if_pos hk, hk]
          cases hold : alookup st.csf (cellId cell) with
          | none =>
              simp only [Option.getD_none, Option.getD_some]
              omega
          | some old =>
              have h2 := hlt old hold
              simp only [Option.getD_some]
              omega
        · rw [if_neg hk]
      have hstrict : ∃ c ∈ gridCells g,
          (alookup (aupd st.csf (cellId cell) nc) (cellId c)).getD
            (gridRows g * gridCols g) <
          (alookup st.csf (cellId c)).getD (gridRows g * gridCols g) := by
        refine ⟨cell, mem_gridCells.mpr ⟨hcell.1, hcell.2⟩, ?_⟩
        rw [alookup_aupd_self]
        cases hold : alookup st.csf (cellId cell) with
        | none =>
            simp only [Option.getD_none, Option.getD_some]
            omega
        | some old =>
            have h2 := hlt old hold
            simp only [Option.getD_some]
            omega
      have := Finset.sum_lt_sum hle hstrict
      omega
    omega

theorem foldl_preserve_mem {α σ : Type} (P : σ → Prop) (f : σ → α → σ) :
    ∀ (l : List α), (∀ st a, a ∈ l → P st → P (f st a)) →
      ∀ st, P st → P (l.foldl f st) := by
  intro l
  induction l with
  | nil => intro _ st h; simpa using h
  | cons a t ih =>
      intro hf st h
      simp only [List.foldl_cons]
      exact ih (fun st' a' ha' => hf st' a' (List.mem_cons_of_mem _ ha'))
        _ (hf st a (List.mem_cons_self _ _) h)

theorem extend_minv {s : Strategy} {goal : Cell} {curIdx : Nat}
    {st : SState} {g : Grid} {start : Cell}
    (hm : MInv g start st) (hcur : curIdx < st.arena.length) :
    MInv g start (extend s g goal curIdx st) ∧
    stMeasure g (extend s g goal curIdx st) ≤ stMeasure g st := by
  have h := foldl_preserve_mem
    (fun st' => (MInv g start st' ∧ curIdx < st'.arena.length) ∧
      stMeasure g st' ≤ stMeasure g st)
    (relaxOne s goal curIdx)
    (getNeighbors g (objAt st curIdx).row (objAt st curIdx).col)
    (fun st' cell hcl hp => by
      obtain ⟨hg1, hg2, -⟩ := getNeighbors_mem hcl
      obtain ⟨hm', hmeas⟩ := relaxOne_minv cell hp.1.1 hp.1.2 ⟨hg1, hg2⟩
      exact ⟨⟨hm', Nat.lt_of_lt_of_le hp.1.2
        (relaxOne_arena_le s goal curIdx st' cell)⟩, le_trans hmeas hp.2⟩)
    st ⟨⟨hm, hcur⟩, le_refl _⟩
  exact ⟨h.1.1, h.2⟩

theorem searchStep_minv {s : Strategy} {g : Grid} {goal start : Cell}
    {st st' : SState} {snap : Snap} {b : Bool}
    (hm : MInv g start st)
    (h : searchStep s g goal st = some (snap, st', b)) :
    MInv g start st' ∧ stMeasure g st' < stMeasure g st := by
  obtain ⟨hw, hac, hcw⟩ := hm
  obtain ⟨hch, hfr, hvis, hpar⟩ := hw
  unfold searchStep at h
  cases hpop : popFringe s st.fringe with
  | none => rw [hpop] at h; exact Option.noConfusion h
  | some er =>
      obtain ⟨e, rest⟩ := er
      rw [hpop] at h
      simp only [] at h
      have hw1 : WFS { st with fringe := rest } :=
        ⟨hch, fun x hx => hfr x (popFringe_rest_sub hpop x hx), hvis, hpar⟩
      have hm1 : MInv g start { st with fringe := rest } := ⟨hw1, hac, hcw⟩
      have hlen := popFringe_rest_len hpop
      have hmeas1 : stMeasure g { st with fringe := rest } + 1 = stMeasure g st := by
        simp only [stMeasure]
        omega
      have hcur : e.2.2 < st.arena.length := hfr e (popFringe_mem hpop)
      by_cases hg : (objAt { st with fringe := rest } e.2.2).oid = cellId goal
      · rw [if_pos hg] at h
        cases Option.some.inj h
        exact ⟨hm1, by omega⟩
      · rw [if_neg hg] at h
        cases Option.some.inj h
        obtain ⟨hm2, hmeas2⟩ := extend_minv hm1 hcur
        exact ⟨hm2, by omega⟩

theorem initState_minv {g : Grid} {start : Cell}
    (hstart : start.1 < gridRows g ∧ start.2 < gridCols g) :
    MInv g start (initState start) := by
  refine ⟨initState_wfs start, ?_, ?_⟩
  · intro i hi
    simp only [initState, List.length_cons, List.length_nil] at hi
    have hi0 : i = 0 := by omega
    subst hi0
    exact ⟨0, by simp [initState, alookup]⟩
  · intro id v hv
    simp only [initState, alookup] at hv
    by_cases hid : cellId start = id
    · rw [if_pos hid] at hv
      cases Option.some.inj hv
      refine ⟨start, hid, [start], by simp, rfl, rfl, rfl, ?_, ?_⟩
      · intro x hx
        rw [List.mem_singleton.mp hx]
        exact hstart
      · intro i hi
        simp only [List.length_cons, List.length_nil] at hi
        have hi0 : i = 0 := by omega
        subst hi0
        exact ⟨0, by simp [initState, alookup, List.getD, hid], by omega⟩
    · rw [if_neg hid] at hv
      exact Option.noConfusion hv

theorem initState_measure (g : Grid) (start : Cell) :
    stMeasure g (initState start) < searchFuel g := by
  have hsum : csfMeasure g (initState start).csf ≤
      gridRows g * gridCols g * (gridRows g * gridCols g) := by
    have h := Finset.sum_le_card_nsmul (gridCells g)
      (fun c => (alookup (initState start).csf (cellId c)).getD
        (gridRows g * gridCols g))
      (gridRows g * gridCols g)
      (fun c _ => by
        simp only [initState, alookup]
        by_cases hid : cellId start = cellId c
        · rw [if_pos hid]
          simp
        · rw [if_neg hid]
          simp)
    rw [gridCells_card, smul_eq_mul] at h
    exact h
  have hfr : (initState start).fringe.length = 1 := rfl
  simp only [stMeasure, searchFuel, hfr]
  omega

theorem searchLoop_finished {s : Strategy} {g : Grid} {goal start : Cell} :
    ∀ (fuel : Nat) (st : SState) (last : Option Nat), MInv g start st →
      stMeasure g st < fuel →
      (searchLoop s g goal fuel st last).finished = true := by
  intro fuel
  induction fuel with
  | zero => intro st last _ h; omega
  | succ fuel ih =>
      intro st last hm hlt
      unfold searchLoop
      cases hstep : searchStep s g goal st with
      | none => rfl
      | some v =>
          obtain ⟨snap, st', b⟩ := v
          obtain ⟨hm', hmeas⟩ := searchStep_minv hm hstep
          by_cases hb : b
          · subst hb
            simp only [if_pos]
          · simp only [Bool.not_eq_true] at hb
            subst hb
            simp only [Bool.false_eq_true, if_false]
            exact ih st' (some snap.current) hm' (by omega)

theorem relaxOne_arena_ext (s : Strategy) (goal : Cell) (curIdx : Nat)
    (st : SState) (cell : Cell) :
    ∃ t, (relaxOne s goal curIdx st cell).arena = st.arena ++ t := by
  rcases relaxOne_eq s goal curIdx st cell with h | ⟨nc, -, -, h⟩
  · exact ⟨[], by rw [h, List.append_nil]⟩
  · exact ⟨_, by rw [h]⟩

theorem extend_arena_ext (s : Strategy) (g : Grid) (goal : Cell)
    (curIdx : Nat) (st : SState) :
    ∃ t, (extend s g goal curIdx st).arena = st.arena ++ t := by
  exact foldl_preserve
    (fun st' => ∃ t, st'.arena = st.arena ++ t)
    (relaxOne s goal curIdx)
    (fun st' cell hp => by
      obtain ⟨t1, ht1⟩ := hp
      obtain ⟨t2, ht2⟩ := relaxOne_arena_ext s goal curIdx st' cell
      exact ⟨t1 ++ t2, by rw [ht2, ht1, List.append_assoc]⟩)
    (getNeighbors g (objAt st curIdx).row (objAt st curIdx).col) st
    ⟨[], (List.append_nil _).symm⟩

theorem searchStep_arena_ext {s : Strategy} {g : Grid} {goal : Cell}
    {st st' : SState} {snap : Snap} {b : Bool}
    (h : searchStep s g goal st = some (snap, st', b)) :
    ∃ t, st'.arena = st.arena ++ t := by
  unfold searchStep at h
  cases hpop : popFringe s st.fringe with
  | none => rw [hpop] at h; exact Option.noConfusion h
  | some er =>
      obtain ⟨e, rest⟩ := er
      rw [hpop] at h
      simp only [] at h
      by_cases hg : (objAt { st with fringe := rest } e.2.2).oid = cellId goal
      · rw [if_pos hg] at h
        cases Option.some.inj h
        exact ⟨[], (List.append_nil _).symm⟩
      · rw [if_neg hg] at h
        cases Option.some.inj h
        exact extend_arena_ext s g goal e.2.2 { st with fringe := rest }

/-- The structure of the snapshots produced by the loop: the recorded last
current tracks the last snapshot; no snapshot but possibly the final one
has the goal as its current node; every snapshot's current index is in the
final arena. -/
theorem searchLoop_shape {s : Strategy} {g : Grid} {goal start : Cell} :
    ∀ (fuel : Nat) (st : SState) (last : Option Nat), MInv g start st →
      (∃ t, (searchLoop s g goal fuel st last).state.arena = st.arena ++ t) ∧
      ((searchLoop s g goal fuel st last).lastCur =
        ((searchLoop s g goal fuel st last).snaps.getLast?.map (·.current)).or last) ∧
      (∀ sn ∈ (searchLoop s g goal fuel st last).snaps.dropLast,
        (objAt (searchLoop s g goal fuel st last).state sn.current).oid ≠ cellId goal) ∧
      (∀ sn ∈ (searchLoop s g goal fuel st last).snaps,
        sn.current < (searchLoop s g goal fuel st last).state.arena.length) := by
  intro fuel
  induction fuel with
  | zero =>
      intro st last _
      refine ⟨⟨[], (List.append_nil _).symm⟩, rfl, ?_, ?_⟩
      · intro sn hsn; simp [searchLoop] at hsn
      · intro sn hsn; simp [searchLoop] at hsn
  | succ fuel ih =>
      intro st last hm
      unfold searchLoop
      cases hstep : searchStep s g goal st with
      | none =>
          refine ⟨⟨[], (List.append_nil _).symm⟩, rfl, ?_, ?_⟩
          · intro sn hsn; simp at hsn
          · intro sn hsn; simp at hsn
      | some v =>
          obtain ⟨snap, st', b⟩ := v
          have hext := searchStep_arena_ext hstep
          have hm' := (searchStep_minv hm hstep).1
          -- facts about the popped snapshot
          have hsnap : snap.current < st.arena.length ∧
              (b = false →
                (objAt st' snap.current).oid ≠ cellId goal) := by
            obtain ⟨hw, -, -⟩ := hm
            obtain ⟨hch, hfr, hvis, hpar⟩ := hw
            unfold searchStep at hstep
            cases hpop : popFringe s st.fringe with
            | none => rw [hpop] at hstep; exact Option.noConfusion hstep
            | some er =>
                obtain ⟨e, rest⟩ := er
                rw [hpop] at hstep
                simp only [] at hstep
                have hcur : e.2.2 < st.arena.length := hfr e (popFringe_mem hpop)
                by_cases hg : (objAt { st with fringe := rest } e.2.2).oid = cellId goal
                · rw [if_pos hg] at hstep
                  have hinj := Option.some.inj hstep
                  simp only [Prod.mk.injEq] at hinj
                  obtain ⟨h1, h2, h3⟩ := hinj
                  refine ⟨?_, ?_⟩
                  · rw [← h1]; exact hcur
                  · intro hb
                    rw [← h3] at hb
                    exact absurd hb.symm (by simp)
                · rw [if_neg hg] at hstep
                  have hinj := Option.some.inj hstep
                  simp only [Prod.mk.injEq] at hinj
                  obtain ⟨h1, h2, h3⟩ := hinj
                  refine ⟨by rw [← h1]; exact hcur, ?_⟩
                  intro _hb
                  obtain ⟨t, ht⟩ : ∃ t, st'.arena =
                      st.arena ++ t := hext
                  have hobj2 : objAt st' snap.current =
                      objAt { st with fringe := rest } e.2.2 := by
                    unfold objAt
                    rw [ht, ← h1]
                    exact List.getD_append _ _ _ _ hcur
                  rw [hobj2]
                  exact hg
          by_cases hb : b
          · subst hb
            simp only [if_pos]
            refine ⟨hext, by simp, ?_, ?_⟩
            · intro sn hsn
              simp at hsn
            · intro sn hsn
              rw [List.mem_singleton.mp hsn]
              obtain ⟨t, ht⟩ := hext
              rw [ht, List.length_append]
              omega
          · simp only [Bool.not_eq_true] at hb
            subst hb
            simp only [Bool.false_eq_true, if_false]
            obtain ⟨hext2, hlast2, hng2, hmem2⟩ := ih st' (some snap.current) hm'
            obtain ⟨t1, ht1⟩ := hext
            obtain ⟨t2, ht2⟩ := hext2
            have hxt : (searchLoop s g goal fuel st' (some snap.current)).state.arena =
                st.arena ++ (t1 ++ t2) := by
              rw [ht2, ht1, List.append_assoc]
            refine ⟨⟨t1 ++ t2, hxt⟩, ?_, ?_, ?_⟩
            · cases hrs : (searchLoop s g goal fuel st' (some snap.current)).snaps with
              | nil =>
                  simp only [hrs] at hlast2
                  simp [hrs, hlast2]
              | cons a l =>
                  rw [hrs] at hlast2
                  simp only [List.getLast?_cons_cons]
                  rw [List.getLast?_cons] at hlast2 ⊢
                  simpa using hlast2
            · intro sn hsn
              cases hrs : (searchLoop s g goal fuel st' (some snap.current)).snaps with
              | nil =>
                  rw [hrs] at hsn
                  simp at hsn
              | cons a l =>
                  rw [hrs] at hsn
                  rw [show (snap :: a :: l).dropLast = snap :: (a :: l).dropLast
                    from rfl] at hsn
                  rcases List.mem_cons.mp hsn with hsn | hsn
                  · subst hsn
                    have hob : objAt
                        (searchLoop s g goal fuel st' (some sn.current)).state
                          sn.current = objAt st' sn.current := by
                      unfold objAt
                      rw [ht2]
                      refine List.getD_append _ _ _ _ ?_
                      rw [ht1, List.length_append]
                      omega
                    rw [hob]
                    exact hsnap.2 rfl
                  · rw [← hrs] at hsn
                    exact hng2 sn hsn
            · intro sn hsn
              rcases List.mem_cons.mp hsn with hsn | hsn
              · subst hsn
                rw [hxt, List.length_append]
                omega
              · exact hmem2 sn hsn

theorem getLast?_eq_getD {α : Type} (l : List α) (h : l ≠ []) (d : α) :
    l.getLast? = some (l.getD (l.length - 1) d) := by
  have hlen : l.length - 1 < l.length := by
    cases l with
    | nil => exact absurd rfl h
    | cons a t => simp
  rw [List.getLast?_eq_getElem?, List.getElem?_eq_getElem hlen,
    getD_eq_getElem _ _ _ hlen]

theorem getD_mem_dropLast {α : Type} (l : List α) (d : α) (i : Nat)
    (h : i < l.length - 1) : l.getD i d ∈ l.dropLast := by
  have h1 : i < l.dropLast.length := by rw [List.length_dropLast]; exact h
  have h2 : i < l.length := by omega
  rw [getD_eq_getElem _ _ _ h2, ← List.getElem_dropLast _ _ h1]
  exact List.getElem_mem h1

theorem searchStep_none_iff (s : Strategy) (g : Grid) (goal : Cell)
    (st : SState) : searchStep s g goal st = none ↔ st.fringe = [] := by
  constructor
  · intro h
    unfold searchStep at h
    cases hpop : popFringe s st.fringe with
    | none => exact (popFringe_none_iff s st.fringe).mp hpop
    | some er =>
        obtain ⟨e, rest⟩ := er
        rw [hpop] at h
        simp only [] at h
        by_cases hg : (objAt { st with fringe := rest } e.2.2).oid = cellId goal
        · rw [if_pos hg] at h
          exact Option.noConfusion h
        · rw [if_neg hg] at h
          exact Option.noConfusion h
  · intro h
    unfold searchStep
    rw [(popFringe_none_iff s st.fringe).mpr h]

theorem searchLoop_succ (s : Strategy) (g : Grid) (goal : Cell)
    (fuel : Nat) (st : SState) (last : Option Nat) :
    searchLoop s g goal (fuel + 1) st last =
      (match searchStep s g goal st with
      | none => (⟨[], st, last, true⟩ : RunResult)
      | some (snap, st', isGoal) =>
          if isGoal then (⟨[snap], st', some snap.current, true⟩ : RunResult)
          else
            let r := searchLoop s g goal fuel st' (some snap.current)
            (⟨snap :: r.snaps, r.state, r.lastCur, r.finished⟩ : RunResult)) := rfl

theorem searchLoop_snaps_ne_nil {s : Strategy} {g : Grid} {goal : Cell}
    {fuel : Nat} {st : SState} {last : Option Nat}
    (hf : st.fringe ≠ []) (hfuel : 0 < fuel) :
    (searchLoop s g goal fuel st last).snaps ≠ [] := by
  cases fuel with
  | zero => omega
  | succ fuel =>
      rw [searchLoop_succ]
      cases hstep : searchStep s g goal st with
      | none => exact absurd ((searchStep_none_iff s g goal st).mp hstep) hf
      | some v =>
          obtain ⟨snap, st', b⟩ := v
          by_cases hb : b
          · subst hb; simp
          · simp only [Bool.not_eq_true] at hb
            subst hb
            simp

/-- C10: every run of `FringeSearch.search` (and of its verbatim copy in
`AStarSearch.search`, both embedded as `searchRun` over the four
strategies) on a finite maze produces a finite snapshot sequence — the
loop provably stops within the allotted fuel — with at least two
snapshots, the last snapshot repeating the current node of the one before
it; and if the goal is ever the current node of a snapshot, it is the
current node of exactly the last two snapshots. -/
theorem claim_C10_snapshot_sequence (s : Strategy) (g : Grid)
    (start goal : Cell)
    (hstart : start.1 < gridRows g ∧ start.2 < gridCols g) :
    (searchRun s g start goal).finished = true
    ∧ 2 ≤ (searchRun s g start goal).snaps.length
    ∧ ((searchRun s g start goal).snaps.getD
        ((searchRun s g start goal).snaps.length - 1) defaultSnap).current =
      ((searchRun s g start goal).snaps.getD
        ((searchRun s g start goal).snaps.length - 2) defaultSnap).current
    ∧ ((∃ sn ∈ (searchRun s g start goal).snaps,
          (objAt (searchRun s g start goal).state sn.current).oid = cellId goal) →
        ∀ i, i < (searchRun s g start goal).snaps.length →
          ((objAt (searchRun s g start goal).state
              ((searchRun s g start goal).snaps.getD i defaultSnap).current).oid
                = cellId goal
            ↔ (searchRun s g start goal).snaps.length ≤ i + 2)) := by
  have hminv := initState_minv hstart
  have hfin := @searchLoop_finished s g goal start
    (searchFuel g) (initState start) none hminv (initState_measure g start)
  obtain ⟨hext, hlast, hng, hmem⟩ := @searchLoop_shape s g goal start
    (searchFuel g) (initState start) none hminv
  set r0 := searchLoop s g goal (searchFuel g) (initState start) none with hr0
  have hne : r0.snaps ≠ [] := by
    refine searchLoop_snaps_ne_nil ?_ ?_
    · simp [initState]
    · simp [searchFuel]
  -- the last loop snapshot
  have hlastD := getLast?_eq_getD r0.snaps hne defaultSnap
  set lastSn := r0.snaps.getD (r0.snaps.length - 1) defaultSnap with hlsn
  have hlc : r0.lastCur = some lastSn.current := by
    rw [hlast, hlastD]
    rfl
  have hrun : searchRun s g start goal =
      { r0 with snaps := r0.snaps ++
          [⟨lastSn.current, 0, r0.state.visited.map (·.2)⟩] } := by
    show (match r0.lastCur with
      | none => r0
      | some c =>
          { r0 with snaps := r0.snaps ++
              [(⟨c, 0, r0.state.visited.map (fun q : Nat × Nat => q.2)⟩ : Snap)] }) = _
    rw [hlc]
  have hlen0 : 1 ≤ r0.snaps.length := by
    cases hsn : r0.snaps with
    | nil => exact absurd hsn hne
    | cons a t => simp
  rw [hrun]
  simp only [List.length_append, List.length_cons, List.length_nil]
  refine ⟨hfin, by omega, ?_, ?_⟩
  · -- the final snapshot repeats the previous current
    have h1 : r0.snaps.length + 1 - 1 = r0.snaps.length := by omega
    have h2 : (r0.snaps ++
        [(⟨lastSn.current, 0, r0.state.visited.map (·.2)⟩ : Snap)]).getD
          r0.snaps.length defaultSnap =
        ⟨lastSn.current, 0, r0.state.visited.map (·.2)⟩ := getD_append_self _ _ _
    have h3 : (r0.snaps ++
        [(⟨lastSn.current, 0, r0.state.visited.map (·.2)⟩ : Snap)]).getD
          (r0.snaps.length + 1 - 2) defaultSnap = lastSn := by
      have hx : r0.snaps.length + 1 - 2 = r0.snaps.length - 1 := by omega
      rw [hx, getD_append_lt _ _ _ _ (by omega)]
    rw [h1, h2, h3]
  · -- goal appears exactly at the last two snapshots
    rintro ⟨sn, hsn, hgoal⟩ i hi
    -- the goal-current snapshot must be the last loop snapshot
    have hlastSn_goal : (objAt r0.state lastSn.current).oid = cellId goal := by
      rcases List.mem_append.mp hsn with hsn | hsn
      · -- in the loop snapshots: not in dropLast, hence the last one
        by_cases hdrop : sn ∈ r0.snaps.dropLast
        · exact absurd hgoal (hng sn hdrop)
        · have hsplit := List.dropLast_append_getLast hne
          have hlast_mem : sn = r0.snaps.getLast hne := by
            rcases List.mem_append.mp (hsplit ▸ hsn) with h | h
            · exact absurd h hdrop
            · exact List.mem_singleton.mp h
          have hgl : r0.snaps.getLast hne = lastSn := by
            have := List.getLast?_eq_getLast r0.snaps hne
            rw [hlastD] at this
            exact (Option.some.inj this).symm
          rw [← hgl, ← hlast_mem]
          exact hgoal
      · -- the appended final snapshot has the same current
        rw [List.mem_singleton.mp hsn] at hgoal
        exact hgoal
    constructor
    · intro hgi
      by_contra hcon
      push_neg at hcon
      have hilt : i < r0.snaps.length - 1 := by omega
      have hgetd : (r0.snaps ++
          [(⟨lastSn.current, 0, r0.state.visited.map (·.2)⟩ : Snap)]).getD i
            defaultSnap = r0.snaps.getD i defaultSnap :=
        getD_append_lt _ _ _ _ (by omega)
      rw [hgetd] at hgi
      exact hng _ (getD_mem_dropLast _ _ _ hilt) hgi
    · intro hge
      have : i = r0.snaps.length - 1 ∨ i = r0.snaps.length := by omega
      rcases this with hieq | hieq
      · subst hieq
        rw [getD_append_lt _ _ _ _ (by omega)]
        exact hlastSn_goal
      · subst hieq
        rw [getD_append_self]
        exact hlastSn_goal

/-- Witness for C10 at a concrete input (breadth-first on the two-cell
corridor with in-bounds start). -/
theorem claim_C10_snapshot_sequence_witness :
    (searchRun .bfs mazeDuo (1, 1) (1, 2)).finished = true
    ∧ 2 ≤ (searchRun .bfs mazeDuo (1, 1) (1, 2)).snaps.length
    ∧ ((searchRun .bfs mazeDuo (1, 1) (1, 2)).snaps.getD
        ((searchRun .bfs mazeDuo (1, 1) (1, 2)).snaps.length - 1) defaultSnap).current =
      ((searchRun .bfs mazeDuo (1, 1) (1, 2)).snaps.getD
        ((searchRun .bfs mazeDuo (1, 1) (1, 2)).snaps.length - 2) defaultSnap).current
    ∧ ((∃ sn ∈ (searchRun .bfs mazeDuo (1, 1) (1, 2)).snaps,
          (objAt (searchRun .bfs mazeDuo (1, 1) (1, 2)).state sn.current).oid
            = cellId (1, 2)) →
        ∀ i, i < (searchRun .bfs mazeDuo (1, 1) (1, 2)).snaps.length →
          ((objAt (searchRun .bfs mazeDuo (1, 1) (1, 2)).state
              ((searchRun .bfs mazeDuo (1, 1) (1, 2)).snaps.getD i defaultSnap).current).oid
                = cellId (1, 2)
            ↔ (searchRun .bfs mazeDuo (1, 1) (1, 2)).snaps.length ≤ i + 2)) :=
  claim_C10_snapshot_sequence .bfs mazeDuo (1, 1) (1, 2) (by decide)

/-! ### Grid write lemmas -/

theorem gridRows_setCell (g : Grid) (r c : Nat) (ch : Char) :
    gridRows (setCell g r c ch) = gridRows g := by
  simp [setCell, gridRows]

theorem gridCols_setCell (g : Grid) (r c : Nat) (ch : Char) :
    gridCols (setCell g r c ch) = gridCols g := by
  cases g with
  | nil => rfl
  | cons row t =>
      cases r with
      | zero => simp [setCell, gridCols, List.getD]
      | succ k => simp [setCell, gridCols]

theorem rect_setCell {g : Grid} (hr : Rect g) (r c : Nat) (ch : Char) :
    Rect (setCell g r c ch) := by
  intro r' hr'
  rw [gridRows_setCell] at hr'
  rw [gridCols_setCell]
  by_cases hrr : r = r'
  · subst hrr
    have hlt : r < g.length := hr'
    rw [show (setCell g r c ch).getD r [] = (g.getD r []).set c ch from
      getD_set_self g r ((g.getD r []).set c ch) [] hlt]
    rw [List.length_set]
    exact hr r hr'
  · rw [show (setCell g r c ch).getD r' [] = g.getD r' [] from
      getD_set_ne _ _ _ _ _ hrr]
    exact hr r' hr'

theorem getCell_setCell_ne {g : Grid} {r c r' c' : Nat} (ch : Char)
    (h : (r', c') ≠ (r, c)) :
    getCell (setCell g r c ch) r' c' = getCell g r' c' := by
  unfold getCell setCell
  by_cases hrr : r = r'
  · subst hrr
    have hcc : c ≠ c' := by
      intro hcon
      exact h (by rw [hcon])
    by_cases hlt : r < g.length
    · rw [getD_set_self _ _ _ _ hlt, getD_set_ne _ _ _ _ _ hcc]
    · rw [List.set_eq_of_length_le (by omega)]
  · rw [getD_set_ne _ _ _ _ _ hrr]

theorem getCell_setCell_self {g : Grid} {r c : Nat} (ch : Char)
    (hr : r < gridRows g) (hc : c < (g.getD r []).length) :
    getCell (setCell g r c ch) r c = ch := by
  unfold getCell setCell
  rw [getD_set_self _ _ _ _ hr, getD_set_self _ _ _ _ hc]

theorem getCell_setCell_cases (g : Grid) (r c : Nat) (ch : Char)
    (r' c' : Nat) :
    getCell (setCell g r c ch) r' c' = getCell g r' c' ∨
    getCell (setCell g r c ch) r' c' = ch := by
  by_cases hp : (r', c') = (r, c)
  · have hr0 : r' = r := by
      have := congrArg Prod.fst hp
      simpa using this
    have hc0 : c' = c := by
      have := congrArg Prod.snd hp
      simpa using this
    subst hr0
    subst hc0
    by_cases hr1 : r' < g.length
    · by_cases hc1 : c' < (g.getD r' []).length
      · right
        exact getCell_setCell_self ch hr1 hc1
      · left
        unfold getCell setCell
        rw [getD_set_self _ _ _ _ hr1, List.set_eq_of_length_le (by omega)]
    · left
      unfold setCell
      rw [List.set_eq_of_length_le (by omega)]
  · left
    exact getCell_setCell_ne ch hp

theorem passGrow_setBlank (g : Grid) (r c : Nat) :
    PassGrow g (setCell g r c ' ') := by
  refine ⟨gridRows_setCell g r c ' ', gridCols_setCell g r c ' ', ?_⟩
  intro p hp
  obtain ⟨h1, h2, h3⟩ := hp
  refine ⟨by rw [gridRows_setCell]; exact h1,
    by rw [gridCols_setCell]; exact h2, ?_⟩
  rcases getCell_setCell_cases g r c ' ' p.1 p.2 with h | h <;> rw [h]
  · exact h3
  · decide

theorem passGrow_trans {g1 g2 g3 : Grid} (h1 : PassGrow g1 g2)
    (h2 : PassGrow g2 g3) : PassGrow g1 g3 :=
  ⟨h2.1.trans h1.1, h2.2.1.trans h1.2.1,
   fun p hp => h2.2.2 p (h1.2.2 p hp)⟩

theorem charsOk_setBlank {g : Grid} (hc : CharsOk g) (r c : Nat) :
    CharsOk (setCell g r c ' ') := by
  intro r' c'
  rcases getCell_setCell_cases g r c ' ' r' c' with h | h <;> rw [h]
  · exact hc r' c'
  · exact Or.inr rfl

theorem mazeGraph_le {g g' : Grid} (h : PassGrow g g') :
    mazeGraph g ≤ mazeGraph g' := by
  intro a b hab
  obtain ⟨pa, pb, hadj⟩ := hab
  exact ⟨h.2.2 _ pa, h.2.2 _ pb, hadj⟩

theorem reach_mono {g g' : Grid} (h : PassGrow g g') {a b : Cell}
    (hr : (mazeGraph g).Reachable a b) : (mazeGraph g').Reachable a b :=
  hr.mono (mazeGraph_le h)

/-- Carving a blank adjacent to an existing passage keeps all passages
connected to the root. -/
theorem conn_setBlank {g : Grid} {s q : Cell} {r c : Nat}
    (hconn : Conn g s) (hq : isPassage g q) (hadj : adjCoord q (r, c)) :
    Conn (setCell g r c ' ') s := by
  have hgrow := passGrow_setBlank g r c
  intro p hp
  by_cases hpc : p = (r, c)
  · subst hpc
    have hq' : isPassage (setCell g r c ' ') q := hgrow.2.2 q hq
    have hadj' : (mazeGraph (setCell g r c ' ')).Adj q (r, c) := ⟨hq', hp, hadj⟩
    exact (reach_mono hgrow (hconn q hq)).trans hadj'.reachable
  · have hpold : isPassage g p := by
      obtain ⟨h1, h2, h3⟩ := hp
      refine ⟨by rw [← hgrow.1]; exact h1, by rw [← hgrow.2.1]; exact h2, ?_⟩
      rw [← @getCell_setCell_ne g _ _ _ _ ' ' (by
        intro hcon
        exact hpc (by
          obtain ⟨a, b⟩ := p
          simpa using hcon))]
      exact h3
    exact reach_mono hgrow (hconn p hpold)

/-! ### Carving preserves the grid invariant -/

theorem permuteByAux_mem {α : Type} :
    ∀ (f k : Nat) (l : List α) (x : α), x ∈ permuteByAux f k l → x ∈ l := by
  intro f
  induction f with
  | zero => intro k l x hx; simp [permuteByAux] at hx
  | succ f ih =>
      intro k l x hx
      cases l with
      | nil => simpa [permuteByAux] using hx
      | cons a t =>
          simp only [permuteByAux] at hx
          rcases List.mem_cons.mp hx with hx | hx
          · subst hx
            by_cases hi : k % (t.length + 1) < (a :: t).length
            · rw [getD_eq_getElem _ _ _ hi]
              exact List.getElem_mem hi
            · rw [List.getD_eq_getElem?_getD,
                List.getElem?_eq_none (by omega)]
              exact List.mem_cons_self _ _
          · exact (List.eraseIdx_subset _ _) (ih _ _ _ hx)

theorem permuteBy_mem {α : Type} {k : Nat} {l : List α} {x : α}
    (hx : x ∈ permuteBy k l) : x ∈ l :=
  permuteByAux_mem _ _ _ _ hx

/-- The target and intervening cells of a carve direction: adjacency and
bounds. -/
theorem carveDir_cells {dx dy : Int} (hd : (dx, dy) ∈ carveDirs)
    {cx cy w h : Nat} (hc : cx < w ∧ cy < h)
    (hb : 0 < (cx : Int) + dx ∧ (cx : Int) + dx < (w : Int) ∧
      0 < (cy : Int) + dy ∧ (cy : Int) + dy < (h : Int)) :
    adjCoord (cy, cx) (((cy : Int) + dy / 2).toNat, ((cx : Int) + dx / 2).toNat) ∧
    adjCoord (((cy : Int) + dy / 2).toNat, ((cx : Int) + dx / 2).toNat)
      (((cy : Int) + dy).toNat, ((cx : Int) + dx).toNat) ∧
    ((cy : Int) + dy / 2).toNat < h ∧ ((cx : Int) + dx / 2).toNat < w ∧
    ((cy : Int) + dy).toNat < h ∧ ((cx : Int) + dx).toNat < w := by
  simp only [carveDirs, List.mem_cons, List.mem_singleton,
    Prod.mk.injEq, List.not_mem_nil, or_false] at hd
  rcases hd with ⟨h1, h2⟩ | ⟨h1, h2⟩ | ⟨h1, h2⟩ | ⟨h1, h2⟩ <;>
    subst h1 <;> subst h2 <;>
    simp only [adjCoord, Prod.fst, Prod.snd, true_and, and_true, true_or,
      or_true,
      show ((2 : Int)) / 2 = 1 from by decide,
      show ((-2 : Int)) / 2 = -1 from by decide,
      show ((0 : Int)) / 2 = 0 from by decide] <;> omega

/-- Knocking down the intervening wall and the two-step target preserves
the invariant, grows the passages, and makes the target a connected
passage. -/
theorem carve_write {w h : Nat} {g : Grid} {cur mid tgt : Cell}
    (hg : GInv w h g) (hcur : isPassage g cur)
    (hadj1 : adjCoord cur mid) (hadj2 : adjCoord mid tgt)
    (hmidb : mid.1 < h ∧ mid.2 < w) (htgtb : tgt.1 < h ∧ tgt.2 < w) :
    GInv w h (setCell (setCell g mid.1 mid.2 ' ') tgt.1 tgt.2 ' ') ∧
    PassGrow g (setCell (setCell g mid.1 mid.2 ' ') tgt.1 tgt.2 ' ') ∧
    isPassage (setCell (setCell g mid.1 mid.2 ' ') tgt.1 tgt.2 ' ') tgt := by
  obtain ⟨hrows, hcols, hrect, hchars, hconn⟩ := hg
  have hg1rows : gridRows (setCell g mid.1 mid.2 ' ') = h := by
    rw [gridRows_setCell]; exact hrows
  have hg1cols : gridCols (setCell g mid.1 mid.2 ' ') = w := by
    rw [gridCols_setCell]; exact hcols
  have hg1rect : Rect (setCell g mid.1 mid.2 ' ') := rect_setCell hrect _ _ _
  have hg1chars : CharsOk (setCell g mid.1 mid.2 ' ') := charsOk_setBlank hchars _ _
  have hg1conn : Conn (setCell g mid.1 mid.2 ' ') (1, 1) := by
    have : adjCoord cur (mid.1, mid.2) := hadj1
    exact conn_setBlank hconn hcur this
  have hmidpass : isPassage (setCell g mid.1 mid.2 ' ') mid := by
    refine ⟨by rw [hg1rows]; exact hmidb.1, by rw [hg1cols]; exact hmidb.2, ?_⟩
    rw [getCell_setCell_self ' ' (by rw [gridRows] at hrows ⊢; omega)
      (by rw [hrect mid.1 (by rw [hrows]; exact hmidb.1)]; omega)]
    decide
  have hg2rows : gridRows (setCell (setCell g mid.1 mid.2 ' ') tgt.1 tgt.2 ' ') = h := by
    rw [gridRows_setCell]; exact hg1rows
  have hg2cols : gridCols (setCell (setCell g mid.1 mid.2 ' ') tgt.1 tgt.2 ' ') = w := by
    rw [gridCols_setCell]; exact hg1cols
  have hg2conn : Conn (setCell (setCell g mid.1 mid.2 ' ') tgt.1 tgt.2 ' ') (1, 1) := by
    have : adjCoord mid (tgt.1, tgt.2) := hadj2
    exact conn_setBlank hg1conn hmidpass this
  have hg2pass : isPassage (setCell (setCell g mid.1 mid.2 ' ') tgt.1 tgt.2 ' ') tgt := by
    refine ⟨by rw [hg2rows]; exact htgtb.1, by rw [hg2cols]; exact htgtb.2, ?_⟩
    rw [getCell_setCell_self ' '
      (by rw [gridRows] at hg1rows ⊢; omega)
      (by rw [hg1rect tgt.1 (by rw [hg1rows]; exact htgtb.1), hg1cols]; omega)]
    decide
  refine ⟨⟨hg2rows, hg2cols, rect_setCell hg1rect _ _ _,
    charsOk_setBlank hg1chars _ _, hg2conn⟩,
    passGrow_trans (passGrow_setBlank g mid.1 mid.2)
      (passGrow_setBlank _ tgt.1 tgt.2), hg2pass⟩

theorem passGrow_refl (g : Grid) : PassGrow g g :=
  ⟨rfl, rfl, fun _ hp => hp⟩

/-- Unfolding equation for one direction of the carve loop. -/
theorem carveList_cons (fuel : Nat) (dx dy : Int) (ds : List (Int × Int))
    (g : Grid) (rng : Nat → Nat) (cx cy w h : Nat) :
    carveList (fuel + 1) ((dx, dy) :: ds) g rng cx cy w h =
      (if 0 < (cx : Int) + dx ∧ (cx : Int) + dx < (w : Int) ∧
          0 < (cy : Int) + dy ∧ (cy : Int) + dy < (h : Int) ∧
          getCell g ((cy : Int) + dy).toNat ((cx : Int) + dx).toNat = '#' then
        match carveList fuel (permuteBy (rng 0) carveDirs)
            (setCell
              (setCell g ((cy : Int) + dy / 2).toNat ((cx : Int) + dx / 2).toNat ' ')
              ((cy : Int) + dy).toNat ((cx : Int) + dx).toNat ' ')
            (advRng rng) ((cx : Int) + dx).toNat ((cy : Int) + dy).toNat w h with
        | .error e => .error e
        | .ok (g3, rng') => carveList fuel ds g3 rng' cx cy w h
      else carveList fuel ds g rng cx cy w h) := rfl

/-- Carving from a passage cell with directions drawn from `carveDirs`
preserves the grid invariant and only grows the passages. -/
theorem carveList_ginv :
    ∀ (fuel : Nat) (ds : List (Int × Int)) (g : Grid) (rng : Nat → Nat)
      (cx cy w h : Nat) (g' : Grid) (rng' : Nat → Nat),
    carveList fuel ds g rng cx cy w h = Except.ok (g', rng') →
    (∀ d, d ∈ ds → d ∈ carveDirs) →
    GInv w h g → isPassage g (cy, cx) →
    GInv w h g' ∧ PassGrow g g' := by
  intro fuel
  induction fuel with
  | zero =>
      intro ds g rng cx cy w h g' rng' hok
      simp [carveList] at hok
  | succ fuel ih =>
      intro ds g rng cx cy w h g' rng' hok hds hg hcur
      cases ds with
      | nil =>
          have hok' : (Except.ok (g, rng) : Except String (Grid × (Nat → Nat))) =
              Except.ok (g', rng') := hok
          have h1 : g = g' := congrArg Prod.fst (Except.ok.inj hok')
          exact ⟨h1 ▸ hg, h1 ▸ passGrow_refl g⟩
      | cons d ds =>
          obtain ⟨dx, dy⟩ := d
          rw [carveList_cons] at hok
          by_cases hcond : 0 < (cx : Int) + dx ∧ (cx : Int) + dx < (w : Int) ∧
              0 < (cy : Int) + dy ∧ (cy : Int) + dy < (h : Int) ∧
              getCell g ((cy : Int) + dy).toNat ((cx : Int) + dx).toNat = '#'
          · rw [if_pos hcond] at hok
            have hc : cx < w ∧ cy < h := by
              obtain ⟨hr, hcc, _⟩ := hcur
              exact ⟨by rw [hg.2.1] at hcc; exact hcc, by rw [hg.1] at hr; exact hr⟩
            have hb : 0 < (cx : Int) + dx ∧ (cx : Int) + dx < (w : Int) ∧
                0 < (cy : Int) + dy ∧ (cy : Int) + dy < (h : Int) :=
              ⟨hcond.1, hcond.2.1, hcond.2.2.1, hcond.2.2.2.1⟩
            have hmem : (dx, dy) ∈ carveDirs := hds _ (List.mem_cons_self _ _)
            obtain ⟨hadj1, hadj2, hm1, hm2, ht1, ht2⟩ := carveDir_cells hmem hc hb
            obtain ⟨hg2, hgrow2, htpass⟩ :=
              @carve_write w h g _
                ((((cy : Int) + dy / 2).toNat, ((cx : Int) + dx / 2).toNat))
                ((((cy : Int) + dy).toNat, ((cx : Int) + dx).toNat))
                hg hcur hadj1 hadj2 ⟨hm1, hm2⟩ ⟨ht1, ht2⟩
            rcases hrec : carveList fuel (permuteBy (rng 0) carveDirs)
                (setCell
                  (setCell g ((cy : Int) + dy / 2).toNat ((cx : Int) + dx / 2).toNat ' ')
                  ((cy : Int) + dy).toNat ((cx : Int) + dx).toNat ' ')
                (advRng rng) ((cx : Int) + dx).toNat ((cy : Int) + dy).toNat w h with
              e | p
            · rw [hrec] at hok
              exact absurd hok (by simp)
            · obtain ⟨g3, rng3⟩ := p
              rw [hrec] at hok
              have hok2 : carveList fuel ds g3 rng3 cx cy w h =
                  Except.ok (g', rng') := hok
              obtain ⟨hg3, hgrow3⟩ := ih _ _ _ _ _ _ _ _ _ hrec
                (fun d hd => permuteBy_mem hd) hg2 htpass
              have hcur3 : isPassage g3 (cy, cx) :=
                hgrow3.2.2 _ (hgrow2.2.2 _ hcur)
              obtain ⟨hg', hgrow'⟩ := ih _ _ _ _ _ _ _ _ _ hok2
                (fun d hd => hds _ (List.mem_cons_of_mem _ hd)) hg3 hcur3
              exact ⟨hg', passGrow_trans (passGrow_trans hgrow2 hgrow3) hgrow'⟩
          · rw [if_neg hcond] at hok
            exact ih _ _ _ _ _ _ _ _ _ hok
              (fun d hd => hds _ (List.mem_cons_of_mem _ hd)) hg hcur

/-! ### The farthest-cell BFS (`_find_farthest_cell`) -/

theorem xyCell_inj {a b : Nat × Nat} (h : xyCell a = xyCell b) : a = b := by
  obtain ⟨a1, a2⟩ := a
  obtain ⟨b1, b2⟩ := b
  simp only [xyCell, Prod.mk.injEq] at h ⊢
  exact ⟨h.2, h.1⟩

theorem adjCoord_symm {a b : Cell} (h : adjCoord a b) : adjCoord b a := by
  rcases h with ⟨h1, h2 | h2⟩ | ⟨h1, h2 | h2⟩
  · exact Or.inl ⟨h1.symm, Or.inr h2⟩
  · exact Or.inl ⟨h1.symm, Or.inl h2⟩
  · exact Or.inr ⟨h1.symm, Or.inr h2⟩
  · exact Or.inr ⟨h1.symm, Or.inl h2⟩

theorem dist_adj_le {V : Type} {G : SimpleGraph V} {u v w : V}
    (h : G.Adj v w) (hr : G.Reachable u v) : G.dist u w ≤ G.dist u v + 1 := by
  obtain ⟨p, hp⟩ := hr.exists_walk_length_eq_dist
  calc G.dist u w ≤ (p.append h.toWalk).length := SimpleGraph.dist_le _
    _ = G.dist u v + 1 := by
      rw [SimpleGraph.Walk.length_append]
      simp [hp]

theorem pairwise_const_le {α : Type} (f : α → Nat) (v : Nat) :
    ∀ (l : List α), (∀ a ∈ l, f a = v) →
      List.Pairwise (· ≤ ·) (l.map f) := by
  intro l
  induction l with
  | nil => intro _; simp
  | cons a t ih =>
      intro hl
      rw [List.map_cons]
      refine List.Pairwise.cons ?_ (ih fun b hb => hl b (List.mem_cons_of_mem _ hb))
      intro b hb
      obtain ⟨c, hc, rfl⟩ := List.mem_map.mp hb
      rw [hl a (List.mem_cons_self _ _), hl c (List.mem_cons_of_mem _ hc)]

theorem pairwise_map_head_le {α : Type} (f : α → Nat) {q0 : α} {rest : List α}
    (h : List.Pairwise (· ≤ ·) ((q0 :: rest).map f)) :
    ∀ a ∈ q0 :: rest, f q0 ≤ f a := by
  intro a ha
  rcases List.mem_cons.mp ha with rfl | ha
  · exact le_refl _
  · rw [List.map_cons] at h
    exact (List.pairwise_cons.mp h).1 _ (List.mem_map_of_mem f ha)

theorem walk_penultimate {V : Type} {G : SimpleGraph V} {a b : V}
    (w : G.Walk a b) {k : Nat} (hw : w.length = k + 1) :
    ∃ (u : V) (_ : G.Adj b u) (t : G.Walk u a), t.length = k := by
  cases hwr : w.reverse with
  | nil =>
      have hlen := congrArg SimpleGraph.Walk.length hwr
      rw [SimpleGraph.Walk.length_reverse, hw] at hlen
      simp at hlen
  | cons hadj tail =>
      have hlen := congrArg SimpleGraph.Walk.length hwr
      rw [SimpleGraph.Walk.length_reverse, hw,
        SimpleGraph.Walk.length_cons] at hlen
      exact ⟨_, hadj, tail, by omega⟩

/-- BFS closure: any reachable passage cell no farther than the queue head
(vacuously, any reachable passage cell when the queue is empty) is already
visited. -/
theorem farInv_visits {g : Grid} {s0 : Nat × Nat} {st : FarState}
    (inv : FarInv g s0 st)
    {p : Nat × Nat} (hp : isPassage g (xyCell p))
    (hr : (mazeGraph g).Reachable (xyCell s0) (xyCell p))
    (hd : ∀ q0 rest, st.queue = q0 :: rest →
      (mazeGraph g).dist (xyCell s0) (xyCell p) ≤
        (mazeGraph g).dist (xyCell s0) (xyCell q0)) :
    p ∈ st.visited := by
  have H : ∀ k : Nat, ∀ p : Nat × Nat, isPassage g (xyCell p) →
      (mazeGraph g).Reachable (xyCell s0) (xyCell p) →
      (mazeGraph g).dist (xyCell s0) (xyCell p) = k →
      (∀ q0 rest, st.queue = q0 :: rest →
        k ≤ (mazeGraph g).dist (xyCell s0) (xyCell q0)) →
      p ∈ st.visited := by
    intro k
    induction k using Nat.strong_induction_on with
    | _ k ih =>
      intro p hp hr hk hq
      cases k with
      | zero =>
          have hzz : xyCell s0 = xyCell p := hr.dist_eq_zero_iff.mp hk
          have : s0 = p := xyCell_inj hzz
          exact this ▸ inv.start_mem
      | succ k =>
          obtain ⟨wlk, hw⟩ := hr.exists_walk_length_eq_dist
          rw [hk] at hw
          obtain ⟨u, hadj, tail, htl⟩ := walk_penultimate wlk hw
          obtain ⟨u1, u2⟩ := u
          have hxy : xyCell (u2, u1) = (u1, u2) := rfl
          have hupass : isPassage g (u1, u2) := hadj.2.1
          have hadjc : adjCoord (xyCell p) (u1, u2) := hadj.2.2
          have hureach : (mazeGraph g).Reachable (xyCell s0) (u1, u2) :=
            ⟨tail.reverse⟩
          have hdu : (mazeGraph g).dist (xyCell s0) (u1, u2) ≤ k := by
            calc (mazeGraph g).dist (xyCell s0) (u1, u2) ≤
                tail.reverse.length := SimpleGraph.dist_le _
              _ = k := by rw [SimpleGraph.Walk.length_reverse, htl]
          have humem : (u2, u1) ∈ st.visited := by
            refine ih ((mazeGraph g).dist (xyCell s0) (u1, u2))
              (by omega) (u2, u1) (hxy ▸ hupass) (hxy ▸ hureach)
              (by rw [hxy]) ?_
            intro q0 rest hqe
            have := hq q0 rest hqe
            omega
          rcases inv.front (u2, u1) humem with hque | hcov
          · cases hqe : st.queue with
            | nil => rw [hqe] at hque; simp at hque
            | cons q0 rest =>
                have hmin := pairwise_map_head_le
                  (fun q => (mazeGraph g).dist (xyCell s0) (xyCell q))
                  (hqe ▸ inv.sorted) (u2, u1) (hqe ▸ hque)
                have hqk := hq q0 rest hqe
                have hmin' : (mazeGraph g).dist (xyCell s0) (xyCell q0) ≤
                    (mazeGraph g).dist (xyCell s0) (u1, u2) := hmin
                omega
          · exact hcov p hp (adjCoord_symm (hxy ▸ hadjc))
  exact H _ p hp hr rfl hd

/-- One BFS iteration is the neighbour fold over the popped head. -/
theorem farStep_eq (g : Grid) (w h : Nat) (st : FarState) {cx cy : Nat}
    {rest : List (Nat × Nat)} (hq : st.queue = (cx, cy) :: rest) :
    farStep g w h st = some (farDirs.foldl
      (farVisit g w h cx cy ((alookup st.dists (cx, cy)).getD 0))
      { st with
        queue := rest
        farthest := if st.maxd < (alookup st.dists (cx, cy)).getD 0 then
          (cx, cy) else st.farthest
        maxd := if st.maxd < (alookup st.dists (cx, cy)).getD 0 then
          (alookup st.dists (cx, cy)).getD 0 else st.maxd
        pops := st.pops ++ [((cx, cy), (alookup st.dists (cx, cy)).getD 0)] }) := by
  unfold farStep
  rw [hq]
  rfl

/-- One application of the neighbour-fold body preserves the mid-fold
invariant; moreover the cell one step along the direction, if it is a
passage, is visited afterwards. -/
theorem farVisit_step {g : Grid} {w h : Nat} {st : FarState}
    {cx cy d : Nat} {rest news : List (Nat × Nat)} {acc : FarState}
    (hrows : gridRows g = h) (hcols : gridCols g = w)
    (hP : FarFold g st rest cx cy d news acc)
    {dx dy : Int} (hdir : (dx, dy) ∈ farDirs) :
    ∃ news',
      FarFold g st rest cx cy d news' (farVisit g w h cx cy d acc (dx, dy)) ∧
      (∀ n ∈ news, n ∈ news') ∧
      (∀ n : Nat × Nat, isPassage g (xyCell n) →
        (cx : Int) + dx = (n.1 : Int) → (cy : Int) + dy = (n.2 : Int) →
        n ∈ (farVisit g w h cx cy d acc (dx, dy)).visited) := by
  obtain ⟨hqu, hv, hpp, hf, hm, hnd, hdists, hnews⟩ := hP
  have hfv : farVisit g w h cx cy d acc (dx, dy) =
      (if 0 ≤ (cx : Int) + dx ∧ (cx : Int) + dx < (w : Int) ∧
          0 ≤ (cy : Int) + dy ∧ (cy : Int) + dy < (h : Int) ∧
          (((cx : Int) + dx).toNat, ((cy : Int) + dy).toNat) ∉ acc.visited ∧
          getCell g ((cy : Int) + dy).toNat ((cx : Int) + dx).toNat ≠ '#' then
        { acc with
          visited := acc.visited ++
            [(((cx : Int) + dx).toNat, ((cy : Int) + dy).toNat)]
          dists := aupd acc.dists
            (((cx : Int) + dx).toNat, ((cy : Int) + dy).toNat) (d + 1)
          queue := acc.queue ++
            [(((cx : Int) + dx).toNat, ((cy : Int) + dy).toNat)] }
      else acc) := rfl
  by_cases hc : 0 ≤ (cx : Int) + dx ∧ (cx : Int) + dx < (w : Int) ∧
      0 ≤ (cy : Int) + dy ∧ (cy : Int) + dy < (h : Int) ∧
      (((cx : Int) + dx).toNat, ((cy : Int) + dy).toNat) ∉ acc.visited ∧
      getCell g ((cy : Int) + dy).toNat ((cx : Int) + dx).toNat ≠ '#'
  · rw [if_pos hc] at hfv
    obtain ⟨hb1, hb2, hb3, hb4, hnv, hwall⟩ := hc
    have htpass : isPassage g
        ((((cy : Int) + dy).toNat, ((cx : Int) + dx).toNat) : Cell) := by
      refine ⟨?_, ?_, hwall⟩
      · show (((cy : Int) + dy).toNat) < gridRows g
        rw [hrows]; omega
      · show (((cx : Int) + dx).toNat) < gridCols g
        rw [hcols]; omega
    have htadj : adjCoord (cy, cx)
        ((((cy : Int) + dy).toNat, ((cx : Int) + dx).toNat) : Cell) := by
      simp only [farDirs, List.mem_cons, Prod.mk.injEq, List.not_mem_nil,
        or_false] at hdir
      rcases hdir with ⟨h1, h2⟩ | ⟨h1, h2⟩ | ⟨h1, h2⟩ | ⟨h1, h2⟩ <;>
        subst h1 <;> subst h2 <;>
        simp only [adjCoord, Prod.fst, Prod.snd, true_and, and_true,
          true_or, or_true] <;> omega
    refine ⟨news ++ [(((cx : Int) + dx).toNat, ((cy : Int) + dy).toNat)],
      ⟨?_, ?_, ?_, ?_, ?_, ?_, ?_, ?_⟩, ?_, ?_⟩
    · rw [hfv]
      show acc.queue ++ _ = _
      rw [hqu, List.append_assoc]
    · rw [hfv]
      show acc.visited ++ _ = _
      rw [hv, List.append_assoc]
    · rw [hfv]; exact hpp
    · rw [hfv]; exact hf
    · rw [hfv]; exact hm
    · rw [hfv]
      show (acc.visited ++ _).Nodup
      rw [List.nodup_append]
      refine ⟨hnd, List.nodup_singleton _, ?_⟩
      intro a ha hat
      rw [List.mem_singleton] at hat
      subst hat
      exact hnv ha
    · intro q
      rw [hfv]
      show alookup (aupd acc.dists _ _) q = _
      by_cases hqt : q =
          ((((cx : Int) + dx).toNat, ((cy : Int) + dy).toNat) : Nat × Nat)
      · subst hqt
        rw [alookup_aupd_self]
        rw [if_pos (by simp)]
      · rw [alookup_aupd_ne _ _ _ _ (fun hcon => hqt hcon), hdists q]
        by_cases hqn : q ∈ news
        · rw [if_pos hqn, if_pos (by simp [hqn])]
        · rw [if_neg hqn, if_neg (by simp [hqn, hqt])]
    · intro n hn
      rcases List.mem_append.mp hn with hn | hn
      · exact hnews n hn
      · rw [List.mem_singleton] at hn
        subst hn
        refine ⟨htpass, htadj, ?_⟩
        intro hcon
        exact hnv (hv ▸ List.mem_append_left _ hcon)
    · intro n hn
      exact List.mem_append_left _ hn
    · intro n hpn he1 he2
      obtain ⟨n1, n2⟩ := n
      have ht1 : (((cx : Int) + dx).toNat) = n1 := by omega
      have ht2 : (((cy : Int) + dy).toNat) = n2 := by
        have hn2 : ((n1, n2) : Nat × Nat).2 = n2 := rfl
        omega
      rw [hfv]
      show (n1, n2) ∈ acc.visited ++ _
      refine List.mem_append_right _ ?_
      rw [List.mem_singleton, Prod.mk.injEq]
      exact ⟨ht1.symm, ht2.symm⟩
  · rw [if_neg hc] at hfv
    refine ⟨news, by rw [hfv]; exact ⟨hqu, hv, hpp, hf, hm, hnd, hdists, hnews⟩,
      fun n hn => hn, ?_⟩
    intro n hpn he1 he2
    obtain ⟨n1, n2⟩ := n
    have he1' : (cx : Int) + dx = (n1 : Int) := he1
    have he2' : (cy : Int) + dy = (n2 : Int) := he2
    have hpn' : isPassage g ((n2, n1) : Cell) := hpn
    obtain ⟨hpr, hpc, hpw⟩ := hpn'
    have hpr' : n2 < h := by rw [hrows] at hpr; exact hpr
    have hpc' : n1 < w := by rw [hcols] at hpc; exact hpc
    have ht1 : (((cx : Int) + dx).toNat) = n1 := by omega
    have ht2 : (((cy : Int) + dy).toNat) = n2 := by omega
    rw [hfv]
    by_contra hnv
    refine hc ⟨by omega, by omega, by omega, by omega, ?_, ?_⟩
    · rw [ht1, ht2]
      exact fun hcon => hnv hcon
    · rw [ht1, ht2]
      exact hpw

/-- One BFS iteration preserves the loop invariant, trades one queue entry
for the newly visited cells, and only happens on a nonempty queue. -/
theorem farStep_inv {g : Grid} {w h : Nat} {s0 : Nat × Nat} {st st1 : FarState}
    (hrows : gridRows g = h) (hcols : gridCols g = w)
    (inv : FarInv g s0 st)
    (hstep : farStep g w h st = some st1) :
    FarInv g s0 st1 ∧
    st1.queue.length + st.visited.length + 1 =
      st.queue.length + st1.visited.length ∧
    (∀ q ∈ st.visited, q ∈ st1.visited) ∧ st.queue ≠ [] := by
  cases hqe : st.queue with
  | nil =>
      unfold farStep at hstep
      rw [hqe] at hstep
      simp at hstep
  | cons head rest =>
      obtain ⟨cx, cy⟩ := head
      have hheadq : ((cx, cy) : Nat × Nat) ∈ st.queue := by
        rw [hqe]; exact List.mem_cons_self _ _
      have hheadv : ((cx, cy) : Nat × Nat) ∈ st.visited := inv.queue_sub _ hheadq
      have hsome : (alookup st.dists (cx, cy)).isSome := (inv.dom _).mpr hheadv
      cases halo : alookup st.dists (cx, cy) with
      | none => rw [halo] at hsome; simp at hsome
      | some dv =>
      rw [farStep_eq g w h st hqe, halo] at hstep
      simp only [Option.getD_some] at hstep
      have hst1 := (Option.some.inj hstep).symm
      simp only [farDirs, List.foldl_cons, List.foldl_nil] at hst1
      have hheadpass : isPassage g ((cy, cx) : Cell) := inv.vis_pass _ hheadv
      have hheadreach : (mazeGraph g).Reachable (xyCell s0) ((cy, cx) : Cell) :=
        inv.vis_reach _ hheadv
      have hdhead : (mazeGraph g).dist (xyCell s0) ((cy, cx) : Cell) = dv :=
        inv.dists_exact _ _ halo
      have hP0 : FarFold g st rest cx cy dv []
          { st with
            queue := rest
            farthest := if st.maxd < dv then (cx, cy) else st.farthest
            maxd := if st.maxd < dv then dv else st.maxd
            pops := st.pops ++ [((cx, cy), dv)] } := by
        refine ⟨(List.append_nil rest).symm, (List.append_nil st.visited).symm,
          rfl, rfl, rfl, inv.nodup, ?_, ?_⟩
        · intro q
          rw [if_neg (List.not_mem_nil q)]
        · intro n hn
          exact absurd hn (List.not_mem_nil n)
      obtain ⟨na, hPa, hma, hcova⟩ := farVisit_step hrows hcols hP0
        (show ((1 : Int), (0 : Int)) ∈ farDirs by decide)
      obtain ⟨nb, hPb, hmb, hcovb⟩ := farVisit_step hrows hcols hPa
        (show ((-1 : Int), (0 : Int)) ∈ farDirs by decide)
      obtain ⟨nc, hPc, hmc, hcovc⟩ := farVisit_step hrows hcols hPb
        (show ((0 : Int), (1 : Int)) ∈ farDirs by decide)
      obtain ⟨nd, hPd, hmd, hcovd⟩ := farVisit_step hrows hcols hPc
        (show ((0 : Int), (-1 : Int)) ∈ farDirs by decide)
      rw [← hst1] at hPd
      obtain ⟨hq4, hv4, hpp4, hf4, hmx4, hnd4, hdists4, hnews4⟩ := hPd
      obtain ⟨-, hva, -, -, -, -, -, -⟩ := hPa
      obtain ⟨-, hvb, -, -, -, -, -, -⟩ := hPb
      obtain ⟨-, hvc, -, -, -, -, -, -⟩ := hPc
      have hsubn : ∀ x, (x ∈ na → x ∈ nd) ∧ (x ∈ nb → x ∈ nd) ∧
          (x ∈ nc → x ∈ nd) := by
        intro x
        exact ⟨fun hx => hmd _ (hmc _ (hmb _ hx)),
          fun hx => hmd _ (hmc _ hx), fun hx => hmd _ hx⟩
      have hvsub : ∀ q ∈ st.visited, q ∈ st1.visited := by
        intro q hqv
        rw [hv4]
        exact List.mem_append_left _ hqv
      have hcova' : ∀ n : Nat × Nat, isPassage g (xyCell n) →
          (cx : Int) + 1 = (n.1 : Int) → (cy : Int) + 0 = (n.2 : Int) →
          n ∈ st1.visited := by
        intro n hp h1 h2
        have := hcova n hp h1 h2
        rw [hva] at this
        rw [hv4]
        rcases List.mem_append.mp this with hx | hx
        · exact List.mem_append_left _ hx
        · exact List.mem_append_right _ ((hsubn n).1 hx)
      have hcovb' : ∀ n : Nat × Nat, isPassage g (xyCell n) →
          (cx : Int) + (-1) = (n.1 : Int) → (cy : Int) + 0 = (n.2 : Int) →
          n ∈ st1.visited := by
        intro n hp h1 h2
        have := hcovb n hp h1 h2
        rw [hvb] at this
        rw [hv4]
        rcases List.mem_append.mp this with hx | hx
        · exact List.mem_append_left _ hx
        · exact List.mem_append_right _ ((hsubn n).2.1 hx)
      have hcovc' : ∀ n : Nat × Nat, isPassage g (xyCell n) →
          (cx : Int) + 0 = (n.1 : Int) → (cy : Int) + 1 = (n.2 : Int) →
          n ∈ st1.visited := by
        intro n hp h1 h2
        have := hcovc n hp h1 h2
        rw [hvc] at this
        rw [hv4]
        rcases List.mem_append.mp this with hx | hx
        · exact List.mem_append_left _ hx
        · exact List.mem_append_right _ ((hsubn n).2.2 hx)
      have hcovd' : ∀ n : Nat × Nat, isPassage g (xyCell n) →
          (cx : Int) + 0 = (n.1 : Int) → (cy : Int) + (-1) = (n.2 : Int) →
          n ∈ st1.visited := by
        intro n hp h1 h2
        have := hcovd n hp h1 h2
        rw [← hst1] at this
        exact this
      have hDnews : ∀ n ∈ nd, (mazeGraph g).Reachable (xyCell s0) (xyCell n) ∧
          (mazeGraph g).dist (xyCell s0) (xyCell n) = dv + 1 := by
        intro n hn
        obtain ⟨hpass, hadjc, hnvis⟩ := hnews4 n hn
        have hadjG : (mazeGraph g).Adj ((cy, cx) : Cell) (xyCell n) :=
          ⟨hheadpass, hpass, hadjc⟩
        have hreach : (mazeGraph g).Reachable (xyCell s0) (xyCell n) :=
          hheadreach.trans hadjG.reachable
        refine ⟨hreach, ?_⟩
        have hle := dist_adj_le hadjG hheadreach
        rw [hdhead] at hle
        have hge : ¬ ((mazeGraph g).dist (xyCell s0) (xyCell n) ≤ dv) := by
          intro hcon
          refine hnvis (farInv_visits inv hpass hreach ?_)
          intro q0 rest' hq0
          rw [hqe] at hq0
          injection hq0 with hh ht
          subst hh
          show _ ≤ (mazeGraph g).dist (xyCell s0) ((cy, cx) : Cell)
          rw [hdhead]
          exact hcon
        omega
      have hminq : ∀ a ∈ st.queue,
          dv ≤ (mazeGraph g).dist (xyCell s0) (xyCell a) := by
        intro a ha
        have hm := pairwise_map_head_le
          (fun q => (mazeGraph g).dist (xyCell s0) (xyCell q))
          (hqe ▸ inv.sorted) a (hqe ▸ ha)
        have h2 : (mazeGraph g).dist (xyCell s0) ((cy, cx) : Cell) ≤
            (mazeGraph g).dist (xyCell s0) (xyCell a) := hm
        rw [hdhead] at h2
        exact h2
      have hbandq : ∀ a ∈ st.queue,
          (mazeGraph g).dist (xyCell s0) (xyCell a) ≤ dv + 1 := by
        intro a ha
        have hb := inv.band a ha (cx, cy) hheadq
        have h2 : (mazeGraph g).dist (xyCell s0) (xyCell a) ≤
            (mazeGraph g).dist (xyCell s0) ((cy, cx) : Cell) + 1 := hb
        rw [hdhead] at h2
        exact h2
      refine ⟨⟨?_, ?_, ?_, ?_, ?_, ?_, ?_, ?_, ?_, ?_, ?_, ?_, ?_⟩, ?_, hvsub, ?_⟩
      · exact hnd4
      · exact hvsub _ inv.start_mem
      · intro q hq
        rw [hv4] at hq
        rcases List.mem_append.mp hq with hx | hx
        · exact inv.vis_pass _ hx
        · exact (hnews4 q hx).1
      · intro q hq
        rw [hv4] at hq
        rcases List.mem_append.mp hq with hx | hx
        · exact inv.vis_reach _ hx
        · exact (hDnews q hx).1
      · intro q
        rw [hdists4 q, hv4]
        by_cases hqn : q ∈ nd
        · rw [if_pos hqn]
          simp [hqn]
        · rw [if_neg hqn]
          rw [List.mem_append]
          constructor
          · intro hs
            exact Or.inl ((inv.dom q).mp hs)
          · intro hs
            rcases hs with hs | hs
            · exact (inv.dom q).mpr hs
            · exact absurd hs hqn
      · intro q dq hq
        rw [hdists4 q] at hq
        by_cases hqn : q ∈ nd
        · rw [if_pos hqn] at hq
          have := (hDnews q hqn).2
          rw [this]
          exact Option.some.inj hq
        · rw [if_neg hqn] at hq
          exact inv.dists_exact q dq hq
      · intro q hq
        rw [hq4] at hq
        rw [hv4]
        rcases List.mem_append.mp hq with hx | hx
        · exact List.mem_append_left _
            (inv.queue_sub _ (by rw [hqe]; exact List.mem_cons_of_mem _ hx))
        · exact List.mem_append_right _ hx
      · rw [hq4, List.map_append, List.pairwise_append]
        refine ⟨?_, ?_, ?_⟩
        · have hs := inv.sorted
          rw [hqe, List.map_cons] at hs
          exact (List.pairwise_cons.mp hs).2
        · exact pairwise_const_le _ (dv + 1) nd
            (fun n hn => (hDnews n hn).2)
        · intro a ha b hb
          obtain ⟨qa, hqa, rfl⟩ := List.mem_map.mp ha
          obtain ⟨qb, hqb, rfl⟩ := List.mem_map.mp hb
          have h1 := hbandq qa (by rw [hqe]; exact List.mem_cons_of_mem _ hqa)
          have h2 := (hDnews qb hqb).2
          show (mazeGraph g).dist (xyCell s0) (xyCell qa) ≤
            (mazeGraph g).dist (xyCell s0) (xyCell qb)
          omega
      · intro a ha b hb
        rw [hq4] at ha hb
        have hna : (mazeGraph g).dist (xyCell s0) (xyCell a) ≤ dv + 1 := by
          rcases List.mem_append.mp ha with hx | hx
          · exact hbandq a (by rw [hqe]; exact List.mem_cons_of_mem _ hx)
          · exact le_of_eq (hDnews a hx).2
        have hnb : dv ≤ (mazeGraph g).dist (xyCell s0) (xyCell b) := by
          rcases List.mem_append.mp hb with hx | hx
          · exact hminq b (by rw [hqe]; exact List.mem_cons_of_mem _ hx)
          · rw [(hDnews b hx).2]; omega
        omega
      · intro q hq
        rw [hv4] at hq
        rcases List.mem_append.mp hq with hx | hx
        · rcases inv.front q hx with hque | hcov
          · rw [hqe] at hque
            rcases List.mem_cons.mp hque with rfl | hque
            · right
              intro n hpn hadjn
              obtain ⟨n1, n2⟩ := n
              have hxyn : xyCell ((n1, n2) : Nat × Nat) = ((n2, n1) : Cell) := rfl
              rw [hxyn] at hadjn hpn
              have hadjn' : adjCoord ((cy, cx) : Cell) ((n2, n1) : Cell) := hadjn
              simp only [adjCoord, Prod.fst, Prod.snd] at hadjn'
              rcases hadjn' with ⟨he, hor | hor⟩ | ⟨he, hor | hor⟩
              · exact hcova' (n1, n2) hpn (by omega) (by omega)
              · exact hcovb' (n1, n2) hpn (by omega) (by omega)
              · exact hcovc' (n1, n2) hpn (by omega) (by omega)
              · exact hcovd' (n1, n2) hpn (by omega) (by omega)
            · left
              rw [hq4]
              exact List.mem_append_left _ hque
          · right
            intro n hpn hadjn
            exact hvsub _ (hcov n hpn hadjn)
        · left
          rw [hq4]
          exact List.mem_append_right _ hx
      · by_cases hlt : st.maxd < dv
        · have hfval : st1.farthest = (cx, cy) := by rw [hf4, if_pos hlt]
          have hmval : st1.maxd = dv := by rw [hmx4, if_pos hlt]
          rw [hpp4, List.foldl_append, ← inv.record, hfval, hmval]
          simp only [List.foldl_cons, List.foldl_nil]
          rw [if_pos (show (st.farthest, st.maxd).2 < ((cx, cy), dv).2 from hlt)]
        · have hfval : st1.farthest = st.farthest := by rw [hf4, if_neg hlt]
          have hmval : st1.maxd = st.maxd := by rw [hmx4, if_neg hlt]
          rw [hpp4, List.foldl_append, ← inv.record, hfval, hmval]
          simp only [List.foldl_cons, List.foldl_nil]
          rw [if_neg
            (show ¬ (st.farthest, st.maxd).2 < ((cx, cy), dv).2 from hlt)]
      · intro pd hpd
        rw [hpp4] at hpd
        rcases List.mem_append.mp hpd with hx | hx
        · obtain ⟨he, hm⟩ := inv.pops_exact pd hx
          exact ⟨he, hvsub _ hm⟩
        · rw [List.mem_singleton] at hx
          subst hx
          exact ⟨hdhead, hvsub _ hheadv⟩
      · intro q hq
        rw [hv4] at hq
        rcases List.mem_append.mp hq with hx | hx
        · rcases inv.popped_or_queued q hx with hpo | hque
          · left
            rw [hpp4, List.map_append]
            exact List.mem_append_left _ hpo
          · rw [hqe] at hque
            rcases List.mem_cons.mp hque with rfl | hque
            · left
              rw [hpp4, List.map_append]
              refine List.mem_append_right _ ?_
              simp
            · right
              rw [hq4]
              exact List.mem_append_left _ hque
        · right
          rw [hq4]
          exact List.mem_append_right _ hx
      · simp only [hq4, hv4, List.length_append, List.length_cons]
        omega
      · exact List.cons_ne_nil _ _

/-- The visited list never exceeds the cell count. -/
theorem farInv_vis_le {g : Grid} {w h : Nat} {s0 : Nat × Nat} {st : FarState}
    (hrows : gridRows g = h) (hcols : gridCols g = w) (inv : FarInv g s0 st) :
    st.visited.length ≤ w * h := by
  have hnd : (st.visited.map xyCell).Nodup :=
    inv.nodup.map (fun a b hab => xyCell_inj hab)
  have hsub : (st.visited.map xyCell).toFinset ⊆ gridCells g := by
    intro c hc
    rw [List.mem_toFinset] at hc
    obtain ⟨q, hq, rfl⟩ := List.mem_map.mp hc
    have hp := inv.vis_pass q hq
    rw [mem_gridCells]
    exact ⟨hp.1, hp.2.1⟩
  calc st.visited.length = (st.visited.map xyCell).length :=
        (List.length_map _ _).symm
    _ = (st.visited.map xyCell).toFinset.card :=
        (List.toFinset_card_of_nodup hnd).symm
    _ ≤ (gridCells g).card := Finset.card_le_card hsub
    _ = gridRows g * gridCols g := gridCells_card g
    _ = w * h := by rw [hrows, hcols, Nat.mul_comm]

/-- `farStep` yields `none` exactly on the empty queue. -/
theorem farStep_none {g : Grid} {w h : Nat} {st : FarState}
    (hstep : farStep g w h st = none) : st.queue = [] := by
  cases hqe : st.queue with
  | nil => rfl
  | cons head rest =>
      obtain ⟨cx, cy⟩ := head
      rw [farStep_eq g w h st hqe] at hstep
      simp at hstep

/-- The BFS loop terminates within the measure and preserves the
invariant; the final queue is empty. -/
theorem farLoop_run {g : Grid} {w h : Nat} (hrows : gridRows g = h)
    (hcols : gridCols g = w) :
    ∀ (fuel : Nat) (st : FarState) (s0 : Nat × Nat), FarInv g s0 st →
    farMeasure w h st ≤ fuel →
    ∃ fs, farLoop g w h fuel st = .ok fs ∧ FarInv g s0 fs ∧ fs.queue = [] ∧
      (∀ q ∈ st.visited, q ∈ fs.visited) := by
  intro fuel
  induction fuel with
  | zero =>
      intro st s0 inv hm
      unfold farMeasure at hm
      have hq : st.queue = [] := List.length_eq_zero.mp (by omega)
      refine ⟨st, ?_, inv, hq, fun q hq => hq⟩
      show (if st.queue.isEmpty then Except.ok st else
        Except.error "farthest loop fuel") = Except.ok st
      rw [hq]
      rfl
  | succ fuel ih =>
      intro st s0 inv hm
      cases hstep : farStep g w h st with
      | none =>
          refine ⟨st, ?_, inv, farStep_none hstep, fun q hq => hq⟩
          show (match farStep g w h st with
            | none => Except.ok st
            | some s => farLoop g w h fuel s) = Except.ok st
          rw [hstep]
      | some st' =>
          obtain ⟨inv', hmeq, hsub, hne⟩ := farStep_inv hrows hcols inv hstep
          have hvle : st'.visited.length ≤ w * h :=
            farInv_vis_le hrows hcols inv'
          have hqpos : 1 ≤ st.queue.length := by
            cases hql : st.queue with
            | nil => exact absurd hql hne
            | cons a t => simp
          have hm' : farMeasure w h st' ≤ fuel := by
            unfold farMeasure at hm ⊢
            omega
          obtain ⟨fs, hloop, hinv, hqe, hmono⟩ := ih st' s0 inv' hm'
          refine ⟨fs, ?_, hinv, hqe, fun q hq => hmono _ (hsub _ hq)⟩
          show (match farStep g w h st with
            | none => Except.ok st
            | some s => farLoop g w h fuel s) = Except.ok fs
          rw [hstep]
          exact hloop

/-- The full `_find_farthest_cell` run from a passage start cell
terminates, with the BFS invariant and a drained queue. -/
theorem farRun_ok {g : Grid} {w h : Nat} (hrows : gridRows g = h)
    (hcols : gridCols g = w) (hs : isPassage g ((1, 1) : Cell)) :
    ∃ fs, farRun g w h 1 1 = .ok fs ∧ FarInv g (1, 1) fs ∧ fs.queue = [] := by
  have hinit : FarInv g (1, 1) (farInit 1 1) := by
    refine ⟨?_, ?_, ?_, ?_, ?_, ?_, ?_, ?_, ?_, ?_, ?_, ?_, ?_⟩
    · simp [farInit]
    · simp [farInit]
    · intro q hq
      rw [show (farInit 1 1).visited = [(1, 1)] from rfl,
        List.mem_singleton] at hq
      subst hq
      exact hs
    · intro q hq
      rw [show (farInit 1 1).visited = [(1, 1)] from rfl,
        List.mem_singleton] at hq
      subst hq
      exact SimpleGraph.Reachable.refl _
    · intro q
      show (alookup [((1, 1), 0)] q).isSome ↔ q ∈ [((1 : Nat), (1 : Nat))]
      by_cases hq : ((1, 1) : Nat × Nat) = q
      · rw [show alookup [((1, 1), 0)] q = some 0 from by
            unfold alookup; rw [if_pos hq]]
        simp [hq.symm]
      · rw [show alookup [((1, 1), 0)] q = none from by
            unfold alookup; rw [if_neg hq]; rfl]
        simp only [Option.isSome_none, List.mem_singleton]
        constructor
        · intro hc; exact absurd hc (by simp)
        · intro hc; exact absurd hc.symm hq
    · intro q d hq
      have hq' : alookup [(((1 : Nat), (1 : Nat)), (0 : Nat))] q = some d := hq
      by_cases hq1 : ((1, 1) : Nat × Nat) = q
      · rw [show alookup [((1, 1), 0)] q = some 0 from by
            unfold alookup; rw [if_pos hq1]] at hq'
        have hd : d = 0 := (Option.some.inj hq').symm
        subst hd
        rw [← hq1]
        exact SimpleGraph.dist_self
      · rw [show alookup [((1, 1), 0)] q = none from by
            unfold alookup; rw [if_neg hq1]; rfl] at hq'
        exact absurd hq' (by simp)
    · intro q hq
      exact hq
    · simp [farInit]
    · intro a ha b hb
      rw [show (farInit 1 1).queue = [(1, 1)] from rfl,
        List.mem_singleton] at ha hb
      subst ha
      subst hb
      omega
    · intro q hq
      left
      rw [show (farInit 1 1).visited = [(1, 1)] from rfl,
        List.mem_singleton] at hq
      subst hq
      simp [farInit]
    · rfl
    · intro pd hpd
      exact absurd hpd (List.not_mem_nil pd)
    · intro q hq
      right
      rw [show (farInit 1 1).visited = [(1, 1)] from rfl,
        List.mem_singleton] at hq
      subst hq
      simp [farInit]
  have hm : farMeasure w h (farInit 1 1) ≤ w * h + 1 := by
    unfold farMeasure farInit
    simp
    omega
  obtain ⟨fs, hloop, hinv, hq, -⟩ :=
    farLoop_run hrows hcols (w * h + 1) (farInit 1 1) (1, 1) hinit hm
  exact ⟨fs, hloop, hinv, hq⟩

/-- The record fold (`if d > max_dist` update) returns its initial value or
a list entry, and dominates the initial value and every entry. -/
theorem record_fold_spec {α : Type} :
    ∀ (l : List (α × Nat)) (init : α × Nat),
      (l.foldl (fun acc pd => if acc.2 < pd.2 then pd else acc) init = init ∨
        l.foldl (fun acc pd => if acc.2 < pd.2 then pd else acc) init ∈ l) ∧
      init.2 ≤ (l.foldl (fun acc pd => if acc.2 < pd.2 then pd else acc) init).2 ∧
      (∀ pd ∈ l,
        pd.2 ≤ (l.foldl (fun acc pd => if acc.2 < pd.2 then pd else acc) init).2) := by
  intro l
  induction l with
  | nil =>
      intro init
      simp
  | cons a t ih =>
      intro init
      simp only [List.foldl_cons]
      by_cases hlt : init.2 < a.2
      · rw [if_pos hlt]
        obtain ⟨hor, hinit, hall⟩ := ih a
        refine ⟨?_, by omega, ?_⟩
        · rcases hor with hh | hh
          · exact Or.inr (by rw [hh]; exact List.mem_cons_self _ _)
          · exact Or.inr (List.mem_cons_of_mem _ hh)
        · intro pd hpd
          rcases List.mem_cons.mp hpd with rfl | hpd
          · exact hinit
          · exact hall pd hpd
      · rw [if_neg hlt]
        obtain ⟨hor, hinit, hall⟩ := ih init
        refine ⟨?_, hinit, ?_⟩
        · rcases hor with hh | hh
          · exact Or.inl hh
          · exact Or.inr (List.mem_cons_of_mem _ hh)
        · intro pd hpd
          rcases List.mem_cons.mp hpd with rfl | hpd
          · omega
          · exact hall pd hpd

/-- What the drained BFS state of `_find_farthest_cell` guarantees: every
reachable passage cell was dequeued with its exact distance recorded,
`farthest` attains the maximum distance `maxd` over all reachable cells,
and `farthest` is exactly the last record-exceeding dequeue. -/
theorem farRun_final {g : Grid} {s0 : Nat × Nat} {fs : FarState}
    (inv : FarInv g s0 fs) (hq : fs.queue = []) :
    (∀ p : Nat × Nat, isPassage g (xyCell p) →
      (mazeGraph g).Reachable (xyCell s0) (xyCell p) →
      p ∈ fs.pops.map Prod.fst) ∧
    (mazeGraph g).dist (xyCell s0) (xyCell fs.farthest) = fs.maxd ∧
    (∀ p : Nat × Nat, isPassage g (xyCell p) →
      (mazeGraph g).Reachable (xyCell s0) (xyCell p) →
      (mazeGraph g).dist (xyCell s0) (xyCell p) ≤ fs.maxd) ∧
    fs.farthest = lastRecordHolder s0 fs.pops := by
  have hvisit : ∀ p : Nat × Nat, isPassage g (xyCell p) →
      (mazeGraph g).Reachable (xyCell s0) (xyCell p) → p ∈ fs.visited := by
    intro p hp hr
    refine farInv_visits inv hp hr ?_
    intro q0 rest hqe
    rw [hq] at hqe
    exact absurd hqe (by simp)
  have hpop : ∀ p : Nat × Nat, isPassage g (xyCell p) →
      (mazeGraph g).Reachable (xyCell s0) (xyCell p) →
      p ∈ fs.pops.map Prod.fst := by
    intro p hp hr
    rcases inv.popped_or_queued p (hvisit p hp hr) with hh | hh
    · exact hh
    · rw [hq] at hh
      exact absurd hh (by simp)
  obtain ⟨hor, -, hall⟩ := record_fold_spec fs.pops (s0, 0)
  have hrec := inv.record
  refine ⟨hpop, ?_, ?_, ?_⟩
  · rcases hor with hh | hh
    · rw [← hrec] at hh
      have hf : fs.farthest = s0 := congrArg Prod.fst hh
      have hm : fs.maxd = 0 := congrArg Prod.snd hh
      rw [hf, hm]
      exact SimpleGraph.dist_self
    · rw [← hrec] at hh
      exact (inv.pops_exact _ hh).1
  · intro p hp hr
    obtain ⟨pd, hpd, hfst⟩ := List.mem_map.mp (hpop p hp hr)
    obtain ⟨he, -⟩ := inv.pops_exact pd hpd
    have := hall pd hpd
    rw [← hrec] at this
    rw [← hfst] at hp hr ⊢
    omega
  · have : fs.farthest = (fs.pops.foldl
        (fun acc pd => if acc.2 < pd.2 then pd else acc) (s0, 0)).1 :=
      congrArg Prod.fst hrec
    exact this

/-! ### Branching (`_add_branches`) -/

/-- A blank read is always in bounds (out-of-range reads default to
`'#'`). -/
theorem getCell_blank_bounds {g : Grid} (hrect : Rect g) {r c : Nat}
    (hb : getCell g r c = ' ') : r < gridRows g ∧ c < gridCols g := by
  have hr : r < gridRows g := by
    by_contra hcon
    have : g.getD r [] = [] := by
      rw [List.getD_eq_getElem?_getD, List.getElem?_eq_none]
      · rfl
      · unfold gridRows at hcon; omega
    unfold getCell at hb
    rw [this] at hb
    simp [List.getD] at hb
  refine ⟨hr, ?_⟩
  by_contra hcon
  unfold getCell at hb
  rw [List.getD_eq_getElem?_getD (g.getD r []), List.getElem?_eq_none] at hb
  · simp at hb
  · rw [hrect r hr]; omega

/-- The body of `_add_branches` for one interior cell preserves the grid
invariant and only grows the passages. -/
theorem branchCell_ginv {w h : Nat} {g : Grid} {br : Nat → Bool} {r c : Nat}
    (hg : GInv w h g) (hr : r < h) (hc : c < w) :
    GInv w h (branchCell g br r c).1 ∧ PassGrow g (branchCell g br r c).1 := by
  obtain ⟨hrows, hcols, hrect, hchars, hconn⟩ := hg
  unfold branchCell
  by_cases hwall : getCell g r c = '#'
  swap
  · rw [if_neg hwall]
    exact ⟨⟨hrows, hcols, hrect, hchars, hconn⟩, passGrow_refl g⟩
  rw [if_pos hwall]
  by_cases hnb : getCell g (r - 1) c = ' ' ∨ getCell g (r + 1) c = ' ' ∨
      getCell g r (c - 1) = ' ' ∨ getCell g r (c + 1) = ' '
  swap
  · rw [if_neg hnb]
    exact ⟨⟨hrows, hcols, hrect, hchars, hconn⟩, passGrow_refl g⟩
  rw [if_pos hnb]
  cases hbr : br 0 with
  | false =>
      simp only [Bool.false_eq_true, if_false]
      exact ⟨⟨hrows, hcols, hrect, hchars, hconn⟩, passGrow_refl g⟩
  | true =>
      simp only [if_true]
      have hq : ∃ q : Cell, isPassage g q ∧ adjCoord q (r, c) := by
        rcases hnb with hb | hb | hb | hb
        · have hne : r ≠ 0 := by
            intro hr0
            subst hr0
            rw [show (0 : Nat) - 1 = 0 from rfl] at hb
            rw [hb] at hwall
            exact absurd hwall (by decide)
          obtain ⟨hb1, hb2⟩ := getCell_blank_bounds hrect hb
          refine ⟨(r - 1, c), ⟨hb1, hb2, by rw [hb]; decide⟩, ?_⟩
          exact Or.inr ⟨rfl, Or.inl (by omega)⟩
        · obtain ⟨hb1, hb2⟩ := getCell_blank_bounds hrect hb
          refine ⟨(r + 1, c), ⟨hb1, hb2, by rw [hb]; decide⟩, ?_⟩
          exact Or.inr ⟨rfl, Or.inr (by omega)⟩
        · have hne : c ≠ 0 := by
            intro hc0
            subst hc0
            rw [show (0 : Nat) - 1 = 0 from rfl] at hb
            rw [hb] at hwall
            exact absurd hwall (by decide)
          obtain ⟨hb1, hb2⟩ := getCell_blank_bounds hrect hb
          refine ⟨(r, c - 1), ⟨hb1, hb2, by rw [hb]; decide⟩, ?_⟩
          exact Or.inl ⟨rfl, Or.inl (by omega)⟩
        · obtain ⟨hb1, hb2⟩ := getCell_blank_bounds hrect hb
          refine ⟨(r, c + 1), ⟨hb1, hb2, by rw [hb]; decide⟩, ?_⟩
          exact Or.inl ⟨rfl, Or.inr (by omega)⟩
      obtain ⟨q, hqpass, hqadj⟩ := hq
      refine ⟨⟨?_, ?_, rect_setCell hrect _ _ _, charsOk_setBlank hchars _ _,
        conn_setBlank hconn hqpass hqadj⟩, passGrow_setBlank g r c⟩
      · show gridRows (setCell g r c ' ') = h
        rw [gridRows_setCell]; exact hrows
      · show gridCols (setCell g r c ' ') = w
        rw [gridCols_setCell]; exact hcols

/-- `_add_branches` preserves the grid invariant and only grows the
passages. -/
theorem addBranches_ginv {w h : Nat} {g : Grid} {br : Nat → Bool}
    (hg : GInv w h g) :
    GInv w h (addBranches g br w h).1 ∧ PassGrow g (addBranches g br w h).1 := by
  unfold addBranches
  refine foldl_preserve_mem
    (fun acc => GInv w h acc.1 ∧ PassGrow g acc.1) _ _ ?_ (g, br)
    ⟨hg, passGrow_refl g⟩
  intro acc r hrmem ⟨hacc, hgrow⟩
  obtain ⟨x, hx, rfl⟩ := List.mem_map.mp hrmem
  rw [List.mem_range] at hx
  refine foldl_preserve_mem
    (fun acc2 => GInv w h acc2.1 ∧ PassGrow g acc2.1) _ _ ?_ acc ⟨hacc, hgrow⟩
  intro acc2 c hcmem ⟨hacc2, hgrow2⟩
  obtain ⟨y, hy, rfl⟩ := List.mem_map.mp hcmem
  rw [List.mem_range] at hy
  obtain ⟨hg', hgrow'⟩ := @branchCell_ginv w h acc2.1 acc2.2 (x + 1) (y + 1)
    hacc2 (by omega) (by omega)
  exact ⟨hg', passGrow_trans hgrow2 hgrow'⟩

/-! ### The generator pipeline -/

/-- A successful checked write is an in-bounds plain write. -/
theorem setCellE_ok_elim {g : Grid} {r c : Nat} {ch : Char} {g' : Grid}
    (h : setCellE g r c ch = .ok g') :
    r < gridRows g ∧ c < (g.getD r []).length ∧ g' = setCell g r c ch := by
  unfold setCellE at h
  split at h
  · exact absurd h (by simp)
  · rename_i row heq
    obtain ⟨hr, hget⟩ := List.get?_eq_some.mp heq
    have hrow : g.getD r [] = row := by
      rw [getD_eq_getElem _ _ _ hr]
      exact hget
    split at h
    · rename_i hlt
      refine ⟨hr, by rw [hrow]; exact hlt, ?_⟩
      rw [← Except.ok.inj h]
      unfold setCell
      rw [hrow]
    · exact absurd h (by simp)

/-- The freshly allocated all-wall grid. -/
theorem replicate_grid_facts (w h : Nat) (hh : 1 ≤ h) :
    gridRows (List.replicate h (List.replicate w '#')) = h ∧
    gridCols (List.replicate h (List.replicate w '#')) = w ∧
    Rect (List.replicate h (List.replicate w '#')) ∧
    ∀ r c, getCell (List.replicate h (List.replicate w '#')) r c = '#' := by
  have hrows : gridRows (List.replicate h (List.replicate w '#')) = h := by
    simp [gridRows]
  have hcols : gridCols (List.replicate h (List.replicate w '#')) = w := by
    cases h with
    | zero => omega
    | succ n =>
        rw [List.replicate_succ]
        simp [gridCols]
  have hcell : ∀ r c,
      getCell (List.replicate h (List.replicate w '#')) r c = '#' := by
    intro r c
    unfold getCell
    by_cases hr : r < h
    · rw [getD_eq_getElem (List.replicate h (List.replicate w '#')) [] r
        (by simpa using hr), List.getElem_replicate]
      by_cases hc : c < w
      · rw [getD_eq_getElem (List.replicate w '#') '#' c
          (by simpa using hc), List.getElem_replicate]
      · rw [List.getD_eq_getElem?_getD,
          List.getElem?_eq_none (by simpa using hc)]
        rfl
    · rw [List.getD_eq_getElem?_getD (List.replicate h (List.replicate w '#')),
        List.getElem?_eq_none (by simpa using hr)]
      rfl
  refine ⟨hrows, hcols, ?_, hcell⟩
  intro r hr
  rw [hrows] at hr
  rw [getD_eq_getElem _ _ _ (by simpa using hr), List.getElem_replicate,
    hcols]
  simp

/-- Grids with the same dimensions and passage cells have the same maze
graph. -/
theorem mazeGraph_congr {g g' : Grid}
    (hiff : ∀ p : Cell, isPassage g p ↔ isPassage g' p) :
    mazeGraph g = mazeGraph g' := by
  refine SimpleGraph.ext ?_
  funext a b
  apply propext
  constructor
  · rintro ⟨h1, h2, h3⟩
    exact ⟨(hiff a).mp h1, (hiff b).mp h2, h3⟩
  · rintro ⟨h1, h2, h3⟩
    exact ⟨(hiff a).mpr h1, (hiff b).mpr h2, h3⟩

/-- Marking `S` and `G` over passage cells does not change which cells are
passages. -/
theorem mark_passage_iff {w h : Nat} {g3 : Grid} {tgt : Cell}
    (hg : GInv w h g3) (hs : isPassage g3 ((1, 1) : Cell))
    (hgoal : isPassage g3 tgt) :
    ∀ p : Cell,
      isPassage (setCell (setCell g3 1 1 'S') tgt.1 tgt.2 'G') p ↔
      isPassage g3 p := by
  obtain ⟨hrows, hcols, hrect, hchars, hconn⟩ := hg
  intro p
  have hrows5 : gridRows (setCell (setCell g3 1 1 'S') tgt.1 tgt.2 'G') =
      gridRows g3 := by
    rw [gridRows_setCell, gridRows_setCell]
  have hcols5 : gridCols (setCell (setCell g3 1 1 'S') tgt.1 tgt.2 'G') =
      gridCols g3 := by
    rw [gridCols_setCell, gridCols_setCell]
  have hrect4 : Rect (setCell g3 1 1 'S') := rect_setCell hrect _ _ _
  have hrows4 : gridRows (setCell g3 1 1 'S') = gridRows g3 :=
    gridRows_setCell _ _ _ _
  have hcols4 : gridCols (setCell g3 1 1 'S') = gridCols g3 :=
    gridCols_setCell _ _ _ _
  have hchar : getCell (setCell (setCell g3 1 1 'S') tgt.1 tgt.2 'G') p.1 p.2
      ≠ '#' ↔ getCell g3 p.1 p.2 ≠ '#' := by
    by_cases hpt : (p.1, p.2) = (tgt.1, tgt.2)
    · have h1 : getCell (setCell (setCell g3 1 1 'S') tgt.1 tgt.2 'G')
          p.1 p.2 = 'G' := by
        have hb1 : tgt.1 < gridRows (setCell g3 1 1 'S') := by
          rw [hrows4]; exact hgoal.1
        have hb2 : tgt.2 < ((setCell g3 1 1 'S').getD tgt.1 []).length := by
          rw [hrect4 tgt.1 hb1, hcols4]
          exact hgoal.2.1
        have := getCell_setCell_self 'G' hb1 hb2
        have hp1 : p.1 = tgt.1 := congrArg Prod.fst hpt
        have hp2 : p.2 = tgt.2 := congrArg Prod.snd hpt
        rw [hp1, hp2]
        exact this
      have h2 : getCell g3 p.1 p.2 ≠ '#' := by
        have hp1 : p.1 = tgt.1 := congrArg Prod.fst hpt
        have hp2 : p.2 = tgt.2 := congrArg Prod.snd hpt
        rw [hp1, hp2]
        exact hgoal.2.2
      rw [h1]
      simp [h2]
    · have h1 : getCell (setCell (setCell g3 1 1 'S') tgt.1 tgt.2 'G')
          p.1 p.2 = getCell (setCell g3 1 1 'S') p.1 p.2 :=
        getCell_setCell_ne 'G' hpt
      by_cases hps : (p.1, p.2) = ((1 : Nat), (1 : Nat))
      · have hp1 : p.1 = 1 := congrArg Prod.fst hps
        have hp2 : p.2 = 1 := congrArg Prod.snd hps
        have hb1 : (1 : Nat) < gridRows g3 := hs.1
        have hb2 : (1 : Nat) < (g3.getD 1 []).length := by
          rw [hrect 1 hb1, hcols]
          have := hs.2.1
          rw [hcols] at this
          exact this
        have h3 : getCell (setCell g3 1 1 'S') p.1 p.2 = 'S' := by
          rw [hp1, hp2]
          exact getCell_setCell_self 'S' hb1 hb2
        have h4 : getCell g3 p.1 p.2 ≠ '#' := by
          rw [hp1, hp2]
          exact hs.2.2
        rw [h1, h3]
        simp [h4]
      · have h3 : getCell (setCell g3 1 1 'S') p.1 p.2 = getCell g3 p.1 p.2 :=
          getCell_setCell_ne 'S' hps
        rw [h1, h3]
  constructor
  · intro hp
    refine ⟨by rw [← hrows5]; exact hp.1, by rw [← hcols5]; exact hp.2.1, ?_⟩
    exact hchar.mp hp.2.2
  · intro hp
    refine ⟨by rw [hrows5]; exact hp.1, by rw [hcols5]; exact hp.2.1, ?_⟩
    exact hchar.mpr hp.2.2

/-- The shuffle is a permutation: everything in the input list appears in
the shuffled list. -/
theorem permuteByAux_perm {α : Type} [DecidableEq α] :
    ∀ (f k : Nat) (l : List α), l.length = f →
      List.Perm (permuteByAux f k l) l := by
  intro f
  induction f with
  | zero =>
      intro k l hl
      rw [List.length_eq_zero] at hl
      subst hl
      simp [permuteByAux]
  | succ f ih =>
      intro k l hl
      cases l with
      | nil => simp at hl
      | cons x t =>
          simp only [permuteByAux]
          have hi : k % (t.length + 1) < (x :: t).length := by
            have := Nat.mod_lt k (show 0 < t.length + 1 by omega)
            simpa using this
          rw [getD_eq_getElem _ _ _ hi]
          have hperm1 : List.Perm (x :: t)
              ((x :: t)[k % (t.length + 1)] ::
                ((x :: t).erase ((x :: t)[k % (t.length + 1)]))) :=
            List.perm_cons_erase (List.getElem_mem hi)
          have hperm2 := List.erase_getElem hi
          have hlen : ((x :: t).eraseIdx (k % (t.length + 1))).length = f := by
            have := List.length_eraseIdx_add_one hi
            simp only [List.length_cons] at this hl
            omega
          exact ((ih (k / (t.length + 1)) _ hlen).cons _).trans
            (((hperm2.symm).cons _).trans hperm1.symm)

theorem permuteBy_perm {α : Type} [DecidableEq α] (k : Nat) (l : List α) :
    List.Perm (permuteBy k l) l :=
  permuteByAux_perm l.length k l rfl

theorem permuteBy_mem_rev {α : Type} [DecidableEq α] {k : Nat} {l : List α}
    {x : α} (hx : x ∈ l) : x ∈ permuteBy k l :=
  (permuteBy_perm k l).mem_iff.mpr hx

/-- Everything a successful `generate` run guarantees, with the
intermediate grids and the final BFS state exposed. -/
theorem generate_spec {width height : Nat} {rng : Nat → Nat} {br : Nat → Bool}
    {m : Maze} (hok : generate width height rng br = .ok m) :
    ∃ (g1 g2 g3 : Grid) (rng2 : Nat → Nat) (fs : FarState),
      3 ≤ (mazeGenInit width height).width ∧
      3 ≤ (mazeGenInit width height).height ∧
      g1 = setCell (mazeGenInit width height).grid 1 1 ' ' ∧
      carveFrom (5 * ((mazeGenInit width height).width *
          (mazeGenInit width height).height + 2)) g1 rng 1 1
        (mazeGenInit width height).width (mazeGenInit width height).height =
        .ok (g2, rng2) ∧
      GInv (mazeGenInit width height).width
        (mazeGenInit width height).height g1 ∧
      isPassage g1 ((1, 1) : Cell) ∧
      g3 = (addBranches g2 br (mazeGenInit width height).width
        (mazeGenInit width height).height).1 ∧
      genGrid width height rng br = .ok g3 ∧
      GInv (mazeGenInit width height).width
        (mazeGenInit width height).height g3 ∧
      isPassage g3 ((1, 1) : Cell) ∧ PassGrow g2 g3 ∧
      farRun g3 (mazeGenInit width height).width
        (mazeGenInit width height).height 1 1 = .ok fs ∧
      FarInv g3 (1, 1) fs ∧ fs.queue = [] ∧
      m.start = (1, 1) ∧ m.goal = xyCell fs.farthest ∧
      isPassage g3 (xyCell fs.farthest) ∧
      m.grid = setCell (setCell g3 1 1 'S') fs.farthest.2 fs.farthest.1 'G' ∧
      (∀ p : Cell, isPassage m.grid p ↔ isPassage g3 p) ∧
      mazeGraph m.grid = mazeGraph g3 := by
  unfold generate generateFrom at hok
  split at hok
  · exact absurd hok (by simp)
  rename_i g1 heq1
  split at hok
  · exact absurd hok (by simp)
  rename_i p2 g2 rng2 heq2
  simp only [] at hok
  split at hok
  · exact absurd hok (by simp)
  rename_i fs heq3
  split at hok
  · exact absurd hok (by simp)
  rename_i g4 heq4
  split at hok
  · exact absurd hok (by simp)
  rename_i g5 heq5
  have hw : (mazeGenInit width height).width % 2 = 1 := by
    unfold mazeGenInit
    dsimp only
    split <;> omega
  have hh : (mazeGenInit width height).height % 2 = 1 := by
    unfold mazeGenInit
    dsimp only
    split <;> omega
  obtain ⟨hr1, hc1, hg1⟩ := setCellE_ok_elim heq1
  have hgrid0 : (mazeGenInit width height).grid =
      List.replicate (mazeGenInit width height).height
        (List.replicate (mazeGenInit width height).width '#') := rfl
  have hrows0 : gridRows (mazeGenInit width height).grid =
      (mazeGenInit width height).height := by
    rw [hgrid0]
    simp [gridRows]
  have hh3 : 3 ≤ (mazeGenInit width height).height := by
    have h2 := hr1
    rw [hrows0] at h2
    omega
  obtain ⟨-, hcols0, hrect0, hcell0⟩ :=
    replicate_grid_facts (mazeGenInit width height).width
      (mazeGenInit width height).height (by omega)
  have hrow1len : ((mazeGenInit width height).grid.getD 1 []).length =
      (mazeGenInit width height).width := by
    have hr1' : 1 < (List.replicate (mazeGenInit width height).height
        (List.replicate (mazeGenInit width height).width '#')).length := by
      rw [← hgrid0]
      exact hr1
    rw [hgrid0, getD_eq_getElem _ _ _ hr1', List.getElem_replicate]
    simp
  have hw3 : 3 ≤ (mazeGenInit width height).width := by
    have h2 := hc1
    rw [hrow1len] at h2
    omega
  have hg1rows : gridRows g1 = (mazeGenInit width height).height := by
    rw [hg1, gridRows_setCell, hrows0]
  have hg1cols : gridCols g1 = (mazeGenInit width height).width := by
    rw [hg1, gridCols_setCell, hgrid0]
    exact hcols0
  have hg1pass : isPassage g1 ((1, 1) : Cell) := by
    refine ⟨by rw [hg1rows]; omega, by rw [hg1cols]; omega, ?_⟩
    show getCell g1 1 1 ≠ '#'
    rw [hg1, getCell_setCell_self ' ' hr1 hc1]
    decide
  have hrect0' : Rect (mazeGenInit width height).grid := by
    rw [hgrid0]
    exact hrect0
  have hrect1 : Rect g1 := by
    rw [hg1]
    exact rect_setCell hrect0' _ _ _
  have hg1inv : GInv (mazeGenInit width height).width
      (mazeGenInit width height).height g1 := by
    refine ⟨hg1rows, hg1cols, hrect1, ?_, ?_⟩
    · rw [hg1]
      exact charsOk_setBlank (fun r c => Or.inl (hcell0 r c)) _ _
    · intro p hp
      have hpe : p = ((1, 1) : Cell) := by
        by_cases hne : ((p.1, p.2) : Cell) = ((1, 1) : Cell)
        · calc p = (p.1, p.2) := rfl
            _ = (1, 1) := hne
        · exfalso
          have := hp.2.2
          rw [hg1] at this
          rw [getCell_setCell_ne ' ' hne] at this
          exact this (hcell0 p.1 p.2)
      rw [hpe]
  obtain ⟨hg2inv, hg2grow⟩ := carveList_ginv _ _ _ _ _ _ _ _ _ _ heq2
    (fun d hd => permuteBy_mem hd) hg1inv hg1pass
  obtain ⟨hg3inv, hg3grow⟩ := @addBranches_ginv _ _ _ br hg2inv
  have hg3pass : isPassage ((addBranches g2 br
      (mazeGenInit width height).width
      (mazeGenInit width height).height).1) ((1, 1) : Cell) :=
    hg3grow.2.2 _ (hg2grow.2.2 _ hg1pass)
  obtain ⟨fs', hfs', hinv', hqe'⟩ := farRun_ok hg3inv.1 hg3inv.2.1 hg3pass
  rw [hfs'] at heq3
  have hfseq : fs' = fs := Except.ok.inj heq3
  subst hfseq
  obtain ⟨hr4, hc4, hg4⟩ := setCellE_ok_elim heq4
  obtain ⟨hr5, hc5, hg5⟩ := setCellE_ok_elim heq5
  have hm := (Except.ok.inj hok).symm
  subst hm
  have hfarpass : isPassage ((addBranches g2 br
      (mazeGenInit width height).width
      (mazeGenInit width height).height).1) (xyCell fs'.farthest) := by
    obtain ⟨hor, -, -⟩ := record_fold_spec fs'.pops (((1, 1) : Nat × Nat), 0)
    rw [← hinv'.record] at hor
    rcases hor with hor | hor
    · have : fs'.farthest = ((1, 1) : Nat × Nat) := congrArg Prod.fst hor
      rw [this]
      exact hg3pass
    · exact hinv'.vis_pass _ (hinv'.pops_exact _ hor).2
  have hgrideq : g5 = setCell (setCell ((addBranches g2 br
      (mazeGenInit width height).width
      (mazeGenInit width height).height).1) 1 1 'S')
      fs'.farthest.2 fs'.farthest.1 'G' := by
    rw [hg5, hg4]
  have hiff := mark_passage_iff hg3inv hg3pass hfarpass
  refine ⟨g1, g2, _, rng2, fs', hw3, hh3, hg1, heq2, hg1inv, hg1pass, rfl,
    ?_, hg3inv, hg3pass, hg3grow, hfs', hinv', hqe', rfl, rfl, hfarpass,
    hgrideq, ?_, ?_⟩
  · unfold genGrid
    simp only [heq1, heq2]
  · intro p
    rw [hgrideq]
    exact hiff p
  · rw [hgrideq]
    exact mazeGraph_congr hiff

/-- C5: in every maze returned by `generate`, every passage cell (any cell
that is not `'#'`) is reachable from the start cell via 4-directional
movement through passage cells only — branching never creates an isolated
passage island. -/
theorem claim_C5_generated_connected {width height : Nat} {rng : Nat → Nat}
    {br : Nat → Bool} {m : Maze}
    (hok : generate width height rng br = .ok m) :
    ∀ p : Cell, isPassage m.grid p →
      (mazeGraph m.grid).Reachable m.start p := by
  obtain ⟨g1, g2, g3, rng2, fs, -, -, -, -, -, -, -, -, hg3inv, -, -, -, -,
    -, hstart, -, -, -, hiff, hgraph⟩ := generate_spec hok
  intro p hp
  rw [hstart, hgraph]
  exact hg3inv.2.2.2.2 p ((hiff p).mp hp)

/-- C7: the goal of a generated maze is a farthest reachable cell from the
start `(1,1)`: writing `fs` for the final state of the
`_find_farthest_cell` BFS on the post-branching grid, the goal cell is
`fs.farthest`, its graph distance from the start equals the maximum BFS
distance `fs.maxd` attained by any reachable passage cell, and
`fs.farthest` is exactly the last dequeued cell whose distance exceeded
the previous maximum. -/
theorem claim_C7_goal_is_farthest {width height : Nat} {rng : Nat → Nat}
    {br : Nat → Bool} {m : Maze}
    (hok : generate width height rng br = .ok m) :
    ∃ (g3 : Grid) (fs : FarState),
      genGrid width height rng br = .ok g3 ∧
      farRun g3 (mazeGenInit width height).width
        (mazeGenInit width height).height 1 1 = .ok fs ∧
      m.goal = xyCell fs.farthest ∧
      (mazeGraph m.grid).dist m.start m.goal = fs.maxd ∧
      (∀ p : Cell, isPassage m.grid p →
        (mazeGraph m.grid).Reachable m.start p →
        (mazeGraph m.grid).dist m.start p ≤ fs.maxd) ∧
      fs.farthest = lastRecordHolder (1, 1) fs.pops := by
  obtain ⟨g1, g2, g3, rng2, fs, -, -, -, -, -, -, -, hgen, hg3inv, hg3pass,
    -, hfs, hinv, hqe, hstart, hgoal, hfarpass, -, hiff, hgraph⟩ :=
    generate_spec hok
  obtain ⟨hpop, hdistfar, hmax, htie⟩ := farRun_final hinv hqe
  refine ⟨g3, fs, hgen, hfs, hgoal, ?_, ?_, htie⟩
  · rw [hstart, hgoal, hgraph]
    exact hdistfar
  · intro p hp hr
    rw [hstart, hgraph] at hr ⊢
    have hp3 : isPassage g3 p := (hiff p).mp hp
    exact hmax (p.2, p.1) hp3 hr

theorem claim_C5_generated_connected_witness :
    generate 5 5 rngZero brNever = Except.ok mazeGen5 ∧
    isPassage mazeGen5.grid (3, 3) ∧
    (mazeGraph mazeGen5.grid).Reachable mazeGen5.start (3, 3) := by
  have hgen : generate 5 5 rngZero brNever = Except.ok mazeGen5 := by rfl
  exact ⟨hgen, by decide,
    claim_C5_generated_connected hgen (3, 3) (by decide)⟩

theorem claim_C7_goal_is_farthest_witness :
    ∃ (g3 : Grid) (fs : FarState),
      genGrid 5 5 rngZero brNever = .ok g3 ∧
      farRun g3 (mazeGenInit 5 5).width (mazeGenInit 5 5).height 1 1 =
        .ok fs ∧
      mazeGen5.goal = xyCell fs.farthest ∧
      (mazeGraph mazeGen5.grid).dist mazeGen5.start mazeGen5.goal =
        fs.maxd ∧
      (∀ p : Cell, isPassage mazeGen5.grid p →
        (mazeGraph mazeGen5.grid).Reachable mazeGen5.start p →
        (mazeGraph mazeGen5.grid).dist mazeGen5.start p ≤ fs.maxd) ∧
      fs.farthest = lastRecordHolder (1, 1) fs.pops := by
  have hgen : generate 5 5 rngZero brNever = Except.ok mazeGen5 := by rfl
  exact claim_C7_goal_is_farthest hgen

/-! ### Character counting (for the `S`/`G` uniqueness claim) -/

theorem count_set_row (l : List Char) (n : Nat) (a b : Char)
    (h : n < l.length) :
    (l.set n a).count b + (if l[n] = b then 1 else 0) =
      l.count b + (if a = b then 1 else 0) := by
  conv_lhs => rw [List.set_eq_take_append_cons_drop, if_pos h]
  conv_rhs => rw [show l = l.take n ++ l.drop n from
    (List.take_append_drop n l).symm]
  rw [List.drop_eq_getElem_cons h, List.count_append, List.count_append,
    List.count_cons, List.count_cons]
  simp only [beq_iff_eq]
  omega

theorem countChar_setCell :
    ∀ (g : Grid) (r c : Nat), r < g.length → c < (g.getD r []).length →
    ∀ a b : Char,
    countChar (setCell g r c a) b + (if getCell g r c = b then 1 else 0) =
      countChar g b + (if a = b then 1 else 0) := by
  intro g
  induction g with
  | nil =>
      intro r c hr
      simp at hr
  | cons row t ih =>
      intro r c hr hc a b
      cases r with
      | zero =>
          have hset : setCell (row :: t) 0 c a = (row.set c a) :: t := rfl
          have hcell : getCell (row :: t) 0 c = row.getD c '#' := rfl
          have hc' : c < row.length := hc
          rw [hset, hcell]
          unfold countChar
          simp only [List.map_cons, List.sum_cons]
          have hrow := count_set_row row c a b hc'
          rw [getD_eq_getElem _ _ _ hc']
          omega
      | succ r =>
          have hset : setCell (row :: t) (r + 1) c a =
              row :: setCell t r c a := rfl
          have hcell : getCell (row :: t) (r + 1) c = getCell t r c := rfl
          have hr' : r < t.length := by simpa using hr
          rw [hset, hcell]
          have hmain := ih r c hr' hc a b
          unfold countChar at hmain ⊢
          simp only [List.map_cons, List.sum_cons]
          omega

theorem countChar_zero {g : Grid} {ch : Char}
    (hch : ∀ r c, getCell g r c ≠ ch) : countChar g ch = 0 := by
  unfold countChar
  rw [List.sum_eq_zero]
  intro x hx
  obtain ⟨row, hrow, rfl⟩ := List.mem_map.mp hx
  rw [List.count_eq_zero]
  intro hmem
  obtain ⟨i, hi, hrowi⟩ := List.mem_iff_getElem.mp hmem
  obtain ⟨r, hr, hrowr⟩ := List.mem_iff_getElem.mp hrow
  refine hch r i ?_
  unfold getCell
  rw [getD_eq_getElem _ _ _ hr, hrowr, getD_eq_getElem _ _ _ hi, hrowi]

/-- Any direction of the processed list whose two-step target is strictly
inside the grid ends with that target a passage, whether or not this
particular call carved it. -/
theorem carveList_target :
    ∀ (fuel : Nat) (ds : List (Int × Int)) (g : Grid) (rng : Nat → Nat)
      (cx cy w h : Nat) (g' : Grid) (rng' : Nat → Nat),
    carveList fuel ds g rng cx cy w h = Except.ok (g', rng') →
    (∀ d ∈ ds, d ∈ carveDirs) →
    GInv w h g → isPassage g (cy, cx) →
    ∀ dx dy : Int, (dx, dy) ∈ ds →
    0 < (cx : Int) + dx → (cx : Int) + dx < (w : Int) →
    0 < (cy : Int) + dy → (cy : Int) + dy < (h : Int) →
    isPassage g' ((((cy : Int) + dy).toNat, ((cx : Int) + dx).toNat) : Cell) := by
  intro fuel
  induction fuel with
  | zero =>
      intro ds g rng cx cy w h g' rng' hok
      simp [carveList] at hok
  | succ fuel ih =>
      intro ds g rng cx cy w h g' rng' hok hds hg hcur dx dy hmem hb1 hb2 hb3 hb4
      cases ds with
      | nil => exact absurd hmem (List.not_mem_nil _)
      | cons d ds =>
          obtain ⟨dx', dy'⟩ := d
          rw [carveList_cons] at hok
          by_cases hcond : 0 < (cx : Int) + dx' ∧ (cx : Int) + dx' < (w : Int) ∧
              0 < (cy : Int) + dy' ∧ (cy : Int) + dy' < (h : Int) ∧
              getCell g ((cy : Int) + dy').toNat ((cx : Int) + dx').toNat = '#'
          · rw [if_pos hcond] at hok
            have hc : cx < w ∧ cy < h := by
              obtain ⟨hr, hcc, -⟩ := hcur
              exact ⟨by rw [hg.2.1] at hcc; exact hcc,
                by rw [hg.1] at hr; exact hr⟩
            have hb : 0 < (cx : Int) + dx' ∧ (cx : Int) + dx' < (w : Int) ∧
                0 < (cy : Int) + dy' ∧ (cy : Int) + dy' < (h : Int) :=
              ⟨hcond.1, hcond.2.1, hcond.2.2.1, hcond.2.2.2.1⟩
            have hmem' : ((dx', dy') : Int × Int) ∈ carveDirs :=
              hds _ (List.mem_cons_self _ _)
            obtain ⟨hadj1, hadj2, hm1, hm2, ht1, ht2⟩ :=
              carveDir_cells hmem' hc hb
            obtain ⟨hg2, hgrow2, htpass⟩ :=
              @carve_write w h g _
                ((((cy : Int) + dy' / 2).toNat,
                  ((cx : Int) + dx' / 2).toNat))
                ((((cy : Int) + dy').toNat, ((cx : Int) + dx').toNat))
                hg hcur hadj1 hadj2 ⟨hm1, hm2⟩ ⟨ht1, ht2⟩
            rcases hrec : carveList fuel (permuteBy (rng 0) carveDirs)
                (setCell
                  (setCell g ((cy : Int) + dy' / 2).toNat
                    ((cx : Int) + dx' / 2).toNat ' ')
                  ((cy : Int) + dy').toNat ((cx : Int) + dx').toNat ' ')
                (advRng rng) ((cx : Int) + dx').toNat ((cy : Int) + dy').toNat
                w h with e | p
            · rw [hrec] at hok
              exact absurd hok (by simp)
            · obtain ⟨g3, rng3⟩ := p
              rw [hrec] at hok
              have hok2 : carveList fuel ds g3 rng3 cx cy w h =
                  Except.ok (g', rng') := hok
              obtain ⟨hg3, hgrow3⟩ := carveList_ginv _ _ _ _ _ _ _ _ _ _ hrec
                (fun d hd => permuteBy_mem hd) hg2 htpass
              have hcur3 : isPassage g3 (cy, cx) :=
                hgrow3.2.2 _ (hgrow2.2.2 _ hcur)
              obtain ⟨hg', hgrow'⟩ := carveList_ginv _ _ _ _ _ _ _ _ _ _ hok2
                (fun d hd => hds _ (List.mem_cons_of_mem _ hd)) hg3 hcur3
              rcases List.mem_cons.mp hmem with hh | hh
              · have hdx : dx = dx' := by
                  have := congrArg Prod.fst hh
                  simpa using this
                have hdy : dy = dy' := by
                  have := congrArg Prod.snd hh
                  simpa using this
                subst hdx
                subst hdy
                exact hgrow'.2.2 _ (hgrow3.2.2 _ htpass)
              · exact ih _ _ _ _ _ _ _ _ _ hok2
                  (fun d hd => hds _ (List.mem_cons_of_mem _ hd)) hg3 hcur3
                  dx dy hh hb1 hb2 hb3 hb4
          · rw [if_neg hcond] at hok
            rcases List.mem_cons.mp hmem with hh | hh
            · have hdx : dx = dx' := by
                have := congrArg Prod.fst hh
                simpa using this
              have hdy : dy = dy' := by
                have := congrArg Prod.snd hh
                simpa using this
              subst hdx
              subst hdy
              have hnw : getCell g ((cy : Int) + dy).toNat
                  ((cx : Int) + dx).toNat ≠ '#' := by
                intro hcc
                exact hcond ⟨hb1, hb2, hb3, hb4, hcc⟩
              have hpass : isPassage g
                  ((((cy : Int) + dy).toNat, ((cx : Int) + dx).toNat) : Cell) := by
                refine ⟨?_, ?_, hnw⟩
                · show ((cy : Int) + dy).toNat < gridRows g
                  rw [hg.1]; omega
                · show ((cx : Int) + dx).toNat < gridCols g
                  rw [hg.2.1]; omega
              obtain ⟨-, hgrow'⟩ := carveList_ginv _ _ _ _ _ _ _ _ _ _ hok
                (fun d hd => hds _ (List.mem_cons_of_mem _ hd)) hg hcur
              exact hgrow'.2.2 _ hpass
            · exact ih _ _ _ _ _ _ _ _ _ hok
                (fun d hd => hds _ (List.mem_cons_of_mem _ hd)) hg hcur
                dx dy hh hb1 hb2 hb3 hb4

/-- C3 (amended): for every maze returned by `generate` whose normalized
dimensions are at least 3×3 with at least one dimension at least 5 (i.e.
excluding only the degenerate 3×3 interior, where `G` overwrites `S`), the
grid contains exactly one `'S'` and exactly one `'G'`, and the start cell
differs from the goal cell. -/
theorem claim_C3_unique_start_goal {width height : Nat} {rng : Nat → Nat}
    {br : Nat → Bool} {m : Maze}
    (hok : generate width height rng br = .ok m)
    (hdim : 5 ≤ (mazeGenInit width height).width ∨
      5 ≤ (mazeGenInit width height).height) :
    countChar m.grid 'S' = 1 ∧ countChar m.grid 'G' = 1 ∧
    m.start ≠ m.goal := by
  obtain ⟨g1, g2, g3, rng2, fs, hw3, hh3, hg1, hcarve, hg1inv, hg1pass,
    hg3def, hgen, hg3inv, hg3pass, hg23grow, hfs, hinv, hqe, hstart, hgoal,
    hfarpass, hgrid, hiff, hgraph⟩ := generate_spec hok
  have htarget : ∃ t : Cell, isPassage g3 t ∧ t ≠ ((1, 1) : Cell) := by
    have hcarve' : carveList
        (5 * ((mazeGenInit width height).width *
          (mazeGenInit width height).height + 2))
        (permuteBy (rng 0) carveDirs) g1 (advRng rng) 1 1
        (mazeGenInit width height).width (mazeGenInit width height).height =
        Except.ok (g2, rng2) := hcarve
    rcases hdim with hw5 | hh5
    · have hmem : ((2 : Int), (0 : Int)) ∈ permuteBy (rng 0) carveDirs :=
        permuteBy_mem_rev (by decide)
      have ht := carveList_target _ _ _ _ _ _ _ _ _ _ hcarve'
        (fun d hd => permuteBy_mem hd) hg1inv hg1pass 2 0 hmem
        (by omega) (by omega) (by omega) (by omega)
      have hconv : (((((1 : Nat) : Int) + 0).toNat,
          (((1 : Nat) : Int) + 2).toNat) : Cell) = ((1, 3) : Cell) := by
        decide
      rw [hconv] at ht
      exact ⟨(1, 3), hg23grow.2.2 _ ht, by decide⟩
    · have hmem : ((0 : Int), (2 : Int)) ∈ permuteBy (rng 0) carveDirs :=
        permuteBy_mem_rev (by decide)
      have ht := carveList_target _ _ _ _ _ _ _ _ _ _ hcarve'
        (fun d hd => permuteBy_mem hd) hg1inv hg1pass 0 2 hmem
        (by omega) (by omega) (by omega) (by omega)
      have hconv : (((((1 : Nat) : Int) + 2).toNat,
          (((1 : Nat) : Int) + 0).toNat) : Cell) = ((3, 1) : Cell) := by
        decide
      rw [hconv] at ht
      exact ⟨(3, 1), hg23grow.2.2 _ ht, by decide⟩
  obtain ⟨hpop, hdistfar, hmax, htie⟩ := farRun_final hinv hqe
  obtain ⟨t, htpass, htne⟩ := htarget
  have htreach : (mazeGraph g3).Reachable ((1, 1) : Cell) t :=
    hg3inv.2.2.2.2 t htpass
  have htp' : isPassage g3 (xyCell ((t.2, t.1) : Nat × Nat)) := htpass
  have htr' : (mazeGraph g3).Reachable (xyCell ((1, 1) : Nat × Nat))
      (xyCell ((t.2, t.1) : Nat × Nat)) := htreach
  have hmaxt := hmax (t.2, t.1) htp' htr'
  have hdpos : 0 < (mazeGraph g3).dist (xyCell ((1, 1) : Nat × Nat))
      (xyCell ((t.2, t.1) : Nat × Nat)) := by
    refine SimpleGraph.Reachable.pos_dist_of_ne htr' ?_
    intro hcon
    exact htne (by
      have : ((1, 1) : Cell) = t := hcon
      exact this.symm)
  have hmaxpos : 1 ≤ fs.maxd := by omega
  have hfarne : fs.farthest ≠ ((1, 1) : Nat × Nat) := by
    intro hcon
    rw [hcon] at hdistfar
    rw [show (mazeGraph g3).dist (xyCell ((1, 1) : Nat × Nat))
      (xyCell ((1, 1) : Nat × Nat)) = 0 from SimpleGraph.dist_self] at hdistfar
    omega
  have hgoalne : (xyCell fs.farthest : Cell) ≠ ((1, 1) : Cell) := by
    intro hcon
    exact hfarne (xyCell_inj (a := fs.farthest) (b := (1, 1)) hcon)
  have hne : m.start ≠ m.goal := by
    rw [hstart, hgoal]
    intro hcon
    exact hgoalne hcon.symm
  obtain ⟨hrows3, hcols3, hrect3, hchars3, hconn3⟩ := hg3inv
  have hSg3 : countChar g3 'S' = 0 := by
    refine countChar_zero ?_
    intro r c
    rcases hchars3 r c with hh | hh <;> rw [hh] <;> decide
  have hGg3 : countChar g3 'G' = 0 := by
    refine countChar_zero ?_
    intro r c
    rcases hchars3 r c with hh | hh <;> rw [hh] <;> decide
  have hb1r : (1 : Nat) < g3.length := hg3pass.1
  have hb1c : (1 : Nat) < (g3.getD 1 []).length := by
    rw [hrect3 1 hg3pass.1]
    exact hg3pass.2.1
  have hcell11 : getCell g3 1 1 = ' ' := by
    rcases hchars3 1 1 with hh | hh
    · exact absurd hh hg3pass.2.2
    · exact hh
  have hgyr : fs.farthest.2 < (setCell g3 1 1 'S').length := by
    have := hfarpass.1
    show fs.farthest.2 < gridRows (setCell g3 1 1 'S')
    rw [gridRows_setCell]
    exact this
  have hgyc : fs.farthest.1 <
      ((setCell g3 1 1 'S').getD fs.farthest.2 []).length := by
    have hrect4 : Rect (setCell g3 1 1 'S') := rect_setCell hrect3 _ _ _
    rw [hrect4 fs.farthest.2 hgyr, gridCols_setCell]
    exact hfarpass.2.1
  have hcellgy : getCell (setCell g3 1 1 'S') fs.farthest.2 fs.farthest.1 =
      ' ' := by
    have hnepair : ((fs.farthest.2, fs.farthest.1) : Cell) ≠
        ((1, 1) : Cell) := hgoalne
    rw [getCell_setCell_ne 'S' hnepair]
    rcases hchars3 fs.farthest.2 fs.farthest.1 with hh | hh
    · exact absurd hh hfarpass.2.2
    · exact hh
  have hS4 := countChar_setCell g3 1 1 hb1r hb1c 'S' 'S'
  have hG4 := countChar_setCell g3 1 1 hb1r hb1c 'S' 'G'
  have hS5 := countChar_setCell (setCell g3 1 1 'S') fs.farthest.2
    fs.farthest.1 hgyr hgyc 'G' 'S'
  have hG5 := countChar_setCell (setCell g3 1 1 'S') fs.farthest.2
    fs.farthest.1 hgyr hgyc 'G' 'G'
  rw [hcell11] at hS4 hG4
  rw [hcellgy] at hS5 hG5
  simp only [show (' ' = 'S') = False from by simp,
    show (' ' = 'G') = False from by simp,
    show ('S' = 'S') = True from by simp,
    show ('S' = 'G') = False from by simp,
    show ('G' = 'S') = False from by simp,
    show ('G' = 'G') = True from by simp,
    if_true, if_false] at hS4 hG4 hS5 hG5
  rw [hgrid]
  refine ⟨?_, ?_, hne⟩
  · omega
  · omega

theorem claim_C3_unique_start_goal_witness :
    countChar mazeGen5.grid 'S' = 1 ∧ countChar mazeGen5.grid 'G' = 1 ∧
    mazeGen5.start ≠ mazeGen5.goal := by
  have hgen : generate 5 5 rngZero brNever = Except.ok mazeGen5 := by rfl
  exact claim_C3_unique_start_goal hgen (by decide)

/-! ### Breadth-first search optimality -/

/-- `(row << 16) | col` is positional when the column fits 16 bits. -/
theorem nodeId_eq {r c : Nat} (hc : c < 65536) :
    nodeId r c = r * 65536 + c := by
  unfold nodeId
  have hc' : c < 2 ^ 16 := by
    have h16 : (2 : Nat) ^ 16 = 65536 := by norm_num
    omega
  have h := Nat.mul_add_lt_is_or hc' r
  rw [Nat.shiftLeft_eq]
  have h16 : (2 : Nat) ^ 16 = 65536 := by norm_num
  rw [show r * 2 ^ 16 ||| c = 2 ^ 16 * r ||| c from by rw [Nat.mul_comm],
    ← h, h16, Nat.mul_comm]

/-- Node ids are injective on cells whose column fits 16 bits. -/
theorem cellId_inj {p q : Cell} (hp : p.2 < 65536) (hq : q.2 < 65536)
    (h : cellId p = cellId q) : p = q := by
  unfold cellId at h
  rw [nodeId_eq hp, nodeId_eq hq] at h
  have h1 : p.1 = q.1 := by omega
  have h2 : p.2 = q.2 := by omega
  obtain ⟨a, b⟩ := p
  obtain ⟨x, y⟩ := q
  simp only [Prod.mk.injEq]
  exact ⟨h1, h2⟩

/-- Neighbours returned by `get_neighbors` are 4-adjacent to the centre. -/
theorem getNeighbors_adj {g : Grid} {r c : Nat} {n : Cell}
    (h : n ∈ getNeighbors g r c) : adjCoord (r, c) n := by
  unfold getNeighbors at h
  rw [List.mem_filterMap] at h
  obtain ⟨d, hd, hopt⟩ := h
  by_cases hcond : 0 ≤ (r : Int) + d.1 ∧ (r : Int) + d.1 < (gridRows g : Int) ∧
      0 ≤ (c : Int) + d.2 ∧ (c : Int) + d.2 < (gridCols g : Int) ∧
      getCell g ((r : Int) + d.1).toNat ((c : Int) + d.2).toNat ≠ '#'
  swap
  · rw [if_neg hcond] at hopt
    exact Option.noConfusion hopt
  rw [if_pos hcond] at hopt
  have hn := Option.some.inj hopt
  subst hn
  obtain ⟨h1, h2, h3, h4, -⟩ := hcond
  simp only [List.mem_cons, List.not_mem_nil, or_false] at hd
  rcases hd with rfl | rfl | rfl | rfl <;>
    simp only [adjCoord, Prod.fst, Prod.snd, true_and, and_true, true_or,
      or_true] at h1 h2 h3 h4 ⊢ <;> omega

/-- Every in-grid passage 4-neighbour of the centre is returned by
`get_neighbors`. -/
theorem getNeighbors_complete {g : Grid} {r c : Nat} {n : Cell}
    (hn : isPassage g n) (hadj : adjCoord (r, c) n) :
    n ∈ getNeighbors g r c := by
  obtain ⟨hnr, hnc, hnw⟩ := hn
  unfold getNeighbors
  rw [List.mem_filterMap]
  obtain ⟨n1, n2⟩ := n
  have hnr' : n1 < gridRows g := hnr
  have hnc' : n2 < gridCols g := hnc
  have hnw' : getCell g n1 n2 ≠ '#' := hnw
  rcases hadj with ⟨he, hor | hor⟩ | ⟨he, hor | hor⟩
  · have he' : r = n1 := he
    have hor' : c + 1 = n2 := hor
    refine ⟨(0, 1), by simp, ?_⟩
    have h1 : ((r : Int) + 0).toNat = n1 := by omega
    have h2 : ((c : Int) + 1).toNat = n2 := by omega
    have hcond : 0 ≤ (r : Int) + 0 ∧ (r : Int) + 0 < (gridRows g : Int) ∧
        0 ≤ (c : Int) + 1 ∧ (c : Int) + 1 < (gridCols g : Int) ∧
        getCell g ((r : Int) + 0).toNat ((c : Int) + 1).toNat ≠ '#' := by
      refine ⟨by omega, by omega, by omega, by omega, ?_⟩
      rw [h1, h2]
      exact hnw'
    show (if 0 ≤ (r : Int) + 0 ∧ (r : Int) + 0 < (gridRows g : Int) ∧
        0 ≤ (c : Int) + 1 ∧ (c : Int) + 1 < (gridCols g : Int) ∧
        getCell g ((r : Int) + 0).toNat ((c : Int) + 1).toNat ≠ '#' then
      some ((((r : Int) + 0).toNat, ((c : Int) + 1).toNat) : Cell)
      else none) = some ((n1, n2) : Cell)
    rw [if_pos hcond, Option.some.injEq, Prod.mk.injEq]
    exact ⟨h1, h2⟩
  · have he' : r = n1 := he
    have hor' : n2 + 1 = c := hor
    refine ⟨(0, -1), by simp, ?_⟩
    have h1 : ((r : Int) + 0).toNat = n1 := by omega
    have h2 : ((c : Int) + (-1)).toNat = n2 := by omega
    have hcond : 0 ≤ (r : Int) + 0 ∧ (r : Int) + 0 < (gridRows g : Int) ∧
        0 ≤ (c : Int) + (-1) ∧ (c : Int) + (-1) < (gridCols g : Int) ∧
        getCell g ((r : Int) + 0).toNat ((c : Int) + (-1)).toNat ≠ '#' := by
      refine ⟨by omega, by omega, by omega, by omega, ?_⟩
      rw [h1, h2]
      exact hnw'
    show (if 0 ≤ (r : Int) + 0 ∧ (r : Int) + 0 < (gridRows g : Int) ∧
        0 ≤ (c : Int) + (-1) ∧ (c : Int) + (-1) < (gridCols g : Int) ∧
        getCell g ((r : Int) + 0).toNat ((c : Int) + (-1)).toNat ≠ '#' then
      some ((((r : Int) + 0).toNat, ((c : Int) + (-1)).toNat) : Cell)
      else none) = some ((n1, n2) : Cell)
    rw [if_pos hcond, Option.some.injEq, Prod.mk.injEq]
    exact ⟨h1, h2⟩
  · have he' : c = n2 := he
    have hor' : r + 1 = n1 := hor
    refine ⟨(1, 0), by simp, ?_⟩
    have h1 : ((r : Int) + 1).toNat = n1 := by omega
    have h2 : ((c : Int) + 0).toNat = n2 := by omega
    have hcond : 0 ≤ (r : Int) + 1 ∧ (r : Int) + 1 < (gridRows g : Int) ∧
        0 ≤ (c : Int) + 0 ∧ (c : Int) + 0 < (gridCols g : Int) ∧
        getCell g ((r : Int) + 1).toNat ((c : Int) + 0).toNat ≠ '#' := by
      refine ⟨by omega, by omega, by omega, by omega, ?_⟩
      rw [h1, h2]
      exact hnw'
    show (if 0 ≤ (r : Int) + 1 ∧ (r : Int) + 1 < (gridRows g : Int) ∧
        0 ≤ (c : Int) + 0 ∧ (c : Int) + 0 < (gridCols g : Int) ∧
        getCell g ((r : Int) + 1).toNat ((c : Int) + 0).toNat ≠ '#' then
      some ((((r : Int) + 1).toNat, ((c : Int) + 0).toNat) : Cell)
      else none) = some ((n1, n2) : Cell)
    rw [if_pos hcond, Option.some.injEq, Prod.mk.injEq]
    exact ⟨h1, h2⟩
  · have he' : c = n2 := he
    have hor' : n1 + 1 = r := hor
    refine ⟨(-1, 0), by simp, ?_⟩
    have h1 : ((r : Int) + (-1)).toNat = n1 := by omega
    have h2 : ((c : Int) + 0).toNat = n2 := by omega
    have hcond : 0 ≤ (r : Int) + (-1) ∧ (r : Int) + (-1) < (gridRows g : Int) ∧
        0 ≤ (c : Int) + 0 ∧ (c : Int) + 0 < (gridCols g : Int) ∧
        getCell g ((r : Int) + (-1)).toNat ((c : Int) + 0).toNat ≠ '#' := by
      refine ⟨by omega, by omega, by omega, by omega, ?_⟩
      rw [h1, h2]
      exact hnw'
    show (if 0 ≤ (r : Int) + (-1) ∧ (r : Int) + (-1) < (gridRows g : Int) ∧
        0 ≤ (c : Int) + 0 ∧ (c : Int) + 0 < (gridCols g : Int) ∧
        getCell g ((r : Int) + (-1)).toNat ((c : Int) + 0).toNat ≠ '#' then
      some ((((r : Int) + (-1)).toNat, ((c : Int) + 0).toNat) : Cell)
      else none) = some ((n1, n2) : Cell)
    rw [if_pos hcond, Option.some.injEq, Prod.mk.injEq]
    exact ⟨h1, h2⟩

/-- After relaxing a cell, the cell is recorded. -/
theorem relaxOne_csf_some (s : Strategy) (goal : Cell) (curIdx : Nat)
    (st : SState) (cell : Cell) :
    (alookup (relaxOne s goal curIdx st cell).csf (cellId cell)).isSome =
      true := by
  cases hcs : alookup st.csf (cellId cell) with
  | none =>
      simp [relaxOne, hcs, alookup_aupd_self]
  | some old =>
      by_cases hlt : (alookup st.csf (objAt st curIdx).oid).getD 0 +
          costFunction s 1 < old
      · simp [relaxOne, hcs, hlt, alookup_aupd_self]
      · simp [relaxOne, hcs, hlt]

theorem foldl_each {α σ : Type} (f : σ → α → σ) (R : σ → α → Prop)
    (hstep : ∀ st a, R (f st a) a)
    (hmono : ∀ st a b, R st b → R (f st a) b) :
    ∀ (l : List α) (st : σ), ∀ a ∈ l, R (l.foldl f st) a := by
  intro l
  induction l with
  | nil =>
      intro st a ha
      exact absurd ha (List.not_mem_nil a)
  | cons x t ih =>
      intro st a ha
      rw [List.foldl_cons]
      rcases List.mem_cons.mp ha with rfl | ha
      · have h0 := hstep st a
        exact foldl_preserve (fun s => R s a) f (fun s b hb => hmono s b a hb)
          t (f st a) h0
      · exact ih (f st x) a ha

/-- BFS closure: any reachable passage cell no farther than the fringe
head is already recorded (vacuously, every reachable passage cell when the
fringe is empty). -/
theorem bfsInv_visits {g : Grid} {start : Cell} {st : SState}
    (inv : BfsInv g start st) (hfront : BfsFront g st)
    (hstart : isPassage g start)
    {p : Cell} (hp : isPassage g p)
    (hr : (mazeGraph g).Reachable start p)
    (hd : ∀ e rest, st.fringe = e :: rest →
      (mazeGraph g).dist start p ≤
        (mazeGraph g).dist start (idxCell st e.2.2)) :
    (alookup st.csf (cellId p)).isSome = true := by
  have H : ∀ k : Nat, ∀ p : Cell, isPassage g p →
      (mazeGraph g).Reachable start p →
      (mazeGraph g).dist start p = k →
      (∀ e rest, st.fringe = e :: rest →
        k ≤ (mazeGraph g).dist start (idxCell st e.2.2)) →
      (alookup st.csf (cellId p)).isSome = true := by
    intro k
    induction k using Nat.strong_induction_on with
    | _ k ih =>
      intro p hp hr hk hq
      cases k with
      | zero =>
          have hzz : start = p := hr.dist_eq_zero_iff.mp hk
          rw [← hzz, inv.start_rec]
          rfl
      | succ k =>
          obtain ⟨wlk, hw⟩ := hr.exists_walk_length_eq_dist
          rw [hk] at hw
          obtain ⟨u, hadj, tail, htl⟩ := walk_penultimate wlk hw
          have hupass : isPassage g u := hadj.2.1
          have hadjc : adjCoord p u := hadj.2.2
          have hureach : (mazeGraph g).Reachable start u := ⟨tail.reverse⟩
          have hdu : (mazeGraph g).dist start u ≤ k := by
            calc (mazeGraph g).dist start u ≤ tail.reverse.length :=
                SimpleGraph.dist_le _
              _ = k := by rw [SimpleGraph.Walk.length_reverse, htl]
          have humem : (alookup st.csf (cellId u)).isSome = true := by
            refine ih ((mazeGraph g).dist start u) (by omega) u hupass
              hureach rfl ?_
            intro e rest hqe
            have := hq e rest hqe
            omega
          rcases hfront u hupass humem with hque | hcov
          · obtain ⟨e, hemem, hecell⟩ := hque
            cases hqe : st.fringe with
            | nil => rw [hqe] at hemem; simp at hemem
            | cons e0 rest =>
                have hmin := pairwise_map_head_le
                  (fun e => (mazeGraph g).dist start (idxCell st e.2.2))
                  (hqe ▸ inv.sorted) e (hqe ▸ hemem)
                have hmin' : (mazeGraph g).dist start (idxCell st e0.2.2) ≤
                    (mazeGraph g).dist start (idxCell st e.2.2) := hmin
                have hqk := hq e0 rest hqe
                rw [hecell] at hmin'
                omega
          · exact hcov p hp (adjCoord_symm hadjc)
  exact H _ p hp hr rfl hd

/-- One neighbour relaxation of the BFS `extend` preserves the mid-fold
invariant. -/
theorem bfs_relax_step
    {g : Grid} {start goal : Cell} (hstart : isPassage g start)
    (hgoalp : isPassage g goal) (hg16 : gridCols g ≤ 65536)
    {st : SState} (inv : BfsInv g start st) (hfront : BfsFront g st)
    {e : Entry} {rest : List Entry} (hfr : st.fringe = e :: rest)
    {acc : SState}
    (hP : BfsFold g start goal e.2.2
      ((mazeGraph g).dist start (idxCell st e.2.2)) rest
      { st with fringe := rest } acc)
    {n : Cell} (hnp : isPassage g n)
    (hna : adjCoord (idxCell st e.2.2) n) :
    BfsFold g start goal e.2.2 ((mazeGraph g).dist start (idxCell st e.2.2))
      rest { st with fringe := rest } (relaxOne .bfs goal e.2.2 acc n) := by
  obtain ⟨hinv, ⟨tail, htl, htld⟩, hvmono, halen, hpres, hfrontx, hgp⟩ := hP
  have hemem : e ∈ st.fringe := by rw [hfr]; exact List.mem_cons_self _ _
  have hcur : e.2.2 < st.arena.length := inv.fr_idx e hemem
  have hstlen : ({ st with fringe := rest } : SState).arena.length =
      st.arena.length := rfl
  have hcur1 : e.2.2 < ({ st with fringe := rest } : SState).arena.length :=
    hcur
  obtain ⟨hcpass, hcoid, hcreach, hccum, -, -⟩ := inv.obj e.2.2 hcur
  have hdcurdef : alookup st.csf (cellId (idxCell st e.2.2)) =
      some ((mazeGraph g).dist start (idxCell st e.2.2)) := inv.fr_rec e hemem
  have hoacc : objAt acc e.2.2 = objAt st e.2.2 := hpres e.2.2 hcur1
  have hoidacc : (objAt acc e.2.2).oid = cellId (idxCell st e.2.2) := by
    rw [hoacc]
    exact hcoid
  have hvacc : alookup acc.csf (cellId (idxCell st e.2.2)) =
      some ((mazeGraph g).dist start (idxCell st e.2.2)) :=
    hvmono _ _ hdcurdef
  have hadjG : (mazeGraph g).Adj (idxCell st e.2.2) n := by
    exact ⟨hcpass, hnp, hna⟩
  have hnreach : (mazeGraph g).Reachable start n :=
    hcreach.trans hadjG.reachable
  have hnle : (mazeGraph g).dist start n ≤
      (mazeGraph g).dist start (idxCell st e.2.2) + 1 :=
    dist_adj_le hadjG hcreach
  cases hcs : alookup acc.csf (cellId n) with
  | some old =>
      have hold : (mazeGraph g).dist start n = old :=
        (hinv.csf_exact n old hnp hcs).2
      have hlt : ¬((alookup acc.csf (objAt acc e.2.2).oid).getD 0 +
          costFunction .bfs 1 < old) := by
        rw [hoidacc, hvacc]
        simp only [Option.getD_some, costFunction]
        omega
      have hfix : relaxOne .bfs goal e.2.2 acc n = acc := by
        simp [relaxOne, hcs, hlt]
      rw [hfix]
      exact ⟨hinv, ⟨tail, htl, htld⟩, hvmono, halen, hpres, hfrontx, hgp⟩
  | none =>
      have hgt : ¬((mazeGraph g).dist start n ≤
          (mazeGraph g).dist start (idxCell st e.2.2)) := by
        intro hcon
        have hd0 : ∀ e0 rest0, st.fringe = e0 :: rest0 →
            (mazeGraph g).dist start n ≤
              (mazeGraph g).dist start (idxCell st e0.2.2) := by
          intro e0 rest0 hqe
          rw [hfr] at hqe
          have he0 : e = e0 := by injection hqe
          rw [← he0]
          exact hcon
        have hrec := bfsInv_visits inv hfront hstart hnp hnreach hd0
        cases hrecv : alookup st.csf (cellId n) with
        | none =>
            rw [hrecv] at hrec
            simp at hrec
        | some v =>
            have hvv := hvmono (cellId n) v hrecv
            rw [hvv] at hcs
            exact Option.noConfusion hcs
      have hDn : (mazeGraph g).dist start n =
          (mazeGraph g).dist start (idxCell st e.2.2) + 1 := by omega
      have hwrite : relaxOne .bfs goal e.2.2 acc n =
          { arena := acc.arena ++ [⟨n.1, n.2, some e.2.2,
              (mazeGraph g).dist start (idxCell st e.2.2) + 1, 1, cellId n⟩]
            children := (acc.children.set e.2.2
              (aupd (acc.children.getD e.2.2 []) (cellId n)
                acc.arena.length)) ++ [[]]
            visited := aupd acc.visited (cellId n) acc.arena.length
            csf := aupd acc.csf (cellId n)
              ((mazeGraph g).dist start (idxCell st e.2.2) + 1)
            fringe := acc.fringe ++
              [((mazeGraph g).dist start (idxCell st e.2.2) + 1,
                acc.counter, acc.arena.length)]
            counter := acc.counter + 1 } := by
        simp [relaxOne, hcs, hoidacc, hvacc, costFunction, pushFringe]
      obtain ⟨st2, h2eq, h2a, h2c, h2f⟩ :
          ∃ st2 : SState, relaxOne .bfs goal e.2.2 acc n = st2 ∧
            st2.arena = acc.arena ++ [⟨n.1, n.2, some e.2.2,
              (mazeGraph g).dist start (idxCell st e.2.2) + 1, 1, cellId n⟩] ∧
            st2.csf = aupd acc.csf (cellId n)
              ((mazeGraph g).dist start (idxCell st e.2.2) + 1) ∧
            st2.fringe = acc.fringe ++
              [((mazeGraph g).dist start (idxCell st e.2.2) + 1,
                acc.counter, acc.arena.length)] :=
        ⟨relaxOne .bfs goal e.2.2 acc n, rfl, by rw [hwrite], by rw [hwrite],
          by rw [hwrite]⟩
      rw [h2eq]
      have h2len : st2.arena.length = acc.arena.length + 1 := by
        rw [h2a]
        simp
      have hobj2 : ∀ j, j < acc.arena.length → objAt st2 j = objAt acc j := by
        intro j hj
        show st2.arena.getD j oDefault = acc.arena.getD j oDefault
        rw [h2a]
        exact getD_append_lt _ _ _ _ hj
      have hidx2 : ∀ j, j < acc.arena.length →
          idxCell st2 j = idxCell acc j := by
        intro j hj
        show (objAt st2 j).cell = (objAt acc j).cell
        rw [hobj2 j hj]
      have hobjnew : objAt st2 acc.arena.length = ⟨n.1, n.2, some e.2.2,
          (mazeGraph g).dist start (idxCell st e.2.2) + 1, 1, cellId n⟩ := by
        show st2.arena.getD acc.arena.length oDefault = _
        rw [h2a]
        exact getD_append_self _ _ _
      have hidxnew : idxCell st2 acc.arena.length = n := by
        show (objAt st2 acc.arena.length).cell = n
        rw [hobjnew]
        rfl
      have hcurB : e.2.2 < acc.arena.length := by
        have h1 := hcur
        have h2 := halen
        omega
      have halB : 1 ≤ acc.arena.length := hinv.alen
      have hacc_fr_idx : ∀ x ∈ acc.fringe, x.2.2 < acc.arena.length :=
        hinv.fr_idx
      have hcellacc : idxCell acc e.2.2 = idxCell st e.2.2 := by
        show (objAt acc e.2.2).cell = (objAt st e.2.2).cell
        rw [hoacc]
      have hrest_idx_st : ∀ x ∈ rest,
          idxCell acc x.2.2 = idxCell st x.2.2 := by
        intro x hx
        have hxin : x ∈ st.fringe := by
          rw [hfr]
          exact List.mem_cons_of_mem _ hx
        have hxlt : x.2.2 < ({ st with fringe := rest } : SState).arena.length :=
          inv.fr_idx x hxin
        show (objAt acc x.2.2).cell = (objAt st x.2.2).cell
        rw [hpres x.2.2 hxlt]
        rfl
      have hrestband : ∀ x ∈ rest,
          (mazeGraph g).dist start (idxCell st e.2.2) ≤
            (mazeGraph g).dist start (idxCell st x.2.2) ∧
          (mazeGraph g).dist start (idxCell st x.2.2) ≤
            (mazeGraph g).dist start (idxCell st e.2.2) + 1 := by
        intro x hx
        have hxin : x ∈ st.fringe := by
          rw [hfr]
          exact List.mem_cons_of_mem _ hx
        have hsort := inv.sorted
        rw [hfr] at hsort
        exact ⟨pairwise_map_head_le _ hsort x (List.mem_cons_of_mem _ hx),
          inv.band x hxin e hemem⟩
      have hacc_d_le : ∀ x ∈ acc.fringe,
          (mazeGraph g).dist start (idxCell acc x.2.2) ≤
            (mazeGraph g).dist start (idxCell st e.2.2) + 1 := by
        intro x hx
        rw [htl] at hx
        rcases List.mem_append.mp hx with hx | hx
        · rw [hrest_idx_st x hx]
          exact (hrestband x hx).2
        · rw [htld x hx]
      have hacc_d_ge : ∀ x ∈ acc.fringe,
          (mazeGraph g).dist start (idxCell st e.2.2) ≤
            (mazeGraph g).dist start (idxCell acc x.2.2) := by
        intro x hx
        rw [htl] at hx
        rcases List.mem_append.mp hx with hx | hx
        · rw [hrest_idx_st x hx]
          exact (hrestband x hx).1
        · rw [htld x hx]
          omega
      refine ⟨⟨?_, ?_, ?_, ?_, ?_, ?_, ?_, ?_, ?_, ?_⟩,
        ⟨tail ++ [((mazeGraph g).dist start (idxCell st e.2.2) + 1,
          acc.counter, acc.arena.length)], ?_, ?_⟩, ?_, ?_, ?_, ?_, ?_⟩
      · rw [hobj2 0 (by omega)]
        exact hinv.root
      · rw [h2len]
        omega
      · intro i hi
        rw [h2len] at hi
        by_cases hilt : i < acc.arena.length
        · obtain ⟨o1, o2, o3, o4, o5, o6⟩ := hinv.obj i hilt
          refine ⟨by rw [hidx2 i hilt]; exact o1,
            by rw [hobj2 i hilt, hidx2 i hilt]; exact o2,
            by rw [hidx2 i hilt]; exact o3,
            by rw [hobj2 i hilt, hidx2 i hilt]; exact o4, ?_, ?_⟩
          · intro p hp
            rw [hobj2 i hilt] at hp
            obtain ⟨hp1, hp2, hp3⟩ := o5 p hp
            have hplt : p < acc.arena.length := by omega
            exact ⟨hp1, by rw [hidx2 p hplt, hidx2 i hilt]; exact hp2,
              by rw [hobj2 i hilt, hobj2 p hplt]; exact hp3⟩
          · intro h0
            rw [hobj2 i hilt] at h0
            exact o6 h0
        · have hieq : i = acc.arena.length := by omega
          subst hieq
          refine ⟨by rw [hidxnew]; exact hnp,
            by rw [hobjnew, hidxnew],
            by rw [hidxnew]; exact hnreach,
            by rw [hobjnew, hidxnew, hDn], ?_, ?_⟩
          · intro p hp
            rw [hobjnew] at hp
            have hpe : some e.2.2 = some p := hp
            have hpe2 : e.2.2 = p := Option.some.inj hpe
            rw [← hpe2]
            refine ⟨hcurB, ?_, ?_⟩
            · rw [hidx2 e.2.2 hcurB, hidxnew, hcellacc]
              exact hadjG
            · rw [hobjnew, hobj2 e.2.2 hcurB, hoacc, hccum]
          · intro h0
            rw [hobjnew] at h0
            exact Option.noConfusion (show some e.2.2 = (none : Option Nat)
              from h0)
      · intro x hx
        rw [h2f] at hx
        rw [h2len]
        rcases List.mem_append.mp hx with hx' | hx'
        · have := hacc_fr_idx x hx'
          omega
        · rw [List.mem_singleton] at hx'
          subst hx'
          show acc.arena.length < acc.arena.length + 1
          omega
      · intro id hid
        rw [h2c, alookup_aupd] at hid
        by_cases hin : id = cellId n
        · exact ⟨n, hnp, hin⟩
        · rw [if_neg hin] at hid
          exact hinv.csf_dom id hid
      · intro p d hpp hpd
        rw [h2c, alookup_aupd] at hpd
        by_cases hin : cellId p = cellId n
        · have hpn : p = n := cellId_inj (by have := hpp.2.1; omega)
            (by have := hnp.2.1; omega) hin
          subst hpn
          rw [if_pos rfl] at hpd
          refine ⟨hnreach, ?_⟩
          rw [hDn]
          exact Option.some.inj hpd
        · rw [if_neg hin] at hpd
          exact hinv.csf_exact p d hpp hpd
      · rw [h2c, alookup_aupd]
        by_cases hin : cellId start = cellId n
        · exfalso
          have hsn : start = n := cellId_inj (by have := hstart.2.1; omega)
            (by have := hnp.2.1; omega) hin
          have hs0 : alookup ({ st with fringe := rest } : SState).csf
              (cellId start) = some 0 := inv.start_rec
          have hs1 := hvmono _ _ hs0
          rw [hsn] at hs1
          rw [hs1] at hcs
          exact Option.noConfusion hcs
        · rw [if_neg hin]
          exact hinv.start_rec
      · rw [h2f, List.map_append, List.pairwise_append]
        refine ⟨?_, ?_, ?_⟩
        · have hmc : acc.fringe.map (fun x =>
              (mazeGraph g).dist start (idxCell st2 x.2.2)) =
              acc.fringe.map (fun x =>
              (mazeGraph g).dist start (idxCell acc x.2.2)) :=
            List.map_congr_left (fun x hx => by
              rw [hidx2 x.2.2 (hacc_fr_idx x hx)])
          rw [hmc]
          exact hinv.sorted
        · simp
        · intro a ha b hb
          obtain ⟨x, hx, rfl⟩ := List.mem_map.mp ha
          rw [List.map_cons, List.map_nil, List.mem_singleton] at hb
          subst hb
          show (mazeGraph g).dist start (idxCell st2 x.2.2) ≤
            (mazeGraph g).dist start (idxCell st2 acc.arena.length)
          rw [hidx2 x.2.2 (hacc_fr_idx x hx), hidxnew, hDn]
          exact hacc_d_le x hx
      · intro a ha b hb
        rw [h2f] at ha hb
        rcases List.mem_append.mp ha with ha' | ha'
        · rcases List.mem_append.mp hb with hb' | hb'
          · rw [hidx2 a.2.2 (hacc_fr_idx a ha'),
              hidx2 b.2.2 (hacc_fr_idx b hb')]
            have h1 := hacc_d_le a ha'
            have h2 := hacc_d_ge b hb'
            omega
          · rw [List.mem_singleton] at hb'
            subst hb'
            show (mazeGraph g).dist start (idxCell st2 a.2.2) ≤
              (mazeGraph g).dist start (idxCell st2 acc.arena.length) + 1
            rw [hidx2 a.2.2 (hacc_fr_idx a ha'), hidxnew, hDn]
            have := hacc_d_le a ha'
            omega
        · rcases List.mem_append.mp hb with hb' | hb'
          · rw [List.mem_singleton] at ha'
            subst ha'
            show (mazeGraph g).dist start (idxCell st2 acc.arena.length) ≤
              (mazeGraph g).dist start (idxCell st2 b.2.2) + 1
            rw [hidxnew, hDn, hidx2 b.2.2 (hacc_fr_idx b hb')]
            have := hacc_d_ge b hb'
            omega
          · rw [List.mem_singleton] at ha' hb'
            subst ha'
            subst hb'
            omega
      · intro x hx
        rw [h2f] at hx
        rw [h2c]
        rcases List.mem_append.mp hx with hx' | hx'
        · rw [hidx2 x.2.2 (hacc_fr_idx x hx')]
          have hold := hinv.fr_rec x hx'
          rw [alookup_aupd]
          by_cases hin : cellId (idxCell acc x.2.2) = cellId n
          · exfalso
            have hcp : isPassage g (idxCell acc x.2.2) :=
              (hinv.obj x.2.2 (hacc_fr_idx x hx')).1
            have hxn : idxCell acc x.2.2 = n := cellId_inj
              (by have := hcp.2.1; omega) (by have := hnp.2.1; omega) hin
            rw [hxn] at hold
            rw [hold] at hcs
            exact Option.noConfusion hcs
          · rw [if_neg hin]
            exact hold
        · rw [List.mem_singleton] at hx'
          subst hx'
          show alookup (aupd acc.csf (cellId n)
              ((mazeGraph g).dist start (idxCell st e.2.2) + 1))
              (cellId (idxCell st2 acc.arena.length)) =
            some ((mazeGraph g).dist start (idxCell st2 acc.arena.length))
          rw [hidxnew, alookup_aupd, if_pos rfl, hDn]
      · rw [h2f, htl, List.append_assoc]
      · intro x hx
        rcases List.mem_append.mp hx with hx' | hx'
        · have hxacc : x ∈ acc.fringe := by
            rw [htl]
            exact List.mem_append_right _ hx'
          rw [hidx2 x.2.2 (hacc_fr_idx x hxacc)]
          exact htld x hx'
        · rw [List.mem_singleton] at hx'
          subst hx'
          show (mazeGraph g).dist start (idxCell st2 acc.arena.length) =
            (mazeGraph g).dist start (idxCell st e.2.2) + 1
          rw [hidxnew]
          exact hDn
      · intro id v hv
        rw [h2c, alookup_aupd]
        by_cases hin : id = cellId n
        · exfalso
          have ha := hvmono id v hv
          rw [hin] at ha
          rw [ha] at hcs
          exact Option.noConfusion hcs
        · rw [if_neg hin]
          exact hvmono id v hv
      · rw [h2len]
        omega
      · intro j hj
        have hjacc : j < acc.arena.length := by
          have := halen
          omega
        rw [hobj2 j hjacc]
        exact hpres j hj
      · intro p hpp hps hpne
        rw [h2c, alookup_aupd] at hps
        by_cases hin : cellId p = cellId n
        · have hpn : p = n := cellId_inj (by have := hpp.2.1; omega)
            (by have := hnp.2.1; omega) hin
          left
          refine ⟨((mazeGraph g).dist start (idxCell st e.2.2) + 1,
            acc.counter, acc.arena.length), ?_, ?_⟩
          · rw [h2f]
            exact List.mem_append_right _ (List.mem_singleton.mpr rfl)
          · show idxCell st2 acc.arena.length = p
            rw [hidxnew, hpn]
        · rw [if_neg hin] at hps
          rcases hfrontx p hpp hps hpne with ⟨x, hx, hxc⟩ | hcov
          · left
            refine ⟨x, ?_, ?_⟩
            · rw [h2f]
              exact List.mem_append_left _ hx
            · rw [hidx2 x.2.2 (hacc_fr_idx x hx)]
              exact hxc
          · right
            intro m hmp hma
            rw [h2c, alookup_aupd]
            by_cases hmn : cellId m = cellId n
            · rw [if_pos hmn]
              rfl
            · rw [if_neg hmn]
              exact hcov m hmp hma
      · intro hgs
        rw [h2c, alookup_aupd] at hgs
        by_cases hin : cellId goal = cellId n
        · have hgn : goal = n := cellId_inj (by have := hgoalp.2.1; omega)
            (by have := hnp.2.1; omega) hin
          refine ⟨((mazeGraph g).dist start (idxCell st e.2.2) + 1,
            acc.counter, acc.arena.length), ?_, ?_⟩
          · rw [h2f]
            exact List.mem_append_right _ (List.mem_singleton.mpr rfl)
          · show idxCell st2 acc.arena.length = goal
            rw [hidxnew, hgn]
        · rw [if_neg hin] at hgs
          obtain ⟨x, hx, hxc⟩ := hgp hgs
          refine ⟨x, ?_, ?_⟩
          · rw [h2f]
            exact List.mem_append_left _ hx
          · rw [hidx2 x.2.2 (hacc_fr_idx x hx)]
            exact hxc


/-- `relaxOne` never removes a `cost_so_far` entry. -/
theorem relaxOne_csf_mono (s : Strategy) (goal : Cell) (curIdx : Nat)
    (st : SState) (cell : Cell) (id : Nat)
    (h : (alookup st.csf id).isSome = true) :
    (alookup (relaxOne s goal curIdx st cell).csf id).isSome = true := by
  rcases relaxOne_eq s goal curIdx st cell with heq | _hx
  · rw [heq]
    exact h
  · obtain ⟨nc, -, -, heq⟩ := _hx
    rw [heq]
    show (alookup (aupd st.csf (cellId cell) nc) id).isSome = true
    rw [alookup_aupd]
    by_cases hid : id = cellId cell
    · rw [if_pos hid]
      rfl
    · rw [if_neg hid]
      exact h

/-- Unfolding equation of `pathUpAux` at zero fuel. -/
theorem pathUpAux_zero (arena : List Obj) (i : Nat) :
    pathUpAux arena 0 i = [i] := rfl

/-- Unfolding equation of `pathUpAux` at positive fuel. -/
theorem pathUpAux_succ (arena : List Obj) (f i : Nat) :
    pathUpAux arena (f + 1) i =
      match (arena.getD i oDefault).parent with
      | none => [i]
      | some p => i :: pathUpAux arena f p := rfl

/-- Popping the head of the BFS fringe establishes the mid-fold invariant
with no neighbour relaxed yet. -/
theorem bfs_pop_fold
    {g : Grid} {start goal : Cell}
    {st : SState} (inv : BfsInv g start st) (hfront : BfsFront g st)
    (hgp : GoalPending g goal st)
    {e : Entry} {rest : List Entry} (hfr : st.fringe = e :: rest)
    (hnotgoal : idxCell st e.2.2 ≠ goal) :
    BfsFold g start goal e.2.2 ((mazeGraph g).dist start (idxCell st e.2.2))
      rest { st with fringe := rest } { st with fringe := rest } := by
  refine ⟨⟨inv.root, inv.alen, inv.obj, ?_, inv.csf_dom, inv.csf_exact,
    inv.start_rec, ?_, ?_, ?_⟩, ⟨[], (List.append_nil rest).symm, ?_⟩,
    fun id v h => h, le_refl _, fun i hi => rfl, ?_, ?_⟩
  · intro x hx
    have hx2 : x ∈ rest := hx
    have hx3 : x ∈ st.fringe := by
      rw [hfr]
      exact List.mem_cons_of_mem _ hx2
    exact inv.fr_idx x hx3
  · have hs := inv.sorted
    rw [hfr, List.map_cons] at hs
    exact (List.pairwise_cons.mp hs).2
  · intro a ha b hb
    have ha2 : a ∈ rest := ha
    have hb2 : b ∈ rest := hb
    have ha3 : a ∈ st.fringe := by
      rw [hfr]
      exact List.mem_cons_of_mem _ ha2
    have hb3 : b ∈ st.fringe := by
      rw [hfr]
      exact List.mem_cons_of_mem _ hb2
    exact inv.band a ha3 b hb3
  · intro x hx
    have hx2 : x ∈ rest := hx
    have hx3 : x ∈ st.fringe := by
      rw [hfr]
      exact List.mem_cons_of_mem _ hx2
    exact inv.fr_rec x hx3
  · intro x hx
    exact absurd hx (List.not_mem_nil x)
  · intro p hpp hps hpne
    have hps2 : (alookup st.csf (cellId p)).isSome = true := hps
    rcases hfront p hpp hps2 with ⟨x, hx, hxc⟩ | hcov
    · rw [hfr] at hx
      rcases List.mem_cons.mp hx with hxe | hxr
      · exfalso
        apply hpne
        rw [hxe] at hxc
        exact hxc
      · left
        exact ⟨x, hxr, hxc⟩
    · right
      intro m hmp hma
      exact hcov m hmp hma
  · intro hgs
    have hgs2 : (alookup st.csf (cellId goal)).isSome = true := hgs
    obtain ⟨x, hx, hxc⟩ := hgp hgs2
    rw [hfr] at hx
    rcases List.mem_cons.mp hx with hxe | hxr
    · exfalso
      apply hnotgoal
      rw [hxe] at hxc
      exact hxc
    · exact ⟨x, hxr, hxc⟩


/-- Dropping the popped head entry preserves the BFS invariant. -/
theorem bfs_pop_inv
    {g : Grid} {start : Cell} {st : SState} (inv : BfsInv g start st)
    {e : Entry} {rest : List Entry} (hfr : st.fringe = e :: rest) :
    BfsInv g start { st with fringe := rest } := by
  refine ⟨inv.root, inv.alen, inv.obj, ?_, inv.csf_dom, inv.csf_exact,
    inv.start_rec, ?_, ?_, ?_⟩
  · intro x hx
    have hx2 : x ∈ rest := hx
    have hx3 : x ∈ st.fringe := by
      rw [hfr]
      exact List.mem_cons_of_mem _ hx2
    exact inv.fr_idx x hx3
  · have hs := inv.sorted
    rw [hfr, List.map_cons] at hs
    exact (List.pairwise_cons.mp hs).2
  · intro a ha b hb
    have ha2 : a ∈ rest := ha
    have hb2 : b ∈ rest := hb
    have ha3 : a ∈ st.fringe := by
      rw [hfr]
      exact List.mem_cons_of_mem _ ha2
    have hb3 : b ∈ st.fringe := by
      rw [hfr]
      exact List.mem_cons_of_mem _ hb2
    exact inv.band a ha3 b hb3
  · intro x hx
    have hx2 : x ∈ rest := hx
    have hx3 : x ∈ st.fringe := by
      rw [hfr]
      exact List.mem_cons_of_mem _ hx2
    exact inv.fr_rec x hx3

/-- When the popped node is the goal, `searchStep` stops successfully at
the popped state. -/
theorem bfs_step_goal
    {g : Grid} {start goal : Cell}
    {st : SState} (inv : BfsInv g start st)
    {e : Entry} {rest : List Entry} (hfr : st.fringe = e :: rest)
    (hisgoal : idxCell st e.2.2 = goal) :
    searchStep .bfs g goal st =
      some (⟨e.2.2, 0, st.visited.map (·.2)⟩, { st with fringe := rest },
        true) := by
  have hemem : e ∈ st.fringe := by rw [hfr]; exact List.mem_cons_self _ _
  have hcur : e.2.2 < st.arena.length := inv.fr_idx e hemem
  obtain ⟨-, hcoid, -, -, -, -⟩ := inv.obj e.2.2 hcur
  have hpop : popFringe .bfs st.fringe = some (e, rest) := by
    rw [hfr]
    rfl
  have hcond : (objAt ({ st with fringe := rest } : SState) e.2.2).oid =
      cellId goal := by
    show (objAt st e.2.2).oid = cellId goal
    rw [hcoid, hisgoal]
  unfold searchStep
  rw [hpop]
  simp only []
  rw [if_pos hcond]

/-- When the popped node is not the goal, `searchStep` extends and the BFS
invariants carry over to the extended state. -/
theorem bfs_step_nongoal
    {g : Grid} {start goal : Cell} (hstart : isPassage g start)
    (hgoalp : isPassage g goal) (hg16 : gridCols g ≤ 65536)
    {st : SState} (inv : BfsInv g start st) (hfront : BfsFront g st)
    (hgp : GoalPending g goal st)
    {e : Entry} {rest : List Entry} (hfr : st.fringe = e :: rest)
    (hnotgoal : idxCell st e.2.2 ≠ goal) :
    searchStep .bfs g goal st =
      some (⟨e.2.2, 0, st.visited.map (·.2)⟩,
        extend .bfs g goal e.2.2 { st with fringe := rest }, false) ∧
    BfsInv g start (extend .bfs g goal e.2.2 { st with fringe := rest }) ∧
    BfsFront g (extend .bfs g goal e.2.2 { st with fringe := rest }) ∧
    GoalPending g goal (extend .bfs g goal e.2.2 { st with fringe := rest }) := by
  have hemem : e ∈ st.fringe := by rw [hfr]; exact List.mem_cons_self _ _
  have hcur : e.2.2 < st.arena.length := inv.fr_idx e hemem
  obtain ⟨hcpass, hcoid, -, -, -, -⟩ := inv.obj e.2.2 hcur
  have hinit := bfs_pop_fold inv hfront hgp hfr hnotgoal
  have hfold : BfsFold g start goal e.2.2
      ((mazeGraph g).dist start (idxCell st e.2.2)) rest
      { st with fringe := rest }
      (extend .bfs g goal e.2.2 { st with fringe := rest }) := by
    show BfsFold g start goal e.2.2
      ((mazeGraph g).dist start (idxCell st e.2.2)) rest
      { st with fringe := rest }
      ((getNeighbors g (objAt ({ st with fringe := rest } : SState) e.2.2).row
        (objAt ({ st with fringe := rest } : SState) e.2.2).col).foldl
        (relaxOne .bfs goal e.2.2) { st with fringe := rest })
    refine foldl_preserve_mem
      (BfsFold g start goal e.2.2
        ((mazeGraph g).dist start (idxCell st e.2.2)) rest
        { st with fringe := rest })
      (relaxOne .bfs goal e.2.2) _ ?_ _ hinit
    intro acc nb hnb hP
    have hm := getNeighbors_mem hnb
    have hnpass : isPassage g nb := ⟨hm.1, hm.2.1, hm.2.2⟩
    have hnadj : adjCoord (idxCell st e.2.2) nb := getNeighbors_adj hnb
    exact bfs_relax_step hstart hgoalp hg16 inv hfront hfr hP hnpass hnadj
  obtain ⟨hinv2, -, -, -, -, hfront2, hgp2⟩ := hfold
  refine ⟨?_, hinv2, ?_, hgp2⟩
  · have hpop : popFringe .bfs st.fringe = some (e, rest) := by
      rw [hfr]
      rfl
    have hcond : ¬((objAt ({ st with fringe := rest } : SState) e.2.2).oid =
        cellId goal) := by
      intro h
      apply hnotgoal
      have h2 : cellId (idxCell st e.2.2) = cellId goal := by
        rw [← hcoid]
        exact h
      exact cellId_inj (by have := hcpass.2.1; omega)
        (by have := hgoalp.2.1; omega) h2
    unfold searchStep
    rw [hpop]
    simp only []
    rw [if_neg hcond]
  · intro p hpp hps
    by_cases hpc : p = idxCell st e.2.2
    · right
      intro m hmp hma
      have hadjm : adjCoord (idxCell st e.2.2) m := by
        rw [← hpc]
        exact hma
      have hmemN : m ∈ getNeighbors g
          (objAt ({ st with fringe := rest } : SState) e.2.2).row
          (objAt ({ st with fringe := rest } : SState) e.2.2).col :=
        getNeighbors_complete hmp hadjm
      exact foldl_each (relaxOne .bfs goal e.2.2)
        (fun acc nb => (alookup acc.csf (cellId nb)).isSome = true)
        (fun acc nb => relaxOne_csf_some .bfs goal e.2.2 acc nb)
        (fun acc nb nb2 h => relaxOne_csf_mono .bfs goal e.2.2 acc nb
          (cellId nb2) h)
        (getNeighbors g (objAt ({ st with fringe := rest } : SState) e.2.2).row
          (objAt ({ st with fringe := rest } : SState) e.2.2).col)
        { st with fringe := rest } m hmemN
    · have hpne : idxCell ({ st with fringe := rest } : SState) e.2.2 ≠ p :=
        fun h => hpc h.symm
      exact hfront2 p hpp hps hpne

/-- The initial search state satisfies the BFS invariants. -/
theorem bfs_init
    {g : Grid} {start goal : Cell} (hstart : isPassage g start)
    (hgoalp : isPassage g goal) (hg16 : gridCols g ≤ 65536) :
    BfsInv g start (initState start) ∧ BfsFront g (initState start) ∧
    GoalPending g goal (initState start) := by
  have hobj0 : objAt (initState start) 0 =
      ⟨start.1, start.2, none, 0, 1, cellId start⟩ := rfl
  have hidx0 : idxCell (initState start) 0 = start := rfl
  have hcsf : ∀ id, alookup (initState start).csf id =
      if cellId start = id then some 0 else none := fun id => rfl
  refine ⟨⟨rfl, le_refl 1, ?_, ?_, ?_, ?_, ?_, ?_, ?_, ?_⟩, ?_, ?_⟩
  · intro i hi
    have hi1 : i < 1 := hi
    have hi0 : i = 0 := by omega
    subst hi0
    refine ⟨by rw [hidx0]; exact hstart,
      by rw [hobj0, hidx0],
      by rw [hidx0],
      by rw [hobj0, hidx0, SimpleGraph.dist_self], ?_, fun _ => rfl⟩
    intro p hp
    have hp2 : (none : Option Nat) = some p := hp
    exact Option.noConfusion hp2
  · intro x hx
    have hx2 : x ∈ [((0, 0, 0) : Entry)] := hx
    rw [List.mem_singleton] at hx2
    subst hx2
    show (0 : Nat) < 1
    omega
  · intro id hid
    rw [hcsf id] at hid
    by_cases hk : cellId start = id
    · exact ⟨start, hstart, hk.symm⟩
    · rw [if_neg hk] at hid
      simp at hid
  · intro p d hpp hpd
    rw [hcsf (cellId p)] at hpd
    by_cases hk : cellId start = cellId p
    · have hsp : start = p := cellId_inj (by have := hstart.2.1; omega)
        (by have := hpp.2.1; omega) hk
      rw [if_pos hk] at hpd
      refine ⟨?_, ?_⟩
      · rw [← hsp]
      · rw [← hsp, SimpleGraph.dist_self]
        exact Option.some.inj hpd
    · rw [if_neg hk] at hpd
      exact Option.noConfusion hpd
  · rw [hcsf (cellId start), if_pos rfl]
  · simp [initState]
  · intro a ha b hb
    have ha2 : a ∈ [((0, 0, 0) : Entry)] := ha
    have hb2 : b ∈ [((0, 0, 0) : Entry)] := hb
    rw [List.mem_singleton] at ha2 hb2
    subst ha2
    subst hb2
    omega
  · intro x hx
    have hx2 : x ∈ [((0, 0, 0) : Entry)] := hx
    rw [List.mem_singleton] at hx2
    subst hx2
    show alookup (initState start).csf (cellId (idxCell (initState start) 0)) =
      some ((mazeGraph g).dist start (idxCell (initState start) 0))
    rw [hidx0, SimpleGraph.dist_self, hcsf (cellId start), if_pos rfl]
  · intro p hpp hps
    rw [hcsf (cellId p)] at hps
    by_cases hk : cellId start = cellId p
    · have hsp : start = p := cellId_inj (by have := hstart.2.1; omega)
        (by have := hpp.2.1; omega) hk
      left
      refine ⟨((0, 0, 0) : Entry), List.mem_singleton.mpr rfl, ?_⟩
      show idxCell (initState start) 0 = p
      rw [hidx0]
      exact hsp
    · rw [if_neg hk] at hps
      simp at hps
  · intro hgs
    rw [hcsf (cellId goal)] at hgs
    by_cases hk : cellId start = cellId goal
    · have hsg : start = goal := cellId_inj (by have := hstart.2.1; omega)
        (by have := hgoalp.2.1; omega) hk
      refine ⟨((0, 0, 0) : Entry), List.mem_singleton.mpr rfl, ?_⟩
      show idxCell (initState start) 0 = goal
      rw [hidx0]
      exact hsg
    · rw [if_neg hk] at hgs
      simp at hgs


/-- The BFS loop always terminates by popping the goal: it never exhausts
its fringe while the goal is reachable, and the final current node is an
arena object whose cell is the goal. -/
theorem bfs_loop
    {g : Grid} {start goal : Cell} (hstart : isPassage g start)
    (hgoalp : isPassage g goal) (hg16 : gridCols g ≤ 65536)
    (hreach : (mazeGraph g).Reachable start goal) :
    ∀ (fuel : Nat) (st : SState) (last : Option Nat),
      BfsInv g start st → BfsFront g st → GoalPending g goal st →
      MInv g start st → stMeasure g st < fuel →
      ∃ gi,
        (searchLoop .bfs g goal fuel st last).lastCur = some gi ∧
        gi < (searchLoop .bfs g goal fuel st last).state.arena.length ∧
        BfsInv g start (searchLoop .bfs g goal fuel st last).state ∧
        idxCell (searchLoop .bfs g goal fuel st last).state gi = goal := by
  intro fuel
  induction fuel with
  | zero =>
      intro st last _ _ _ _ hlt
      omega
  | succ fuel ih =>
      intro st last hinv hfront hgp hm hlt
      cases hfr : st.fringe with
      | nil =>
          exfalso
          have hd0 : ∀ e0 rest0, st.fringe = e0 :: rest0 →
              (mazeGraph g).dist start goal ≤
                (mazeGraph g).dist start (idxCell st e0.2.2) := by
            intro e0 rest0 hqe
            rw [hfr] at hqe
            exact List.noConfusion hqe
          have hrec := bfsInv_visits hinv hfront hstart hgoalp hreach hd0
          obtain ⟨x, hx, -⟩ := hgp hrec
          rw [hfr] at hx
          exact absurd hx (List.not_mem_nil x)
      | cons e rest =>
          by_cases hge : idxCell st e.2.2 = goal
          · have hstep := bfs_step_goal hinv hfr hge
            rw [searchLoop_succ, hstep]
            simp only []
            rw [if_pos trivial]
            refine ⟨e.2.2, rfl, ?_, bfs_pop_inv hinv hfr, hge⟩
            exact hinv.fr_idx e (by rw [hfr]; exact List.mem_cons_self _ _)
          · obtain ⟨hstep, hinv2, hfront2, hgp2⟩ :=
              bfs_step_nongoal hstart hgoalp hg16 hinv hfront hgp hfr hge
            obtain ⟨hm2, hdec⟩ := searchStep_minv hm hstep
            rw [searchLoop_succ, hstep]
            simp only []
            rw [if_neg Bool.false_ne_true]
            simp only []
            exact ih (extend .bfs g goal e.2.2 { st with fringe := rest })
              (some e.2.2) hinv2 hfront2 hgp2 hm2 (by omega)

/-- Reconstruction: under the BFS invariant, walking parent pointers from
any arena index yields the index chain down to the root, of length the
node cumulative cost plus one. -/
theorem pathUpAux_bfs {g : Grid} {start : Cell} {st : SState}
    (inv : BfsInv g start st) :
    ∀ (f i : Nat), i < st.arena.length → i ≤ f →
      ∃ t, pathUpAux st.arena f i = i :: t ∧
        (i :: t).length = (objAt st i).cum + 1 ∧
        (i :: t).getLast? = some 0 := by
  intro f
  induction f with
  | zero =>
      intro i hi hle
      have hi0 : i = 0 := by omega
      subst hi0
      refine ⟨[], pathUpAux_zero st.arena 0, ?_, rfl⟩
      show 1 = (objAt st 0).cum + 1
      rw [inv.root]
  | succ f ih =>
      intro i hi hle
      cases hpar : (objAt st i).parent with
      | none =>
          have hi0 : i = 0 := ((inv.obj i hi).2.2.2.2.2) hpar
          subst hi0
          refine ⟨[], ?_, ?_, rfl⟩
          · rw [pathUpAux_succ]
            rw [show (st.arena.getD 0 oDefault).parent = none from hpar]
          · show 1 = (objAt st 0).cum + 1
            rw [inv.root]
      | some p =>
          obtain ⟨hplt, hadj, hcum⟩ := ((inv.obj i hi).2.2.2.2.1) p hpar
          obtain ⟨t2, heq2, hlen2, hlast2⟩ := ih p (by omega) (by omega)
          refine ⟨p :: t2, ?_, ?_, ?_⟩
          · rw [pathUpAux_succ]
            rw [show (st.arena.getD i oDefault).parent = some p from hpar]
            simp only []
            rw [heq2]
          · have h2 : (p :: t2).length = (objAt st p).cum + 1 := hlen2
            simp only [List.length_cons] at h2 ⊢
            omega
          · rw [List.getLast?_cons_cons]
            exact hlast2


/-- C6: for breadth-first search on any maze grid (with columns within the
`(row <<< 16) ||| col` id packing, so node ids are injective, as in any
realistic grid) whose start and goal cells are passages and whose goal is
reachable from the start, the reconstructed path runs from the start to
the goal and has exactly `dist + 1` cells, i.e. its edge count equals the
shortest-hop 4-directional distance from start to goal. -/
theorem claim_C6_bfs_shortest_path
    {g : Grid} {start goal : Cell} (hg16 : gridCols g ≤ 65536)
    (hstart : isPassage g start) (hgoalp : isPassage g goal)
    (hreach : (mazeGraph g).Reachable start goal) :
    (runPathCells (searchRun .bfs g start goal)).length =
      (mazeGraph g).dist start goal + 1 ∧
    (runPathCells (searchRun .bfs g start goal)).head? = some start ∧
    (runPathCells (searchRun .bfs g start goal)).getLast? = some goal := by
  obtain ⟨binv, bfront, bgp⟩ := @bfs_init g start goal hstart hgoalp hg16
  have hmv : MInv g start (initState start) :=
    initState_minv ⟨hstart.1, hstart.2.1⟩
  have hms : stMeasure g (initState start) < searchFuel g :=
    initState_measure g start
  obtain ⟨gi, hlast, hgil, hfinv, hfidx⟩ := bfs_loop hstart hgoalp hg16 hreach
    (searchFuel g) (initState start) none binv bfront bgp hmv hms
  have hrs : (searchRun .bfs g start goal).state =
      (searchLoop .bfs g goal (searchFuel g) (initState start) none).state ∧
      (searchRun .bfs g start goal).lastCur =
      (searchLoop .bfs g goal (searchFuel g) (initState start) none).lastCur := by
    unfold searchRun
    simp only []
    rw [hlast]
    exact ⟨rfl, rfl⟩
  obtain ⟨hrs1, hrs2⟩ := hrs
  obtain ⟨t, hup, hlen, hlast0⟩ := pathUpAux_bfs hfinv gi gi hgil (le_refl gi)
  have hcum : (objAt (searchLoop .bfs g goal (searchFuel g) (initState start)
      none).state gi).cum = (mazeGraph g).dist start goal := by
    have h4 := (hfinv.obj gi hgil).2.2.2.1
    rw [h4, hfidx]
  have hga : (searchRun .bfs g start goal).lastCur.getD 0 = gi := by
    rw [hrs2, hlast]
    rfl
  have hpath : runPathCells (searchRun .bfs g start goal) =
      ((gi :: t).reverse).map (cellOfIdx (searchRun .bfs g start goal)) := by
    show ((pathUp (searchRun .bfs g start goal).state.arena
        ((searchRun .bfs g start goal).lastCur.getD 0)).reverse).map
        (cellOfIdx (searchRun .bfs g start goal)) = _
    rw [hga, hrs1]
    show ((pathUpAux (searchLoop .bfs g goal (searchFuel g) (initState start)
        none).state.arena gi gi).reverse).map
        (cellOfIdx (searchRun .bfs g start goal)) = _
    rw [hup]
  refine ⟨?_, ?_, ?_⟩
  · rw [hpath, List.length_map, List.length_reverse, hlen, hcum]
  · rw [hpath, List.head?_map, List.head?_reverse, hlast0]
    show some (cellOfIdx (searchRun .bfs g start goal) 0) = some start
    have hc0 : cellOfIdx (searchRun .bfs g start goal) 0 = start := by
      show ((searchRun .bfs g start goal).state.arena.getD 0 oDefault).cell =
        start
      rw [hrs1]
      show (objAt (searchLoop .bfs g goal (searchFuel g) (initState start)
        none).state 0).cell = start
      rw [hfinv.root]
      rfl
    rw [hc0]
  · rw [hpath, List.map_reverse, List.getLast?_reverse, List.head?_map]
    show some (cellOfIdx (searchRun .bfs g start goal) gi) = some goal
    have hcg : cellOfIdx (searchRun .bfs g start goal) gi = goal := by
      show ((searchRun .bfs g start goal).state.arena.getD gi oDefault).cell =
        goal
      rw [hrs1]
      exact hfidx
    rw [hcg]

/-- Concrete instance of C6 on the two-cell maze: the reconstructed BFS
path has distance-plus-one cells and runs from the start to the goal. -/
theorem claim_C6_bfs_shortest_path_witness :
    (runPathCells (searchRun .bfs mazeDuo (1, 1) (1, 2))).length =
      (mazeGraph mazeDuo).dist (1, 1) (1, 2) + 1 ∧
    (runPathCells (searchRun .bfs mazeDuo (1, 1) (1, 2))).head? =
      some (1, 1) ∧
    (runPathCells (searchRun .bfs mazeDuo (1, 1) (1, 2))).getLast? =
      some (1, 2) := by
  have hadj : mazeAdj mazeDuo (1, 1) (1, 2) := by decide
  have hadj2 : (mazeGraph mazeDuo).Adj (1, 1) (1, 2) := hadj
  exact claim_C6_bfs_shortest_path (by decide) (by decide) (by decide)
    hadj2.reachable

end Labyrinth
